import Mathlib

/-!
# Cache simulator: embedding of `main.cpp` and verification of its specification

The three cache organisations of `main.cpp` (`DirectMappedCache`,
`SetAssociativeCache`, `FullyAssociativeCache`) are embedded as state-passing
functions.  Conventions of the embedding:

* `unsigned int` values are naturals below `2 ^ 32`; the one place where the
  source relies on unsigned wraparound (`n - 1` used as a bit mask) is written
  with an explicit `% 2 ^ 32`.
* `int` clocks and frequency counters are integers, incremented with
  two's-complement wraparound (`wrap_int`).
* The `long long` statistics counters are naturals: `2 ^ 63` accesses are out of
  reach of any run.
* `std::vector` is `List`; an out-of-range subscript, a shift by 32 or more
  bits and a division by zero are undefined in C++ and make the embedded
  operation return `none`.
* `rand()` is an external generator.  Each access receives the value `r` that
  `rand()` returns if that access calls it (an access calls it at most once).
* `static_cast<int>(log2(x))` is `log2_floor x`, the floor of the binary
  logarithm, defined for `x > 0`.
-/

namespace CacheSim

/-- Number of values of an `unsigned int`. -/
def UINT_RANGE : Nat := 4294967296

/-- Exclusive upper bound of a non-negative `int`. -/
def INT_LIMIT : Nat := 2147483648

/-- Two's-complement wraparound of a 32-bit signed `int`. -/
def wrap_int (x : Int) : Int := (x + 2147483648) % 4294967296 - 2147483648

/-- Halving loop behind `log2_floor`; the first argument bounds the number of
halvings. -/
def log2_floor_aux : Nat → Nat → Nat
  | 0, _ => 0
  | fuel + 1, x => if 2 ≤ x then log2_floor_aux fuel (x / 2) + 1 else 0

/-- The value of `static_cast<int>(log2(x))` for `0 < x < 2 ^ 32`: the floor of
the binary logarithm (32 halvings suffice for every 32-bit value). -/
def log2_floor (x : Nat) : Nat := log2_floor_aux 32 x

/-- The enum `ReplacementPolicy`. -/
inductive ReplacementPolicy where
  | LRU
  | LFU
  | FIFO
  | RANDOM
  deriving DecidableEq

/-- The struct `CacheLine` of the direct-mapped and set-associative caches. -/
structure CacheLine where
  tag : Nat
  valid : Bool
  deriving DecidableEq

/-- The struct `CacheBlock` of the fully-associative cache. -/
structure CacheBlock where
  tag : Nat
  valid : Bool
  lru_counter : Int
  lfu_counter : Int
  deriving DecidableEq

/-- The data members of the base class `CacheSimulator`. -/
structure CacheSimulator where
  hits : Nat
  compulsory_misses : Nat
  capacity_misses : Nat
  conflict_misses : Nat
  cache_size_kb : Nat
  block_size : Nat
  offset_bits : Nat
  num_total_blocks : Nat
  deriving DecidableEq

/-- The constructor `CacheSimulator(size_kb, blk_size)` on non-negative
arguments.  It has no value where the C++ is undefined: `blk_size = 0`
(logarithm and division), or `size_kb * 1024` outside `int`. -/
def CacheSimulator.new (size_kb blk_size : Nat) : Option CacheSimulator :=
  if blk_size = 0 ∨ INT_LIMIT ≤ blk_size ∨ INT_LIMIT ≤ size_kb * 1024 then none
  else some
    { hits := 0
      compulsory_misses := 0
      capacity_misses := 0
      conflict_misses := 0
      cache_size_kb := size_kb
      block_size := blk_size
      offset_bits := log2_floor blk_size
      num_total_blocks := (size_kb * 1024) / blk_size }

/-- The tail of `CacheSimulator::access`: `if (hit) hits++`. -/
def CacheSimulator.count_hit (b : CacheSimulator) (hit : Bool) : CacheSimulator :=
  if hit then { b with hits := b.hits + 1 } else b

/-- The local `total_accesses` of `print_stats`. -/
def CacheSimulator.total_accesses (b : CacheSimulator) : Nat :=
  b.hits + b.compulsory_misses + b.capacity_misses + b.conflict_misses

/-- The loop `for (i = lo; i < lo + n; ++i) if (p (v[i])) return i;`.
The result is `none` when the loop subscripts `v` out of range,
`some (some i)` when it returns at `i`, and `some none` when it runs to its
end. -/
def scan_first {α : Type} (v : List α) (p : α → Bool) : Nat → Nat → Option (Option Nat)
  | _, 0 => some none
  | i, n + 1 =>
    match v[i]? with
    | none => none
    | some x => if p x then some (some i) else scan_first v p (i + 1) n

/-! ## Direct-mapped cache -/

/-- The class `DirectMappedCache`. -/
structure DirectMappedCache extends CacheSimulator where
  cache : List CacheLine
  index_bits : Nat
  deriving DecidableEq

/-- The constructor `DirectMappedCache(size_kb, blk_size)`; no value when the
base constructor has none or `log2(num_total_blocks)` is taken at zero. -/
def DirectMappedCache.new (size_kb blk_size : Nat) : Option DirectMappedCache :=
  match CacheSimulator.new size_kb blk_size with
  | none => none
  | some base =>
    if base.num_total_blocks = 0 then none
    else some
      { toCacheSimulator := base
        index_bits := log2_floor base.num_total_blocks
        cache := List.replicate base.num_total_blocks { tag := 0, valid := false } }

/-- The local `index` of `DirectMappedCache::perform_access`. -/
def DirectMappedCache.index (s : DirectMappedCache) (address : Nat) : Nat :=
  (address >>> s.offset_bits) &&& ((s.num_total_blocks + UINT_RANGE - 1) % UINT_RANGE)

/-- The local `tag` of `DirectMappedCache::perform_access`. -/
def DirectMappedCache.tag (s : DirectMappedCache) (address : Nat) : Nat :=
  address >>> (s.offset_bits + s.index_bits)

/-- The method `DirectMappedCache::perform_access`. -/
def DirectMappedCache.perform_access (s : DirectMappedCache) (address : Nat) :
    Option (Bool × DirectMappedCache) :=
  if 32 ≤ s.offset_bits + s.index_bits then none
  else
    let index := s.index address
    let tag := s.tag address
    match s.cache[index]? with
    | none => none
    | some line =>
      if line.valid && line.tag == tag then some (true, s)
      else
        let s1 : DirectMappedCache :=
          if !line.valid then { s with compulsory_misses := s.compulsory_misses + 1 }
          else { s with conflict_misses := s.conflict_misses + 1 }
        some (false, { s1 with cache := s1.cache.set index { tag := tag, valid := true } })

/-- The method `CacheSimulator::access` on a direct-mapped cache. -/
def DirectMappedCache.access (s : DirectMappedCache) (address : Nat) :
    Option (Bool × DirectMappedCache) :=
  match s.perform_access address with
  | none => none
  | some (hit, s1) => some (hit, { s1 with toCacheSimulator := s1.toCacheSimulator.count_hit hit })

/-- The loop of `run_simulation` on a direct-mapped cache, over the addresses
the generator delivers. -/
def DirectMappedCache.run (s : DirectMappedCache) : List Nat → Option DirectMappedCache
  | [] => some s
  | a :: rest =>
    match s.access a with
    | none => none
    | some (_, s1) => DirectMappedCache.run s1 rest

/-! ## Set-associative cache -/

/-- The class `SetAssociativeCache`. -/
structure SetAssociativeCache extends CacheSimulator where
  ways : Nat
  num_sets : Nat
  index_bits : Nat
  cache : List (List CacheLine)
  deriving DecidableEq

/-- The constructor `SetAssociativeCache(size_kb, blk_size, num_ways)` on
non-negative arguments; no value when the base constructor has none,
`num_ways` is zero (division) or not an `int`, or `log2(num_sets)` is taken
at zero. -/
def SetAssociativeCache.new (size_kb blk_size num_ways : Nat) : Option SetAssociativeCache :=
  match CacheSimulator.new size_kb blk_size with
  | none => none
  | some base =>
    if num_ways = 0 ∨ INT_LIMIT ≤ num_ways then none
    else if base.num_total_blocks / num_ways = 0 then none
    else some
      { toCacheSimulator := base
        ways := num_ways
        num_sets := base.num_total_blocks / num_ways
        index_bits := log2_floor (base.num_total_blocks / num_ways)
        cache := List.replicate (base.num_total_blocks / num_ways)
          (List.replicate num_ways { tag := 0, valid := false }) }

/-- The local `index` of `SetAssociativeCache::perform_access`. -/
def SetAssociativeCache.index (s : SetAssociativeCache) (address : Nat) : Nat :=
  (address >>> s.offset_bits) &&& ((s.num_sets + UINT_RANGE - 1) % UINT_RANGE)

/-- The local `tag` of `SetAssociativeCache::perform_access`. -/
def SetAssociativeCache.tag (s : SetAssociativeCache) (address : Nat) : Nat :=
  address >>> (s.offset_bits + s.index_bits)

/-- The method `SetAssociativeCache::perform_access`; `r` is the value of
`rand()`. -/
def SetAssociativeCache.perform_access (s : SetAssociativeCache) (address r : Nat) :
    Option (Bool × SetAssociativeCache) :=
  if 32 ≤ s.offset_bits + s.index_bits then none
  else
    let index := s.index address
    let tag := s.tag address
    match s.cache[index]? with
    | none => none
    | some set =>
      match scan_first set (fun l => l.valid && l.tag == tag) 0 s.ways with
      | none => none
      | some (some _) => some (true, s)
      | some none =>
        match scan_first set (fun l => !l.valid) 0 s.ways with
        | none => none
        | some (some i) =>
          some (false,
            { s with
              cache := s.cache.set index (set.set i { tag := tag, valid := true })
              compulsory_misses := s.compulsory_misses + 1 })
        | some none =>
          if s.ways = 0 then none
          else
            let victim_way := r % s.ways
            match set[victim_way]? with
            | none => none
            | some line =>
              some (false,
                { s with
                  cache := s.cache.set index (set.set victim_way { line with tag := tag })
                  conflict_misses := s.conflict_misses + 1 })

/-- The method `CacheSimulator::access` on a set-associative cache. -/
def SetAssociativeCache.access (s : SetAssociativeCache) (address r : Nat) :
    Option (Bool × SetAssociativeCache) :=
  match s.perform_access address r with
  | none => none
  | some (hit, s1) => some (hit, { s1 with toCacheSimulator := s1.toCacheSimulator.count_hit hit })

/-- The loop of `run_simulation` on a set-associative cache, over pairs of an
address and the value of `rand()` available to that access. -/
def SetAssociativeCache.run (s : SetAssociativeCache) :
    List (Nat × Nat) → Option SetAssociativeCache
  | [] => some s
  | (a, r) :: rest =>
    match s.access a r with
    | none => none
    | some (_, s1) => SetAssociativeCache.run s1 rest

/-! ## Fully-associative cache -/

/-- The class `FullyAssociativeCache`. -/
structure FullyAssociativeCache extends CacheSimulator where
  cache : List CacheBlock
  policy : ReplacementPolicy
  current_time : Int
  filled_blocks : Nat
  deriving DecidableEq

/-- The constructor `FullyAssociativeCache(size_kb, blk_size, p)`. -/
def FullyAssociativeCache.new (size_kb blk_size : Nat) (p : ReplacementPolicy) :
    Option FullyAssociativeCache :=
  match CacheSimulator.new size_kb blk_size with
  | none => none
  | some base =>
    some
      { toCacheSimulator := base
        cache := List.replicate base.num_total_blocks
          { tag := 0, valid := false, lru_counter := 0, lfu_counter := 0 }
        policy := p
        current_time := 0
        filled_blocks := 0 }

/-- The local `tag` of `FullyAssociativeCache::perform_access`. -/
def FullyAssociativeCache.tag (s : FullyAssociativeCache) (address : Nat) : Nat :=
  address >>> s.offset_bits

/-- The minimum loops of `find_victim`:
`for (i; i < i + n; ++i) if (key (cache[i]) < min_val) { min_val = key (cache[i]); victim = i; }`
returning the final `victim`; `none` on a subscript out of range. -/
def FullyAssociativeCache.min_loop (key : CacheBlock → Int) (cache : List CacheBlock) :
    Nat → Nat → Int → Nat → Option Nat
  | _, 0, _, victim => some victim
  | i, n + 1, min_val, victim =>
    match cache[i]? with
    | none => none
    | some b =>
      if key b < min_val then FullyAssociativeCache.min_loop key cache (i + 1) n (key b) i
      else FullyAssociativeCache.min_loop key cache (i + 1) n min_val victim

/-- The method `FullyAssociativeCache::find_victim`; `r` is the value of
`rand()`. -/
def FullyAssociativeCache.find_victim (s : FullyAssociativeCache) (r : Nat) : Option Nat :=
  match s.policy with
  | ReplacementPolicy.RANDOM =>
    if s.num_total_blocks = 0 then none else some (r % s.num_total_blocks)
  | ReplacementPolicy.FIFO | ReplacementPolicy.LRU =>
    match s.cache[0]? with
    | none => none
    | some b0 =>
      FullyAssociativeCache.min_loop CacheBlock.lru_counter s.cache 1 (s.num_total_blocks - 1)
        b0.lru_counter 0
  | ReplacementPolicy.LFU =>
    match s.cache[0]? with
    | none => none
    | some b0 =>
      FullyAssociativeCache.min_loop CacheBlock.lfu_counter s.cache 1 (s.num_total_blocks - 1)
        b0.lfu_counter 0

/-- The update of the block found by the hit loop of
`FullyAssociativeCache::perform_access`. -/
def FullyAssociativeCache.touch (p : ReplacementPolicy) (now : Int) (b : CacheBlock) :
    CacheBlock :=
  match p with
  | ReplacementPolicy.LRU => { b with lru_counter := now }
  | ReplacementPolicy.LFU => { b with lfu_counter := wrap_int (b.lfu_counter + 1) }
  | ReplacementPolicy.FIFO => b
  | ReplacementPolicy.RANDOM => b

/-- The method `FullyAssociativeCache::perform_access`; `r` is the value of
`rand()`. -/
def FullyAssociativeCache.perform_access (s : FullyAssociativeCache) (address r : Nat) :
    Option (Bool × FullyAssociativeCache) :=
  if 32 ≤ s.offset_bits then none
  else
    let now := wrap_int (s.current_time + 1)
    let s0 : FullyAssociativeCache := { s with current_time := now }
    let tag := s.tag address
    match scan_first s0.cache (fun b => b.tag == tag) 0 s0.filled_blocks with
    | none => none
    | some (some i) =>
      match s0.cache[i]? with
      | none => none
      | some b =>
        some (true,
          { s0 with cache := s0.cache.set i (FullyAssociativeCache.touch s0.policy now b) })
    | some none =>
      let placed (s1 : FullyAssociativeCache) (victim_index : Nat) :
          Option (Bool × FullyAssociativeCache) :=
        if victim_index < s1.cache.length then
          some (false,
            { s1 with
              cache := s1.cache.set victim_index
                { tag := tag, valid := true, lru_counter := now, lfu_counter := 1 } })
        else none
      if s0.filled_blocks < s0.num_total_blocks then
        placed
          { s0 with
            filled_blocks := s0.filled_blocks + 1
            compulsory_misses := s0.compulsory_misses + 1 }
          s0.filled_blocks
      else
        match s0.find_victim r with
        | none => none
        | some victim_index =>
          placed { s0 with capacity_misses := s0.capacity_misses + 1 } victim_index

/-- The method `CacheSimulator::access` on a fully-associative cache. -/
def FullyAssociativeCache.access (s : FullyAssociativeCache) (address r : Nat) :
    Option (Bool × FullyAssociativeCache) :=
  match s.perform_access address r with
  | none => none
  | some (hit, s1) => some (hit, { s1 with toCacheSimulator := s1.toCacheSimulator.count_hit hit })

/-- The loop of `run_simulation` on a fully-associative cache, over pairs of an
address and the value of `rand()` available to that access. -/
def FullyAssociativeCache.run (s : FullyAssociativeCache) :
    List (Nat × Nat) → Option FullyAssociativeCache
  | [] => some s
  | (a, r) :: rest =>
    match s.access a r with
    | none => none
    | some (_, s1) => FullyAssociativeCache.run s1 rest

/-! ## Vocabulary of the specification -/

/-- The four outcomes of an access. -/
inductive Outcome where
  | hit
  | compulsory
  | capacity
  | conflict
  deriving DecidableEq

/-- The members `b1` of the base class are those of `b` after the one counter
of outcome `o` was incremented by one: the other three counters, and the
configuration, are unchanged. -/
def Classified (o : Outcome) (b b1 : CacheSimulator) : Prop :=
  match o with
  | Outcome.hit => b1 = { b with hits := b.hits + 1 }
  | Outcome.compulsory => b1 = { b with compulsory_misses := b.compulsory_misses + 1 }
  | Outcome.capacity => b1 = { b with capacity_misses := b.capacity_misses + 1 }
  | Outcome.conflict => b1 = { b with conflict_misses := b.conflict_misses + 1 }

instance (o : Outcome) (b b1 : CacheSimulator) : Decidable (Classified o b b1) := by
  cases o <;> unfold Classified <;> infer_instance

/-- Valid configuration of a direct-mapped cache: the capacity in bytes is an
`int`, the block size and the block count are powers of two (so the block
count is at least 1). -/
def ValidConfig (size_kb blk_size : Nat) : Prop :=
  size_kb * 1024 < INT_LIMIT ∧ (∃ a, blk_size = 2 ^ a) ∧
    (∃ c, size_kb * 1024 / blk_size = 2 ^ c)

/-- Valid configuration of a set-associative cache: a valid configuration
whose way count is a power of two dividing the block count. -/
def ValidWays (size_kb blk_size num_ways : Nat) : Prop :=
  ValidConfig size_kb blk_size ∧ (∃ w, num_ways = 2 ^ w) ∧
    num_ways ∣ size_kb * 1024 / blk_size

/-- Valid configuration of a fully-associative cache: the capacity in bytes is
an `int`, the block size is a power of two and there is at least one block. -/
def ValidBlocks (size_kb blk_size : Nat) : Prop :=
  size_kb * 1024 < INT_LIMIT ∧ (∃ a, blk_size = 2 ^ a) ∧ blk_size ≤ size_kb * 1024

/-- Representation invariant of a direct-mapped cache. -/
def DirectMappedCache.WF (s : DirectMappedCache) : Prop :=
  s.cache.length = s.num_total_blocks ∧ s.num_total_blocks = 2 ^ s.index_bits ∧
    s.offset_bits + s.index_bits < 32

/-- Representation invariant of a set-associative cache. -/
def SetAssociativeCache.WF (s : SetAssociativeCache) : Prop :=
  s.cache.length = s.num_sets ∧ (∀ set ∈ s.cache, set.length = s.ways) ∧
    s.num_sets = 2 ^ s.index_bits ∧ 0 < s.ways ∧ s.offset_bits + s.index_bits < 32

/-- Representation invariant of a fully-associative cache. -/
def FullyAssociativeCache.WF (s : FullyAssociativeCache) : Prop :=
  s.cache.length = s.num_total_blocks ∧ s.filled_blocks ≤ s.num_total_blocks ∧
    0 < s.num_total_blocks ∧ s.offset_bits < 32

/-- Tag `t` is held by one of the first `filled` blocks of `cache`. -/
def ResidentIn (cache : List CacheBlock) (filled : Nat) (t : Nat) : Prop :=
  ∃ j b, j < filled ∧ cache[j]? = some b ∧ b.tag = t

/-- Invariant of a fully-associative cache reached from a fresh one by accesses
whose tags, in order, are `seen`: the compulsory misses and the filled blocks
both number `min N d`, with `d` the number of distinct tags seen, and as long
as `d ≤ N` the filled blocks hold exactly the tags seen. -/
def FullyAssociativeCache.SeenInv (s : FullyAssociativeCache) (seen : List Nat) : Prop :=
  s.compulsory_misses = min s.num_total_blocks seen.toFinset.card ∧
  s.filled_blocks = min s.num_total_blocks seen.toFinset.card ∧
  (seen.toFinset.card ≤ s.num_total_blocks →
    ∀ t, t ∈ seen ↔ ResidentIn s.cache s.filled_blocks t)

/-- The first blocks of the cache hold, in order, the tags of the accesses
`l`, each stamped with the position of its access (starting at 1) and with
frequency 1: the state of a fresh cache after `l`, when the tags of `l` are
pairwise distinct and fit. -/
def FullyAssociativeCache.FilledWith (s : FullyAssociativeCache) (l : List (Nat × Nat)) : Prop :=
  ∀ (j : Nat) (x : Nat × Nat), l[j]? = some x →
    s.cache[j]? = some
      { tag := s.tag x.1, valid := true, lru_counter := ((j + 1 : Nat) : Int), lfu_counter := 1 }

/-- Number of positions of the tag sequence `tags`, read after the tags `seen`,
whose tag occurs nowhere before it while fewer than `n` distinct tags occur
before it: the first references made while a cache of `n` blocks, filled one
block per new tag, still has an unfilled block. -/
def count_first_refs (n : Nat) : List Nat → List Nat → Nat
  | _, [] => 0
  | seen, t :: rest =>
    (if t ∉ seen ∧ seen.dedup.length < n then 1 else 0) + count_first_refs n (seen ++ [t]) rest

/-- Bounds under which every subscript and shift of a direct-mapped access is
defined: the vector has `num_total_blocks ≥ 1` lines and the two shift counts
are below 32.  The block count need not be a power of two. -/
def DirectMappedCache.InBounds (s : DirectMappedCache) : Prop :=
  s.cache.length = s.num_total_blocks ∧ 0 < s.num_total_blocks ∧
    s.num_total_blocks < UINT_RANGE ∧ s.offset_bits + s.index_bits < 32

/-- Bounds under which every subscript, shift and division of a
set-associative access is defined: the vector has `num_sets ≥ 1` sets of
`ways ≥ 1` lines each and the two shift counts are below 32. -/
def SetAssociativeCache.InBounds (s : SetAssociativeCache) : Prop :=
  s.cache.length = s.num_sets ∧ (∀ set ∈ s.cache, set.length = s.ways) ∧
    0 < s.num_sets ∧ s.num_sets < UINT_RANGE ∧ 0 < s.ways ∧
    s.offset_bits + s.index_bits < 32

/-- Geometry of a set-associative cache that keeps every access in bounds: the
capacity in bytes is an `int`, the block size is a power of two, there is at
least one block, and the way count is at least 1 and divides the block count
(it need not be a power of two). -/
def ValidSets (size_kb blk_size num_ways : Nat) : Prop :=
  ValidBlocks size_kb blk_size ∧ 0 < num_ways ∧ num_ways ∣ size_kb * 1024 / blk_size

/-- The most recent address of the sequence `pre` whose index (under `idx`) is
`i`, if there is one: the last access that used slot `i`. -/
def last_same_index (idx : Nat → Nat) (i : Nat) (pre : List Nat) : Option Nat :=
  pre.reverse.find? (fun b => idx b == i)

/-- The position, counted from 1, of the most recent occurrence of tag `t` in
the sequence `seen` of referenced tags; 0 when `t` does not occur. -/
def last_ref (t : Nat) : List Nat → Nat
  | [] => 0
  | x :: rest =>
    if last_ref t rest = 0 then (if x = t then 1 else 0) else last_ref t rest + 1

/-- The first `filled` blocks of `cache` are stamped with the position of the
most recent reference to the tag they hold, among the references `seen`, and
hold pairwise distinct tags. -/
def LruStamped (cache : List CacheBlock) (filled : Nat) (seen : List Nat) : Prop :=
  (∀ (j : Nat) (b : CacheBlock), j < filled → cache[j]? = some b →
    b.lru_counter = ((last_ref b.tag seen : Nat) : Int) ∧ 0 < last_ref b.tag seen) ∧
  (∀ (i j : Nat) (bi bj : CacheBlock), i < filled → j < filled →
    cache[i]? = some bi → cache[j]? = some bj → bi.tag = bj.tag → i = j)

/-- Invariant of an LRU cache reached from a fresh one by accesses whose tags,
in order, are `seen`: the clock counts the accesses and the filled blocks are
stamped as in `LruStamped`. -/
def FullyAssociativeCache.LruInv (s : FullyAssociativeCache) (seen : List Nat) : Prop :=
  s.current_time = ((seen.length : Nat) : Int) ∧ LruStamped s.cache s.filled_blocks seen

/-- The effect of one set-associative access with tag `tag` on the set `set` it
indexes, `set1` being the set afterwards and `d` the number of compulsory
misses counted (0 or 1): a hit leaves the set as it is; a miss with an
invalid way fills the first invalid way; a miss on a completely valid set
leaves it completely valid. -/
def SetAssociativeCache.Effect (ways tag : Nat) (set set1 : List CacheLine) (d : Nat) : Prop :=
  ((∃ (k : Nat) (line : CacheLine),
      set[k]? = some line ∧ line.valid = true ∧ line.tag = tag) ∧ d = 0 ∧ set1 = set) ∨
  ((∀ line ∈ set, ¬ (line.valid = true ∧ line.tag = tag)) ∧ d = 1 ∧
    ∃ (k : Nat) (y : CacheLine), set[k]? = some y ∧ y.valid = false ∧
      scan_first set (fun l => !l.valid) 0 ways = some (some k) ∧
      set1 = set.set k { tag := tag, valid := true }) ∨
  ((∀ line ∈ set, ¬ (line.valid = true ∧ line.tag = tag)) ∧ d = 0 ∧
    scan_first set (fun l => !l.valid) 0 ways = some none ∧
    (∀ line ∈ set, line.valid = true) ∧ ∀ line ∈ set1, line.valid = true)

/-- Relation between two set-associative caches reached from one fresh cache
by the same addresses under possibly different values of `rand()`: the same
geometry, the same compulsory and capacity counts, the same number of
accesses counted as hit or conflict, and every set either equal in both or
completely valid in both. -/
def SetAssociativeCache.SameFill (s t : SetAssociativeCache) : Prop :=
  t.ways = s.ways ∧ t.num_sets = s.num_sets ∧ t.index_bits = s.index_bits ∧
  t.offset_bits = s.offset_bits ∧
  t.compulsory_misses = s.compulsory_misses ∧ t.capacity_misses = s.capacity_misses ∧
  t.hits + t.conflict_misses = s.hits + s.conflict_misses ∧
  ∀ (i : Nat) (set1 set2 : List CacheLine), s.cache[i]? = some set1 → t.cache[i]? = some set2 →
    set2 = set1 ∨ ((∀ line ∈ set1, line.valid = true) ∧ ∀ line ∈ set2, line.valid = true)

/-! ## Arithmetic of the address fields -/

theorem log2_floor_two_pow : ∀ k < 32, log2_floor (2 ^ k) = k := by decide

theorem two_pow_lt_int_limit {k : Nat} (h : 2 ^ k < INT_LIMIT) : k < 31 := by
  by_contra hk
  have h1 : 2 ^ 31 ≤ 2 ^ k := Nat.pow_le_pow_right (by decide) (by omega)
  simp only [INT_LIMIT] at h
  omega

theorem mask_two_pow {k : Nat} (hk : k < 32) :
    (2 ^ k + UINT_RANGE - 1) % UINT_RANGE = 2 ^ k - 1 := by
  have h1 : 2 ^ k ≤ 2 ^ 31 := Nat.pow_le_pow_right (by decide) (by omega)
  have h2 : 0 < 2 ^ k := Nat.two_pow_pos k
  simp only [UINT_RANGE]
  omega

theorem valid_config_bits {size_kb blk_size : Nat} (h : ValidConfig size_kb blk_size) :
    ∃ a c, blk_size = 2 ^ a ∧ size_kb * 1024 / blk_size = 2 ^ c ∧ a + c < 31 := by
  obtain ⟨hr, ⟨a, ha⟩, ⟨c, hc⟩⟩ := h
  refine ⟨a, c, ha, hc, ?_⟩
  apply two_pow_lt_int_limit
  have h1 : size_kb * 1024 / blk_size * blk_size ≤ size_kb * 1024 := Nat.div_mul_le_self _ _
  rw [hc, ha, ← pow_add, Nat.add_comm] at h1
  omega

/-! ## Direct-mapped cache: construction and single accesses -/

theorem DirectMappedCache.dm_new_of_valid {size_kb blk_size : Nat}
    (h : ValidConfig size_kb blk_size) :
    ∃ a c, blk_size = 2 ^ a ∧ size_kb * 1024 / blk_size = 2 ^ c ∧ a + c < 31 ∧
      DirectMappedCache.new size_kb blk_size = some
        { hits := 0, compulsory_misses := 0, capacity_misses := 0, conflict_misses := 0,
          cache_size_kb := size_kb, block_size := blk_size, offset_bits := a,
          num_total_blocks := 2 ^ c, index_bits := c,
          cache := List.replicate (2 ^ c) { tag := 0, valid := false } } := by
  obtain ⟨a, c, ha, hc, hac⟩ := valid_config_bits h
  refine ⟨a, c, ha, hc, hac, ?_⟩
  have hr := h.1
  have hb1 : 0 < 2 ^ a := Nat.two_pow_pos a
  have hc1 : 0 < 2 ^ c := Nat.two_pow_pos c
  have hb2 : blk_size < INT_LIMIT := by
    have h1 : size_kb * 1024 / blk_size * blk_size ≤ size_kb * 1024 := Nat.div_mul_le_self _ _
    rw [hc] at h1
    have h2 : blk_size ≤ 2 ^ c * blk_size := Nat.le_mul_of_pos_left _ hc1
    omega
  have hg : ¬ (blk_size = 0 ∨ INT_LIMIT ≤ blk_size ∨ INT_LIMIT ≤ size_kb * 1024) := by
    rw [ha] at hb2 ⊢
    omega
  simp only [DirectMappedCache.new, CacheSimulator.new, if_neg hg, hc]
  rw [if_neg (by omega)]
  rw [ha, log2_floor_two_pow a (by omega), log2_floor_two_pow c (by omega)]

theorem DirectMappedCache.dm_index_eq_mod {s : DirectMappedCache} (h : s.WF) (address : Nat) :
    s.index address = (address >>> s.offset_bits) % 2 ^ s.index_bits := by
  obtain ⟨-, h2, h3⟩ := h
  unfold DirectMappedCache.index
  rw [h2, mask_two_pow (by omega), Nat.and_pow_two_sub_one_eq_mod]

theorem DirectMappedCache.dm_index_lt {s : DirectMappedCache} (h : s.WF) (address : Nat) :
    s.index address < s.cache.length := by
  rw [DirectMappedCache.dm_index_eq_mod h, h.1, h.2.1]
  exact Nat.mod_lt _ (Nat.two_pow_pos _)

theorem DirectMappedCache.dm_access_hit {s : DirectMappedCache} {address : Nat} {line : CacheLine}
    (hb : s.offset_bits + s.index_bits < 32) (hl : s.cache[s.index address]? = some line)
    (hv : line.valid = true) (ht : line.tag = s.tag address) :
    s.access address = some (true, { s with hits := s.hits + 1 }) := by
  simp [DirectMappedCache.access, DirectMappedCache.perform_access, Nat.not_le.mpr hb, hl, hv, ht,
    CacheSimulator.count_hit]

theorem DirectMappedCache.dm_access_compulsory {s : DirectMappedCache} {address : Nat}
    {line : CacheLine}
    (hb : s.offset_bits + s.index_bits < 32) (hl : s.cache[s.index address]? = some line)
    (hv : line.valid = false) :
    s.access address = some (false,
      { s with
        compulsory_misses := s.compulsory_misses + 1
        cache := s.cache.set (s.index address) { tag := s.tag address, valid := true } }) := by
  simp [DirectMappedCache.access, DirectMappedCache.perform_access, Nat.not_le.mpr hb, hl, hv,
    CacheSimulator.count_hit]

theorem DirectMappedCache.dm_access_conflict {s : DirectMappedCache} {address : Nat}
    {line : CacheLine}
    (hb : s.offset_bits + s.index_bits < 32) (hl : s.cache[s.index address]? = some line)
    (hv : line.valid = true) (ht : line.tag ≠ s.tag address) :
    s.access address = some (false,
      { s with
        conflict_misses := s.conflict_misses + 1
        cache := s.cache.set (s.index address) { tag := s.tag address, valid := true } }) := by
  simp [DirectMappedCache.access, DirectMappedCache.perform_access, Nat.not_le.mpr hb, hl, hv, ht,
    CacheSimulator.count_hit]

theorem DirectMappedCache.dm_access_step {s : DirectMappedCache} (h : s.WF) (address : Nat) :
    ∃ hit s1 line, s.access address = some (hit, s1) ∧
      s.cache[s.index address]? = some line ∧
      s1.cache = s.cache.set (s.index address) { tag := s.tag address, valid := true } ∧
      s1.index_bits = s.index_bits ∧ s1.offset_bits = s.offset_bits ∧
      s1.num_total_blocks = s.num_total_blocks ∧
      (line.valid = false →
        hit = false ∧ Classified Outcome.compulsory s.toCacheSimulator s1.toCacheSimulator) ∧
      (line.valid = true → line.tag ≠ s.tag address →
        hit = false ∧ Classified Outcome.conflict s.toCacheSimulator s1.toCacheSimulator) ∧
      (line.valid = true → line.tag = s.tag address →
        hit = true ∧ Classified Outcome.hit s.toCacheSimulator s1.toCacheSimulator) := by
  have hlt := DirectMappedCache.dm_index_lt h address
  obtain ⟨line, hl⟩ : ∃ line, s.cache[s.index address]? = some line :=
    ⟨_, List.getElem?_eq_getElem hlt⟩
  have hb := h.2.2
  cases hv : line.valid with
  | false =>
    refine ⟨false, _, line, DirectMappedCache.dm_access_compulsory hb hl hv, hl, rfl, rfl, rfl, rfl,
      fun _ => ⟨rfl, rfl⟩, ?_, ?_⟩ <;> intro h1 <;> simp [hv] at h1
  | true =>
    by_cases ht : line.tag = s.tag address
    · refine ⟨true, _, line, DirectMappedCache.dm_access_hit hb hl hv ht, hl, ?_, rfl, rfl, rfl,
        ?_, fun _ h2 => absurd ht h2, fun _ _ => ⟨rfl, rfl⟩⟩
      · have hline : line = { tag := s.tag address, valid := true } := by
          cases line
          simp_all
        rw [← hline]
        apply List.ext_getElem?
        intro i
        by_cases hi : s.index address = i
        · subst hi
          rw [List.getElem?_set_self hlt, hl]
        · rw [List.getElem?_set_ne hi]
      · intro h1
        simp [hv] at h1
    · refine ⟨false, _, line, DirectMappedCache.dm_access_conflict hb hl hv ht, hl, rfl, rfl, rfl,
        rfl, ?_, fun _ _ => ⟨rfl, rfl⟩, fun _ h2 => absurd h2 ht⟩
      intro h1
      simp [hv] at h1

theorem DirectMappedCache.dm_wf_of_step {s s1 : DirectMappedCache} (h : s.WF) {i : Nat}
    {line : CacheLine} (hc : s1.cache = s.cache.set i line)
    (hi : s1.index_bits = s.index_bits) (ho : s1.offset_bits = s.offset_bits)
    (hn : s1.num_total_blocks = s.num_total_blocks) : s1.WF := by
  unfold DirectMappedCache.WF at *
  rw [hc, hi, ho, hn, List.length_set]
  exact h

theorem classified_total {o : Outcome} {b b1 : CacheSimulator} (h : Classified o b b1) :
    b1.total_accesses = b.total_accesses + 1 := by
  cases o <;> simp only [Classified] at h <;> subst h <;>
    simp only [CacheSimulator.total_accesses] <;> omega

/-! ## The search loops -/

theorem scan_first_none {α : Type} (v : List α) (p : α → Bool) :
    ∀ n i, i + n ≤ v.length →
      (∀ j x, i ≤ j → j < i + n → v[j]? = some x → p x = false) →
      scan_first v p i n = some none := by
  intro n
  induction n with
  | zero => intro i _ _; rfl
  | succ n ih =>
    intro i hlen hall
    have hi : i < v.length := by omega
    have hx : v[i]? = some v[i] := List.getElem?_eq_getElem hi
    simp only [scan_first, hx, hall i v[i] (Nat.le_refl _) (by omega) hx]
    simp only [Bool.false_eq_true, if_false]
    exact ih (i + 1) (by omega) (fun j x h1 h2 h3 => hall j x (by omega) (by omega) h3)

theorem scan_first_some {α : Type} (v : List α) (p : α → Bool) (k : Nat) (y : α)
    (hk : v[k]? = some y) (hp : p y = true) :
    ∀ n i, i ≤ k → k < i + n →
      (∀ j x, i ≤ j → j < k → v[j]? = some x → p x = false) →
      scan_first v p i n = some (some k) := by
  intro n
  induction n with
  | zero => intro i h1 h2; omega
  | succ n ih =>
    intro i h1 h2 hall
    by_cases hik : i = k
    · subst hik
      simp [scan_first, hk, hp]
    · have hklen : k < v.length := by
        rcases List.getElem?_eq_some.mp hk with ⟨h, -⟩
        exact h
      have hi : i < v.length := by omega
      have hx : v[i]? = some v[i] := List.getElem?_eq_getElem hi
      simp only [scan_first, hx, hall i v[i] (Nat.le_refl _) (by omega) hx]
      simp only [Bool.false_eq_true, if_false]
      exact ih (i + 1) (by omega) (by omega) (fun j x h3 h4 h5 => hall j x (by omega) h4 h5)

theorem scan_first_spec {α : Type} (v : List α) (p : α → Bool) :
    ∀ n i, i + n ≤ v.length →
      (∃ k y, scan_first v p i n = some (some k) ∧ i ≤ k ∧ k < i + n ∧ v[k]? = some y ∧
        p y = true ∧ ∀ j x, i ≤ j → j < k → v[j]? = some x → p x = false) ∨
      (scan_first v p i n = some none ∧
        ∀ j x, i ≤ j → j < i + n → v[j]? = some x → p x = false) := by
  intro n
  induction n with
  | zero =>
    intro i _
    right
    exact ⟨rfl, fun j x h1 h2 => by omega⟩
  | succ n ih =>
    intro i hlen
    have hi : i < v.length := by omega
    have hx : v[i]? = some v[i] := List.getElem?_eq_getElem hi
    cases hp : p v[i] with
    | true =>
      left
      refine ⟨i, v[i], ?_, Nat.le_refl _, by omega, hx, hp, fun j x h1 h2 => by omega⟩
      simp [scan_first, hx, hp]
    | false =>
      have hstep : scan_first v p i (n + 1) = scan_first v p (i + 1) n := by
        simp [scan_first, hx, hp]
      rcases ih (i + 1) (by omega) with ⟨k, y, h1, h2, h3, h4, h5, h6⟩ | ⟨h1, h2⟩
      · left
        refine ⟨k, y, hstep.trans h1, by omega, by omega, h4, h5, ?_⟩
        intro j x hj1 hj2 hj3
        by_cases hji : j = i
        · subst hji
          rw [hx] at hj3
          cases hj3
          exact hp
        · exact h6 j x (by omega) hj2 hj3
      · right
        refine ⟨hstep.trans h1, ?_⟩
        intro j x hj1 hj2 hj3
        by_cases hji : j = i
        · subst hji
          rw [hx] at hj3
          cases hj3
          exact hp
        · exact h2 j x (by omega) (by omega) hj3

/-! ## Set-associative cache: construction and single accesses -/

theorem SetAssociativeCache.sa_new_of_valid {size_kb blk_size num_ways : Nat}
    (h : ValidWays size_kb blk_size num_ways) :
    ∃ a c w, blk_size = 2 ^ a ∧ size_kb * 1024 / blk_size = 2 ^ c ∧ num_ways = 2 ^ w ∧
      w ≤ c ∧ a + c < 31 ∧
      SetAssociativeCache.new size_kb blk_size num_ways = some
        { hits := 0, compulsory_misses := 0, capacity_misses := 0, conflict_misses := 0,
          cache_size_kb := size_kb, block_size := blk_size, offset_bits := a,
          num_total_blocks := 2 ^ c, ways := 2 ^ w, num_sets := 2 ^ (c - w),
          index_bits := c - w,
          cache := List.replicate (2 ^ (c - w))
            (List.replicate (2 ^ w) { tag := 0, valid := false }) } := by
  obtain ⟨hv, ⟨w, hw⟩, hd⟩ := h
  obtain ⟨a, c, ha, hc, hac⟩ := valid_config_bits hv
  rw [hc, hw] at hd
  have hwc : w ≤ c := (Nat.pow_dvd_pow_iff_le_right (by decide)).mp hd
  refine ⟨a, c, w, ha, hc, hw, hwc, hac, ?_⟩
  have hr := hv.1
  have hb1 : 0 < 2 ^ a := Nat.two_pow_pos a
  have hc1 : 0 < 2 ^ c := Nat.two_pow_pos c
  have hw1 : 0 < 2 ^ w := Nat.two_pow_pos w
  have hs1 : 0 < 2 ^ (c - w) := Nat.two_pow_pos _
  have hb2 : blk_size < INT_LIMIT := by
    have h1 : size_kb * 1024 / blk_size * blk_size ≤ size_kb * 1024 := Nat.div_mul_le_self _ _
    rw [hc] at h1
    have h2 : blk_size ≤ 2 ^ c * blk_size := Nat.le_mul_of_pos_left _ hc1
    omega
  have hw2 : 2 ^ w < INT_LIMIT := by
    have h1 : 2 ^ w ≤ 2 ^ 30 := Nat.pow_le_pow_right (by decide) (by omega)
    simp only [INT_LIMIT]
    omega
  have hg : ¬ (blk_size = 0 ∨ INT_LIMIT ≤ blk_size ∨ INT_LIMIT ≤ size_kb * 1024) := by
    rw [ha] at hb2 ⊢
    omega
  have hdiv : 2 ^ c / 2 ^ w = 2 ^ (c - w) := Nat.pow_div hwc (by decide)
  simp only [SetAssociativeCache.new, CacheSimulator.new, if_neg hg, hc, hw, hdiv]
  rw [if_neg (by omega), if_neg (by omega)]
  rw [ha, log2_floor_two_pow a (by omega), log2_floor_two_pow (c - w) (by omega)]

theorem SetAssociativeCache.sa_index_eq_mod {s : SetAssociativeCache} (h : s.WF) (address : Nat) :
    s.index address = (address >>> s.offset_bits) % 2 ^ s.index_bits := by
  obtain ⟨-, -, h2, -, h3⟩ := h
  unfold SetAssociativeCache.index
  rw [h2, mask_two_pow (by omega), Nat.and_pow_two_sub_one_eq_mod]

theorem SetAssociativeCache.sa_index_lt {s : SetAssociativeCache} (h : s.WF) (address : Nat) :
    s.index address < s.cache.length := by
  rw [SetAssociativeCache.sa_index_eq_mod h, h.1, h.2.2.1]
  exact Nat.mod_lt _ (Nat.two_pow_pos _)

theorem SetAssociativeCache.sa_exists_set {s : SetAssociativeCache} (h : s.WF) (address : Nat) :
    ∃ set, s.cache[s.index address]? = some set ∧ set.length = s.ways := by
  have hlt := SetAssociativeCache.sa_index_lt h address
  exact ⟨_, List.getElem?_eq_getElem hlt, h.2.1 _ (List.getElem_mem hlt)⟩

theorem SetAssociativeCache.sa_access_hit {s : SetAssociativeCache} {address : Nat}
    {set : List CacheLine} (r : Nat)
    (hb : s.offset_bits + s.index_bits < 32) (hl : s.cache[s.index address]? = some set)
    (hlen : set.length = s.ways) {k : Nat} {line : CacheLine} (hk : set[k]? = some line)
    (hv : line.valid = true) (ht : line.tag = s.tag address) :
    s.access address r = some (true, { s with hits := s.hits + 1 }) := by
  have hklt : k < set.length := (List.getElem?_eq_some.mp hk).1
  obtain ⟨k1, y, h1, -⟩ | ⟨-, h2⟩ :=
    scan_first_spec set (fun l => l.valid && l.tag == s.tag address) s.ways 0 (by omega)
  · simp [SetAssociativeCache.access, SetAssociativeCache.perform_access, Nat.not_le.mpr hb, hl,
      h1, CacheSimulator.count_hit]
  · have := h2 k line (Nat.zero_le _) (by omega) hk
    simp [hv, ht] at this

theorem SetAssociativeCache.sa_access_compulsory {s : SetAssociativeCache} {address : Nat}
    {set : List CacheLine} (r : Nat)
    (hb : s.offset_bits + s.index_bits < 32) (hl : s.cache[s.index address]? = some set)
    (hlen : set.length = s.ways)
    (hmiss : ∀ line ∈ set, ¬ (line.valid = true ∧ line.tag = s.tag address))
    {k : Nat} {line : CacheLine} (hk : set[k]? = some line) (hv : line.valid = false)
    (hfirst : ∀ j x, j < k → set[j]? = some x → x.valid = true) :
    s.access address r = some (false,
      { s with
        cache := s.cache.set (s.index address)
          (set.set k { tag := s.tag address, valid := true })
        compulsory_misses := s.compulsory_misses + 1 }) := by
  have hklt : k < set.length := (List.getElem?_eq_some.mp hk).1
  have h1 : scan_first set (fun l => l.valid && l.tag == s.tag address) 0 s.ways = some none := by
    apply scan_first_none _ _ _ _ (by omega)
    intro j x _ _ hx
    have := hmiss x (List.getElem?_mem hx)
    cases hxv : x.valid <;> simp_all
  have h2 : scan_first set (fun l => !l.valid) 0 s.ways = some (some k) := by
    apply scan_first_some _ _ k line hk (by simp [hv]) _ _ (Nat.zero_le _) (by omega)
    intro j x _ hj hx
    simp [hfirst j x hj hx]
  simp [SetAssociativeCache.access, SetAssociativeCache.perform_access, Nat.not_le.mpr hb, hl,
    h1, h2, CacheSimulator.count_hit]

theorem SetAssociativeCache.sa_access_conflict {s : SetAssociativeCache} {address : Nat}
    {set : List CacheLine} (r : Nat)
    (hb : s.offset_bits + s.index_bits < 32) (hl : s.cache[s.index address]? = some set)
    (hlen : set.length = s.ways) (hw : 0 < s.ways)
    (hmiss : ∀ line ∈ set, ¬ (line.valid = true ∧ line.tag = s.tag address))
    (hfull : ∀ line ∈ set, line.valid = true) :
    s.access address r = some (false,
      { s with
        cache := s.cache.set (s.index address)
          (set.set (r % s.ways) { tag := s.tag address, valid := true })
        conflict_misses := s.conflict_misses + 1 }) := by
  have h1 : scan_first set (fun l => l.valid && l.tag == s.tag address) 0 s.ways = some none := by
    apply scan_first_none _ _ _ _ (by omega)
    intro j x _ _ hx
    have := hmiss x (List.getElem?_mem hx)
    cases hxv : x.valid <;> simp_all
  have h2 : scan_first set (fun l => !l.valid) 0 s.ways = some none := by
    apply scan_first_none _ _ _ _ (by omega)
    intro j x _ _ hx
    simp [hfull x (List.getElem?_mem hx)]
  have hr : r % s.ways < set.length := by
    rw [hlen]
    exact Nat.mod_lt _ hw
  have hx : set[r % s.ways]? = some set[r % s.ways] := List.getElem?_eq_getElem hr
  have hxv : (set[r % s.ways]).valid = true := hfull _ (List.getElem_mem hr)
  have hline : ({ set[r % s.ways] with tag := s.tag address } : CacheLine) =
      { tag := s.tag address, valid := true } := by
    simp only [hxv]
  simp only [SetAssociativeCache.access, SetAssociativeCache.perform_access, Nat.not_le.mpr hb,
    hl, h1, h2, if_false, Nat.pos_iff_ne_zero.mp hw, hx, hline, CacheSimulator.count_hit]
  simp

theorem SetAssociativeCache.sa_wf_of_step {s s1 : SetAssociativeCache} (h : s.WF) {i : Nat}
    {set1 : List CacheLine} (hc : s1.cache = s.cache.set i set1) (hlen : set1.length = s.ways)
    (hw : s1.ways = s.ways) (hn : s1.num_sets = s.num_sets)
    (hi : s1.index_bits = s.index_bits) (ho : s1.offset_bits = s.offset_bits) : s1.WF := by
  unfold SetAssociativeCache.WF at *
  rw [hc, hw, hn, hi, ho, List.length_set]
  refine ⟨h.1, ?_, h.2.2⟩
  intro x hx
  rcases List.mem_or_eq_of_mem_set hx with h1 | h1
  · exact h.2.1 x h1
  · rw [h1]
    exact hlen

theorem SetAssociativeCache.sa_access_step {s : SetAssociativeCache} (h : s.WF)
    (address r : Nat) :
    ∃ hit s1 o, s.access address r = some (hit, s1) ∧ s1.WF ∧
      Classified o s.toCacheSimulator s1.toCacheSimulator ∧ (hit = true ↔ o = Outcome.hit) ∧
      o ≠ Outcome.capacity ∧
      s1.ways = s.ways ∧ s1.num_sets = s.num_sets ∧ s1.index_bits = s.index_bits := by
  obtain ⟨set, hl, hlen⟩ := SetAssociativeCache.sa_exists_set h address
  have hb := h.2.2.2.2
  have hw := h.2.2.2.1
  by_cases hh : ∃ (k : Nat) (line : CacheLine),
      set[k]? = some line ∧ line.valid = true ∧ line.tag = s.tag address
  · obtain ⟨k, line, hk, hv, ht⟩ := hh
    refine ⟨true, _, Outcome.hit, SetAssociativeCache.sa_access_hit r hb hl hlen hk hv ht, ?_, rfl,
      by simp, by simp, rfl, rfl, rfl⟩
    exact h
  · have hmiss : ∀ line ∈ set, ¬ (line.valid = true ∧ line.tag = s.tag address) := by
      intro line hm hc
      obtain ⟨k, hk⟩ := List.mem_iff_getElem?.mp hm
      exact hh ⟨k, line, hk, hc⟩
    obtain ⟨k, y, -, -, hk2, hk3, hk4, hk5⟩ | ⟨-, h2⟩ :=
      scan_first_spec set (fun l => !l.valid) s.ways 0 (by omega)
    · have hyv : y.valid = false := by simpa using hk4
      have hfirst : ∀ j x, j < k → set[j]? = some x → x.valid = true := by
        intro j x hj hx
        simpa using hk5 j x (Nat.zero_le _) hj hx
      refine ⟨false, _, Outcome.compulsory,
        SetAssociativeCache.sa_access_compulsory r hb hl hlen hmiss hk3 hyv hfirst, ?_, rfl,
        by simp, by simp, rfl, rfl, rfl⟩
      exact SetAssociativeCache.sa_wf_of_step h rfl (by rw [List.length_set, hlen]) rfl rfl rfl rfl
    · have hfull : ∀ line ∈ set, line.valid = true := by
        intro line hm
        obtain ⟨k, hk⟩ := List.mem_iff_getElem?.mp hm
        have hklt : k < set.length := (List.getElem?_eq_some.mp hk).1
        simpa using h2 k line (Nat.zero_le _) (by omega) hk
      refine ⟨false, _, Outcome.conflict,
        SetAssociativeCache.sa_access_conflict r hb hl hlen hw hmiss hfull, ?_, rfl,
        by simp, by simp, rfl, rfl, rfl⟩
      exact SetAssociativeCache.sa_wf_of_step h rfl (by rw [List.length_set, hlen]) rfl rfl rfl rfl

/-! ## Fully-associative cache: victim selection -/

theorem FullyAssociativeCache.fa_min_loop_spec (key : CacheBlock → Int) (cache : List CacheBlock) :
    ∀ n i m v, i + n ≤ cache.length → v < i →
      (∃ b, cache[v]? = some b ∧ key b = m) →
      (∀ j b, j < i → cache[j]? = some b → m ≤ key b) →
      (∀ j b, j < v → cache[j]? = some b → m < key b) →
      ∃ w bw, FullyAssociativeCache.min_loop key cache i n m v = some w ∧ w < i + n ∧
        cache[w]? = some bw ∧
        (∀ j b, j < i + n → cache[j]? = some b → key bw ≤ key b) ∧
        (∀ j b, j < w → cache[j]? = some b → key bw < key b) := by
  intro n
  induction n with
  | zero =>
    intro i m v _ hv ⟨b, hb, hm⟩ hmin hfirst
    refine ⟨v, b, rfl, by omega, hb, ?_, ?_⟩
    · intro j x hj hx
      rw [hm]
      exact hmin j x hj hx
    · intro j x hj hx
      rw [hm]
      exact hfirst j x hj hx
  | succ n ih =>
    intro i m v hlen hv ⟨b, hb, hm⟩ hmin hfirst
    have hi : i < cache.length := by omega
    have hx : cache[i]? = some cache[i] := List.getElem?_eq_getElem hi
    by_cases hlt : key cache[i] < m
    · obtain ⟨w, bw, h1, h2, h3, h4, h5⟩ :=
        ih (i + 1) (key cache[i]) i (by omega) (by omega) ⟨_, hx, rfl⟩
          (by
            intro j x hj hjx
            by_cases hji : j = i
            · subst hji
              rw [hx] at hjx
              cases hjx
              exact le_refl _
            · exact le_of_lt (lt_of_lt_of_le hlt (hmin j x (by omega) hjx)))
          (by
            intro j x hj hjx
            exact lt_of_lt_of_le hlt (hmin j x hj hjx))
      refine ⟨w, bw, ?_, by omega, h3, ?_, h5⟩
      · simp only [FullyAssociativeCache.min_loop, hx, if_pos hlt]
        exact h1
      · intro j x hj hjx
        exact h4 j x (by omega) hjx
    · obtain ⟨w, bw, h1, h2, h3, h4, h5⟩ :=
        ih (i + 1) m v (by omega) (by omega) ⟨b, hb, hm⟩
          (by
            intro j x hj hjx
            by_cases hji : j = i
            · subst hji
              rw [hx] at hjx
              cases hjx
              exact not_lt.mp hlt
            · exact hmin j x (by omega) hjx)
          hfirst
      refine ⟨w, bw, ?_, by omega, h3, ?_, h5⟩
      · simp only [FullyAssociativeCache.min_loop, hx, if_neg hlt]
        exact h1
      · intro j x hj hjx
        exact h4 j x (by omega) hjx

theorem FullyAssociativeCache.fa_min_scan_spec (key : CacheBlock → Int) (cache : List CacheBlock)
    (b0 : CacheBlock) (h0 : cache[0]? = some b0) :
    ∃ w bw, FullyAssociativeCache.min_loop key cache 1 (cache.length - 1) (key b0) 0 = some w ∧
      w < cache.length ∧ cache[w]? = some bw ∧
      (∀ (j : Nat) (b : CacheBlock), cache[j]? = some b → key bw ≤ key b) ∧
      (∀ (j : Nat) (b : CacheBlock), j < w → cache[j]? = some b → key bw < key b) := by
  have hlen : 0 < cache.length := (List.getElem?_eq_some.mp h0).1
  obtain ⟨w, bw, h1, h2, h3, h4, h5⟩ :=
    FullyAssociativeCache.fa_min_loop_spec key cache (cache.length - 1) 1 (key b0) 0 (by omega)
      (by omega) ⟨b0, h0, rfl⟩
      (by
        intro j b hj hb
        have hj0 : j = 0 := by omega
        subst hj0
        rw [h0] at hb
        cases hb
        exact le_refl _)
      (by intro j b hj; omega)
  refine ⟨w, bw, h1, by omega, h3, ?_, h5⟩
  intro j b hb
  have hj : j < cache.length := (List.getElem?_eq_some.mp hb).1
  exact h4 j b (by omega) hb

theorem FullyAssociativeCache.fa_find_victim_time {s : FullyAssociativeCache} (t : Int) (r : Nat) :
    FullyAssociativeCache.find_victim { s with current_time := t } r = s.find_victim r := rfl

theorem FullyAssociativeCache.fa_find_victim_lru {s : FullyAssociativeCache} (r : Nat)
    (hp : s.policy = ReplacementPolicy.LRU ∨ s.policy = ReplacementPolicy.FIFO)
    {b0 : CacheBlock} (h0 : s.cache[0]? = some b0) :
    s.find_victim r =
      FullyAssociativeCache.min_loop CacheBlock.lru_counter s.cache 1 (s.num_total_blocks - 1)
        b0.lru_counter 0 := by
  unfold FullyAssociativeCache.find_victim
  rcases hp with hp | hp <;> simp only [hp, h0]

theorem FullyAssociativeCache.fa_find_victim_lfu {s : FullyAssociativeCache} (r : Nat)
    (hp : s.policy = ReplacementPolicy.LFU)
    {b0 : CacheBlock} (h0 : s.cache[0]? = some b0) :
    s.find_victim r =
      FullyAssociativeCache.min_loop CacheBlock.lfu_counter s.cache 1 (s.num_total_blocks - 1)
        b0.lfu_counter 0 := by
  unfold FullyAssociativeCache.find_victim
  simp only [hp, h0]

theorem FullyAssociativeCache.fa_find_victim_random {s : FullyAssociativeCache} (r : Nat)
    (hp : s.policy = ReplacementPolicy.RANDOM) (hn : 0 < s.num_total_blocks) :
    s.find_victim r = some (r % s.num_total_blocks) := by
  unfold FullyAssociativeCache.find_victim
  simp [hp, Nat.pos_iff_ne_zero.mp hn]

theorem FullyAssociativeCache.fa_find_victim_lt {s : FullyAssociativeCache} (h : s.WF) (r : Nat) :
    ∃ v, s.find_victim r = some v ∧ v < s.num_total_blocks := by
  obtain ⟨h1, -, h3, -⟩ := h
  obtain ⟨b0, h0⟩ : ∃ b0, s.cache[0]? = some b0 :=
    ⟨_, List.getElem?_eq_getElem (show 0 < s.cache.length by omega)⟩
  cases hp : s.policy with
  | RANDOM =>
    exact ⟨_, FullyAssociativeCache.fa_find_victim_random r hp h3, Nat.mod_lt _ h3⟩
  | LRU =>
    rw [FullyAssociativeCache.fa_find_victim_lru r (Or.inl hp) h0, ← h1]
    obtain ⟨w, -, hw, hlt, -⟩ :=
      FullyAssociativeCache.fa_min_scan_spec CacheBlock.lru_counter s.cache _ h0
    exact ⟨w, hw, hlt⟩
  | FIFO =>
    rw [FullyAssociativeCache.fa_find_victim_lru r (Or.inr hp) h0, ← h1]
    obtain ⟨w, -, hw, hlt, -⟩ :=
      FullyAssociativeCache.fa_min_scan_spec CacheBlock.lru_counter s.cache _ h0
    exact ⟨w, hw, hlt⟩
  | LFU =>
    rw [FullyAssociativeCache.fa_find_victim_lfu r hp h0, ← h1]
    obtain ⟨w, -, hw, hlt, -⟩ :=
      FullyAssociativeCache.fa_min_scan_spec CacheBlock.lfu_counter s.cache _ h0
    exact ⟨w, hw, hlt⟩

/-! ## Fully-associative cache: construction and single accesses -/

theorem FullyAssociativeCache.fa_new_of_valid {size_kb blk_size : Nat} (p : ReplacementPolicy)
    (h : ValidBlocks size_kb blk_size) :
    ∃ a, blk_size = 2 ^ a ∧ a < 31 ∧ 0 < size_kb * 1024 / blk_size ∧
      size_kb * 1024 / blk_size < INT_LIMIT ∧
      FullyAssociativeCache.new size_kb blk_size p = some
        { hits := 0, compulsory_misses := 0, capacity_misses := 0, conflict_misses := 0,
          cache_size_kb := size_kb, block_size := blk_size, offset_bits := a,
          num_total_blocks := size_kb * 1024 / blk_size,
          cache := List.replicate (size_kb * 1024 / blk_size)
            { tag := 0, valid := false, lru_counter := 0, lfu_counter := 0 },
          policy := p, current_time := 0, filled_blocks := 0 } := by
  obtain ⟨hr, ⟨a, ha⟩, hle⟩ := h
  have hb1 : 0 < 2 ^ a := Nat.two_pow_pos a
  have ha31 : a < 31 := by
    apply two_pow_lt_int_limit
    omega
  have hn : 0 < size_kb * 1024 / blk_size := by
    apply Nat.div_pos hle
    omega
  have hn2 : size_kb * 1024 / blk_size < INT_LIMIT :=
    lt_of_le_of_lt (Nat.div_le_self _ _) hr
  refine ⟨a, ha, ha31, hn, hn2, ?_⟩
  have hg : ¬ (blk_size = 0 ∨ INT_LIMIT ≤ blk_size ∨ INT_LIMIT ≤ size_kb * 1024) := by
    omega
  simp only [FullyAssociativeCache.new, CacheSimulator.new, if_neg hg]
  rw [ha, log2_floor_two_pow a (by omega)]

theorem FullyAssociativeCache.fa_access_hit {s : FullyAssociativeCache} {address : Nat} (r : Nat)
    (hb : s.offset_bits < 32) {k : Nat} {b : CacheBlock} (hk : k < s.filled_blocks)
    (hkb : s.cache[k]? = some b) (ht : b.tag = s.tag address)
    (hfirst : ∀ j x, j < k → s.cache[j]? = some x → x.tag ≠ s.tag address) :
    s.access address r = some (true,
      { s with
        current_time := wrap_int (s.current_time + 1)
        hits := s.hits + 1
        cache := s.cache.set k
          (FullyAssociativeCache.touch s.policy (wrap_int (s.current_time + 1)) b) }) := by
  have h1 : scan_first s.cache (fun x => x.tag == s.tag address) 0 s.filled_blocks =
      some (some k) := by
    apply scan_first_some _ _ k b hkb (by simp [ht]) _ _ (Nat.zero_le _) (by omega)
    intro j x _ hj hx
    simpa using hfirst j x hj hx
  simp [FullyAssociativeCache.access, FullyAssociativeCache.perform_access, Nat.not_le.mpr hb,
    FullyAssociativeCache.tag, CacheSimulator.count_hit, hkb]
  simp only [FullyAssociativeCache.tag] at h1
  simp [h1, hkb]

theorem FullyAssociativeCache.fa_scan_miss {s : FullyAssociativeCache} {address : Nat}
    (hf : s.filled_blocks ≤ s.cache.length)
    (hmiss : ∀ j x, j < s.filled_blocks → s.cache[j]? = some x → x.tag ≠ s.tag address) :
    scan_first s.cache (fun x => x.tag == address >>> s.offset_bits) 0 s.filled_blocks =
      some none := by
  apply scan_first_none _ _ _ _ (by omega)
  intro j x _ hj hx
  simpa [FullyAssociativeCache.tag] using hmiss j x (by omega) hx

theorem FullyAssociativeCache.fa_access_compulsory {s : FullyAssociativeCache} {address : Nat}
    (r : Nat) (hb : s.offset_bits < 32) (hf : s.filled_blocks < s.num_total_blocks)
    (hlen : s.cache.length = s.num_total_blocks)
    (hmiss : ∀ j x, j < s.filled_blocks → s.cache[j]? = some x → x.tag ≠ s.tag address) :
    s.access address r = some (false,
      { s with
        current_time := wrap_int (s.current_time + 1)
        filled_blocks := s.filled_blocks + 1
        compulsory_misses := s.compulsory_misses + 1
        cache := s.cache.set s.filled_blocks
          { tag := s.tag address, valid := true,
            lru_counter := wrap_int (s.current_time + 1), lfu_counter := 1 } }) := by
  have h1 := FullyAssociativeCache.fa_scan_miss (by omega) hmiss
  simp [FullyAssociativeCache.access, FullyAssociativeCache.perform_access, Nat.not_le.mpr hb,
    FullyAssociativeCache.tag, CacheSimulator.count_hit, h1, hf, hlen]

theorem FullyAssociativeCache.fa_access_capacity {s : FullyAssociativeCache} {address : Nat}
    (r : Nat) (hb : s.offset_bits < 32) (hf : s.filled_blocks = s.num_total_blocks)
    (hlen : s.cache.length = s.num_total_blocks)
    (hmiss : ∀ j x, j < s.filled_blocks → s.cache[j]? = some x → x.tag ≠ s.tag address)
    {v : Nat} (hv : s.find_victim r = some v) (hvlt : v < s.num_total_blocks) :
    s.access address r = some (false,
      { s with
        current_time := wrap_int (s.current_time + 1)
        capacity_misses := s.capacity_misses + 1
        cache := s.cache.set v
          { tag := s.tag address, valid := true,
            lru_counter := wrap_int (s.current_time + 1), lfu_counter := 1 } }) := by
  have h1 := FullyAssociativeCache.fa_scan_miss (by omega) hmiss
  have hnf : ¬ s.filled_blocks < s.num_total_blocks := by omega
  have hv1 := (FullyAssociativeCache.fa_find_victim_time (wrap_int (s.current_time + 1)) r).trans hv
  simp [FullyAssociativeCache.access, FullyAssociativeCache.perform_access, Nat.not_le.mpr hb,
    FullyAssociativeCache.tag, CacheSimulator.count_hit, h1, hnf, hlen, hv1, hvlt]

theorem FullyAssociativeCache.fa_wf_of_step {s s1 : FullyAssociativeCache} (h : s.WF) {i : Nat}
    {b : CacheBlock} (hc : s1.cache = s.cache.set i b)
    (hf : s1.filled_blocks ≤ s.num_total_blocks)
    (hn : s1.num_total_blocks = s.num_total_blocks)
    (ho : s1.offset_bits = s.offset_bits) : s1.WF := by
  unfold FullyAssociativeCache.WF at *
  rw [hc, hn, ho, List.length_set]
  exact ⟨h.1, hf, h.2.2⟩

theorem FullyAssociativeCache.fa_access_step {s : FullyAssociativeCache} (h : s.WF)
    (address r : Nat) :
    ∃ hit s1 o, s.access address r = some (hit, s1) ∧ s1.WF ∧
      Classified o s.toCacheSimulator s1.toCacheSimulator ∧ (hit = true ↔ o = Outcome.hit) ∧
      o ≠ Outcome.conflict ∧ s1.policy = s.policy := by
  obtain ⟨h1, h2, h3, h4⟩ := h
  obtain ⟨k, y, -, -, hk2, hk3, hk4, hk5⟩ | ⟨-, hn⟩ :=
    scan_first_spec s.cache (fun x => x.tag == s.tag address) s.filled_blocks 0 (by omega)
  · have hyt : y.tag = s.tag address := by simpa using hk4
    have hfirst : ∀ j x, j < k → s.cache[j]? = some x → x.tag ≠ s.tag address := by
      intro j x hj hx
      simpa using hk5 j x (Nat.zero_le _) hj hx
    refine ⟨true, _, Outcome.hit,
      FullyAssociativeCache.fa_access_hit r h4 (by omega) hk3 hyt hfirst, ?_, rfl, by simp,
      by simp, rfl⟩
    exact FullyAssociativeCache.fa_wf_of_step ⟨h1, h2, h3, h4⟩ rfl h2 rfl rfl
  · have hmiss : ∀ j x, j < s.filled_blocks → s.cache[j]? = some x → x.tag ≠ s.tag address := by
      intro j x hj hx
      simpa using hn j x (Nat.zero_le _) (by omega) hx
    by_cases hf : s.filled_blocks < s.num_total_blocks
    · refine ⟨false, _, Outcome.compulsory,
        FullyAssociativeCache.fa_access_compulsory r h4 hf h1 hmiss, ?_, rfl, by simp, by simp,
        rfl⟩
      exact FullyAssociativeCache.fa_wf_of_step ⟨h1, h2, h3, h4⟩ rfl (by simp; omega) rfl rfl
    · obtain ⟨v, hv, hvlt⟩ := FullyAssociativeCache.fa_find_victim_lt ⟨h1, h2, h3, h4⟩ r
      refine ⟨false, _, Outcome.capacity,
        FullyAssociativeCache.fa_access_capacity r h4 (by omega) h1 hmiss hv hvlt, ?_, rfl,
        by simp, by simp, rfl⟩
      exact FullyAssociativeCache.fa_wf_of_step ⟨h1, h2, h3, h4⟩ rfl h2 rfl rfl

/-! ## Runs -/

theorem DirectMappedCache.dm_run_cons {s s1 : DirectMappedCache} {a : Nat} {hit : Bool}
    (h : s.access a = some (hit, s1)) (rest : List Nat) :
    s.run (a :: rest) = s1.run rest := by
  simp [DirectMappedCache.run, h]

theorem SetAssociativeCache.sa_run_cons {s s1 : SetAssociativeCache} {a r : Nat} {hit : Bool}
    (h : s.access a r = some (hit, s1)) (rest : List (Nat × Nat)) :
    s.run ((a, r) :: rest) = s1.run rest := by
  simp [SetAssociativeCache.run, h]

theorem FullyAssociativeCache.fa_run_cons {s s1 : FullyAssociativeCache} {a r : Nat} {hit : Bool}
    (h : s.access a r = some (hit, s1)) (rest : List (Nat × Nat)) :
    s.run ((a, r) :: rest) = s1.run rest := by
  simp [FullyAssociativeCache.run, h]

theorem DirectMappedCache.dm_run_append {s s1 : DirectMappedCache} {l1 : List Nat}
    (h : s.run l1 = some s1) (l2 : List Nat) : s.run (l1 ++ l2) = s1.run l2 := by
  induction l1 generalizing s with
  | nil =>
    simp only [DirectMappedCache.run, Option.some.injEq] at h
    rw [h, List.nil_append]
  | cons a rest ih =>
    simp only [DirectMappedCache.run, List.cons_append] at h ⊢
    cases hacc : s.access a with
    | none => simp [hacc] at h
    | some res =>
      obtain ⟨hit, s2⟩ := res
      simp only [hacc] at h ⊢
      exact ih h

theorem SetAssociativeCache.sa_run_append {s s1 : SetAssociativeCache} {l1 : List (Nat × Nat)}
    (h : s.run l1 = some s1) (l2 : List (Nat × Nat)) : s.run (l1 ++ l2) = s1.run l2 := by
  induction l1 generalizing s with
  | nil =>
    simp only [SetAssociativeCache.run, Option.some.injEq] at h
    rw [h, List.nil_append]
  | cons x rest ih =>
    obtain ⟨a, r⟩ := x
    simp only [SetAssociativeCache.run, List.cons_append] at h ⊢
    cases hacc : s.access a r with
    | none => simp [hacc] at h
    | some res =>
      obtain ⟨hit, s2⟩ := res
      simp only [hacc] at h ⊢
      exact ih h

theorem FullyAssociativeCache.fa_run_append {s s1 : FullyAssociativeCache} {l1 : List (Nat × Nat)}
    (h : s.run l1 = some s1) (l2 : List (Nat × Nat)) : s.run (l1 ++ l2) = s1.run l2 := by
  induction l1 generalizing s with
  | nil =>
    simp only [FullyAssociativeCache.run, Option.some.injEq] at h
    rw [h, List.nil_append]
  | cons x rest ih =>
    obtain ⟨a, r⟩ := x
    simp only [FullyAssociativeCache.run, List.cons_append] at h ⊢
    cases hacc : s.access a r with
    | none => simp [hacc] at h
    | some res =>
      obtain ⟨hit, s2⟩ := res
      simp only [hacc] at h ⊢
      exact ih h

theorem DirectMappedCache.dm_run_total {s : DirectMappedCache} (h : s.WF) (l : List Nat) :
    ∃ s1, s.run l = some s1 ∧ s1.WF ∧
      s1.total_accesses = s.total_accesses + l.length ∧
      s1.index_bits = s.index_bits ∧ s1.offset_bits = s.offset_bits ∧
      s1.num_total_blocks = s.num_total_blocks := by
  induction l generalizing s with
  | nil => exact ⟨s, rfl, h, rfl, rfl, rfl, rfl⟩
  | cons a rest ih =>
    obtain ⟨hit, s2, line, hacc, hl, hc, hi, ho, hn, h1, h2, h3⟩ :=
      DirectMappedCache.dm_access_step h a
    have hwf : s2.WF := DirectMappedCache.dm_wf_of_step h hc hi ho hn
    have htot : s2.total_accesses = s.total_accesses + 1 := by
      cases hv : line.valid with
      | false => exact classified_total (h1 hv).2
      | true =>
        by_cases ht : line.tag = s.tag a
        · exact classified_total (h3 hv ht).2
        · exact classified_total (h2 hv ht).2
    obtain ⟨s1, hr, hw1, ht1, hi1, ho1, hn1⟩ := ih hwf
    refine ⟨s1, (DirectMappedCache.dm_run_cons hacc rest).trans hr, hw1, ?_, hi1.trans hi,
      ho1.trans ho, hn1.trans hn⟩
    rw [ht1, htot, List.length_cons]
    omega

theorem SetAssociativeCache.sa_run_total {s : SetAssociativeCache} (h : s.WF)
    (l : List (Nat × Nat)) :
    ∃ s1, s.run l = some s1 ∧ s1.WF ∧
      s1.total_accesses = s.total_accesses + l.length ∧ s1.capacity_misses = s.capacity_misses ∧
      s1.ways = s.ways ∧ s1.num_sets = s.num_sets ∧ s1.index_bits = s.index_bits ∧
      s1.offset_bits = s.offset_bits := by
  induction l generalizing s with
  | nil => exact ⟨s, rfl, h, rfl, rfl, rfl, rfl, rfl, rfl⟩
  | cons x rest ih =>
    obtain ⟨a, r⟩ := x
    obtain ⟨hit, s2, o, hacc, hwf, hcl, -, hcap, hw, hn, hi⟩ :=
      SetAssociativeCache.sa_access_step h a r
    obtain ⟨s1, hr, hw1, ht1, hc1, hww1, hn1, hi1, ho1⟩ := ih hwf
    have ho : s2.offset_bits = s.offset_bits ∧ s2.capacity_misses = s.capacity_misses := by
      cases o <;> simp only [Classified] at hcl <;>
        first | (rw [hcl]; exact ⟨rfl, rfl⟩) | exact absurd rfl hcap
    refine ⟨s1, (SetAssociativeCache.sa_run_cons hacc rest).trans hr, hw1, ?_, hc1.trans ho.2,
      hww1.trans hw, hn1.trans hn, hi1.trans hi, ho1.trans ho.1⟩
    rw [ht1, classified_total hcl, List.length_cons]
    omega

theorem FullyAssociativeCache.fa_run_total {s : FullyAssociativeCache} (h : s.WF)
    (l : List (Nat × Nat)) :
    ∃ s1, s.run l = some s1 ∧ s1.WF ∧
      s1.total_accesses = s.total_accesses + l.length ∧ s1.conflict_misses = s.conflict_misses ∧
      s1.policy = s.policy ∧ s1.num_total_blocks = s.num_total_blocks ∧
      s1.offset_bits = s.offset_bits := by
  induction l generalizing s with
  | nil => exact ⟨s, rfl, h, rfl, rfl, rfl, rfl, rfl⟩
  | cons x rest ih =>
    obtain ⟨a, r⟩ := x
    obtain ⟨hit, s2, o, hacc, hwf, hcl, -, hconf, hp⟩ :=
      FullyAssociativeCache.fa_access_step h a r
    obtain ⟨s1, hr, hw1, ht1, hc1, hp1, hn1, ho1⟩ := ih hwf
    have ho : s2.offset_bits = s.offset_bits ∧ s2.conflict_misses = s.conflict_misses ∧
        s2.num_total_blocks = s.num_total_blocks := by
      cases o <;> simp only [Classified] at hcl <;>
        first | (rw [hcl]; exact ⟨rfl, rfl, rfl⟩) | exact absurd rfl hconf
    refine ⟨s1, (FullyAssociativeCache.fa_run_cons hacc rest).trans hr, hw1, ?_, hc1.trans ho.2.1,
      hp1.trans hp, hn1.trans ho.2.2, ho1.trans ho.1⟩
    rw [ht1, classified_total hcl, List.length_cons]
    omega

theorem DirectMappedCache.dm_access_classified {s : DirectMappedCache} (h : s.WF) (address : Nat) :
    ∃ hit s1 o, s.access address = some (hit, s1) ∧
      Classified o s.toCacheSimulator s1.toCacheSimulator ∧ (hit = true ↔ o = Outcome.hit) ∧
      o ≠ Outcome.capacity := by
  obtain ⟨hit, s1, line, hacc, -, -, -, -, -, h1, h2, h3⟩ :=
    DirectMappedCache.dm_access_step h address
  cases hv : line.valid with
  | false =>
    obtain ⟨hh, hc⟩ := h1 hv
    exact ⟨hit, s1, Outcome.compulsory, hacc, hc, by simp [hh], by simp⟩
  | true =>
    by_cases ht : line.tag = s.tag address
    · obtain ⟨hh, hc⟩ := h3 hv ht
      exact ⟨hit, s1, Outcome.hit, hacc, hc, by simp [hh], by simp⟩
    · obtain ⟨hh, hc⟩ := h2 hv ht
      exact ⟨hit, s1, Outcome.conflict, hacc, hc, by simp [hh], by simp⟩

theorem DirectMappedCache.dm_fresh {size_kb blk_size : Nat} (h : ValidConfig size_kb blk_size) :
    ∃ s0, DirectMappedCache.new size_kb blk_size = some s0 ∧ s0.WF ∧
      s0.hits = 0 ∧ s0.compulsory_misses = 0 ∧ s0.capacity_misses = 0 ∧
      s0.conflict_misses = 0 ∧
      s0.cache = List.replicate s0.num_total_blocks { tag := 0, valid := false } := by
  obtain ⟨a, c, -, -, hac, hnew⟩ := DirectMappedCache.dm_new_of_valid h
  refine ⟨_, hnew, ?_, rfl, rfl, rfl, rfl, rfl⟩
  refine ⟨?_, rfl, ?_⟩
  · simp
  · show a + c < 32
    omega

theorem SetAssociativeCache.sa_fresh {size_kb blk_size num_ways : Nat}
    (h : ValidWays size_kb blk_size num_ways) :
    ∃ s0, SetAssociativeCache.new size_kb blk_size num_ways = some s0 ∧ s0.WF ∧
      s0.hits = 0 ∧ s0.compulsory_misses = 0 ∧ s0.capacity_misses = 0 ∧
      s0.conflict_misses = 0 ∧ s0.ways = num_ways ∧
      s0.cache = List.replicate s0.num_sets
        (List.replicate s0.ways { tag := 0, valid := false }) := by
  obtain ⟨a, c, w, -, -, hw, hwc, hac, hnew⟩ := SetAssociativeCache.sa_new_of_valid h
  refine ⟨_, hnew, ?_, rfl, rfl, rfl, rfl, hw.symm, rfl⟩
  refine ⟨?_, ?_, rfl, ?_, ?_⟩
  · simp
  · intro x hx
    rw [(List.mem_replicate.mp hx).2]
    simp
  · exact Nat.two_pow_pos w
  · show a + (c - w) < 32
    omega

theorem FullyAssociativeCache.fa_fresh {size_kb blk_size : Nat} (p : ReplacementPolicy)
    (h : ValidBlocks size_kb blk_size) :
    ∃ s0, FullyAssociativeCache.new size_kb blk_size p = some s0 ∧ s0.WF ∧
      s0.hits = 0 ∧ s0.compulsory_misses = 0 ∧ s0.capacity_misses = 0 ∧
      s0.conflict_misses = 0 ∧ s0.policy = p ∧ s0.filled_blocks = 0 ∧ s0.current_time = 0 ∧
      s0.num_total_blocks = size_kb * 1024 / blk_size ∧
      s0.num_total_blocks + 1024 ≤ INT_LIMIT ∧
      s0.cache = List.replicate s0.num_total_blocks
        { tag := 0, valid := false, lru_counter := 0, lfu_counter := 0 } := by
  obtain ⟨a, -, ha, hn, hn2, hnew⟩ := FullyAssociativeCache.fa_new_of_valid p h
  have hroom : size_kb * 1024 / blk_size + 1024 ≤ INT_LIMIT := by
    have h1 := h.1
    have h2 : size_kb * 1024 / blk_size ≤ size_kb * 1024 := Nat.div_le_self _ _
    simp only [INT_LIMIT] at h1 ⊢
    omega
  refine ⟨_, hnew, ?_, rfl, rfl, rfl, rfl, rfl, rfl, rfl, rfl, hroom, rfl⟩
  refine ⟨?_, Nat.zero_le _, hn, ?_⟩
  · simp
  · show a < 32
    omega

theorem DirectMappedCache.dm_index_congr {s s1 : DirectMappedCache}
    (ho : s1.offset_bits = s.offset_bits) (hn : s1.num_total_blocks = s.num_total_blocks)
    (address : Nat) : s1.index address = s.index address := by
  simp only [DirectMappedCache.index, ho, hn]

theorem DirectMappedCache.dm_tag_congr {s s1 : DirectMappedCache}
    (ho : s1.offset_bits = s.offset_bits) (hi : s1.index_bits = s.index_bits)
    (address : Nat) : s1.tag address = s.tag address := by
  simp only [DirectMappedCache.tag, ho, hi]

theorem DirectMappedCache.dm_run_valid {s s1 : DirectMappedCache} {l : List Nat} (h : s.WF)
    (hr : s.run l = some s1) (i : Nat) (line1 : CacheLine) (h1 : s1.cache[i]? = some line1) :
    line1.valid = true ↔
      (∃ line, s.cache[i]? = some line ∧ line.valid = true) ∨ ∃ b ∈ l, s.index b = i := by
  induction l generalizing s with
  | nil =>
    simp only [DirectMappedCache.run, Option.some.injEq] at hr
    subst hr
    simp [h1]
  | cons a rest ih =>
    obtain ⟨hit, s2, line, hacc, hl, hc, hi, ho, hn, -⟩ := DirectMappedCache.dm_access_step h a
    have hwf : s2.WF := DirectMappedCache.dm_wf_of_step h hc hi ho hn
    rw [DirectMappedCache.dm_run_cons hacc rest] at hr
    rw [ih hwf hr]
    have hidx : ∀ b, s2.index b = s.index b := DirectMappedCache.dm_index_congr ho hn
    have hlt := DirectMappedCache.dm_index_lt h a
    simp only [hidx, hc, List.mem_cons, exists_eq_or_imp]
    by_cases hia : s.index a = i
    · subst hia
      simp [List.getElem?_set_self hlt]
    · simp [List.getElem?_set_ne hia, hia]

/-! ## Claims -/

/-- C1: under a valid configuration of any of the three organisations, after
any sequence of accesses to a freshly constructed cache the four counters sum
to the number of accesses made, and one further call of `access`, for every
address and every value of `rand()`, returns and increments exactly one of
`hits`, `compulsory_misses`, `capacity_misses`, `conflict_misses` by one,
leaving the other three unchanged; it returns `true` exactly when the counter
incremented is `hits`. -/
theorem C1_one_counter_per_access :
    (∀ size_kb blk_size, ValidConfig size_kb blk_size →
      ∃ s0, DirectMappedCache.new size_kb blk_size = some s0 ∧
        ∀ addrs : List Nat, ∃ s, s0.run addrs = some s ∧
          s.hits + s.compulsory_misses + s.capacity_misses + s.conflict_misses = addrs.length ∧
          ∀ address, ∃ hit s1 o, s.access address = some (hit, s1) ∧
            Classified o s.toCacheSimulator s1.toCacheSimulator ∧
            (hit = true ↔ o = Outcome.hit)) ∧
    (∀ size_kb blk_size num_ways, ValidWays size_kb blk_size num_ways →
      ∃ s0, SetAssociativeCache.new size_kb blk_size num_ways = some s0 ∧
        ∀ inputs : List (Nat × Nat), ∃ s, s0.run inputs = some s ∧
          s.hits + s.compulsory_misses + s.capacity_misses + s.conflict_misses = inputs.length ∧
          ∀ address r, ∃ hit s1 o, s.access address r = some (hit, s1) ∧
            Classified o s.toCacheSimulator s1.toCacheSimulator ∧
            (hit = true ↔ o = Outcome.hit)) ∧
    (∀ size_kb blk_size p, ValidBlocks size_kb blk_size →
      ∃ s0, FullyAssociativeCache.new size_kb blk_size p = some s0 ∧
        ∀ inputs : List (Nat × Nat), ∃ s, s0.run inputs = some s ∧
          s.hits + s.compulsory_misses + s.capacity_misses + s.conflict_misses = inputs.length ∧
          ∀ address r, ∃ hit s1 o, s.access address r = some (hit, s1) ∧
            Classified o s.toCacheSimulator s1.toCacheSimulator ∧
            (hit = true ↔ o = Outcome.hit)) := by
  refine ⟨?_, ?_, ?_⟩
  · intro size_kb blk_size hv
    obtain ⟨s0, hnew, hwf, h1, h2, h3, h4, -⟩ := DirectMappedCache.dm_fresh hv
    refine ⟨s0, hnew, ?_⟩
    intro addrs
    obtain ⟨s, hrun, hwf1, htot, -⟩ := DirectMappedCache.dm_run_total hwf addrs
    refine ⟨s, hrun, ?_, ?_⟩
    · simp only [CacheSimulator.total_accesses, h1, h2, h3, h4] at htot
      omega
    · intro address
      obtain ⟨hit, s1, o, hacc, hcl, hiff, -⟩ := DirectMappedCache.dm_access_classified hwf1 address
      exact ⟨hit, s1, o, hacc, hcl, hiff⟩
  · intro size_kb blk_size num_ways hv
    obtain ⟨s0, hnew, hwf, h1, h2, h3, h4, -⟩ := SetAssociativeCache.sa_fresh hv
    refine ⟨s0, hnew, ?_⟩
    intro inputs
    obtain ⟨s, hrun, hwf1, htot, -⟩ := SetAssociativeCache.sa_run_total hwf inputs
    refine ⟨s, hrun, ?_, ?_⟩
    · simp only [CacheSimulator.total_accesses, h1, h2, h3, h4] at htot
      omega
    · intro address r
      obtain ⟨hit, s1, o, hacc, -, hcl, hiff, -⟩ := SetAssociativeCache.sa_access_step hwf1 address r
      exact ⟨hit, s1, o, hacc, hcl, hiff⟩
  · intro size_kb blk_size p hv
    obtain ⟨s0, hnew, hwf, h1, h2, h3, h4, -⟩ := FullyAssociativeCache.fa_fresh p hv
    refine ⟨s0, hnew, ?_⟩
    intro inputs
    obtain ⟨s, hrun, hwf1, htot, -⟩ := FullyAssociativeCache.fa_run_total hwf inputs
    refine ⟨s, hrun, ?_, ?_⟩
    · simp only [CacheSimulator.total_accesses, h1, h2, h3, h4] at htot
      omega
    · intro address r
      obtain ⟨hit, s1, o, hacc, -, hcl, hiff, -⟩ := FullyAssociativeCache.fa_access_step hwf1 address r
      exact ⟨hit, s1, o, hacc, hcl, hiff⟩

/-- Witness of C1: the three organisations at 1 KB with 256-byte blocks
(2 ways, policy LRU). -/
theorem C1_one_counter_per_access_witness :
    (ValidConfig 1 256 ∧ ∃ s0, DirectMappedCache.new 1 256 = some s0 ∧
      ∀ addrs : List Nat, ∃ s, s0.run addrs = some s ∧
        s.hits + s.compulsory_misses + s.capacity_misses + s.conflict_misses = addrs.length) ∧
    (ValidWays 1 256 2 ∧ ∃ s0, SetAssociativeCache.new 1 256 2 = some s0 ∧
      ∀ inputs : List (Nat × Nat), ∃ s, s0.run inputs = some s ∧
        s.hits + s.compulsory_misses + s.capacity_misses + s.conflict_misses = inputs.length) ∧
    (ValidBlocks 1 256 ∧ ∃ s0, FullyAssociativeCache.new 1 256 ReplacementPolicy.LRU = some s0 ∧
      ∀ inputs : List (Nat × Nat), ∃ s, s0.run inputs = some s ∧
        s.hits + s.compulsory_misses + s.capacity_misses + s.conflict_misses =
          inputs.length) := by
  have hv1 : ValidConfig 1 256 := ⟨by decide, ⟨8, rfl⟩, ⟨2, rfl⟩⟩
  have hv2 : ValidWays 1 256 2 := ⟨hv1, ⟨1, rfl⟩, by decide⟩
  have hv3 : ValidBlocks 1 256 := ⟨by decide, ⟨8, rfl⟩, by decide⟩
  obtain ⟨s1, hn1, hr1⟩ := C1_one_counter_per_access.1 1 256 hv1
  obtain ⟨s2, hn2, hr2⟩ := C1_one_counter_per_access.2.1 1 256 2 hv2
  obtain ⟨s3, hn3, hr3⟩ := C1_one_counter_per_access.2.2 1 256 ReplacementPolicy.LRU hv3
  refine ⟨⟨hv1, s1, hn1, fun l => ?_⟩, ⟨hv2, s2, hn2, fun l => ?_⟩, ⟨hv3, s3, hn3, fun l => ?_⟩⟩
  · obtain ⟨s, h1, h2, -⟩ := hr1 l
    exact ⟨s, h1, h2⟩
  · obtain ⟨s, h1, h2, -⟩ := hr2 l
    exact ⟨s, h1, h2⟩
  · obtain ⟨s, h1, h2, -⟩ := hr3 l
    exact ⟨s, h1, h2⟩

/-- C2: in a direct-mapped cache under a valid configuration, after any
sequence `pre` of accesses to a fresh cache, an access whose index no earlier
access had is a compulsory miss, and an access whose index some earlier access
had and whose tag differs from the tag stored in that slot is a conflict miss,
whatever the other slots hold. -/
theorem C2_direct_mapped_classification (size_kb blk_size : Nat)
    (hv : ValidConfig size_kb blk_size) :
    ∃ s0, DirectMappedCache.new size_kb blk_size = some s0 ∧
      ∀ (pre : List Nat) (address : Nat),
        ∃ s line hit s1, s0.run pre = some s ∧
          s.cache[s0.index address]? = some line ∧
          s.access address = some (hit, s1) ∧
          ((∀ b ∈ pre, s0.index b ≠ s0.index address) →
            hit = false ∧ Classified Outcome.compulsory s.toCacheSimulator s1.toCacheSimulator) ∧
          ((∃ b ∈ pre, s0.index b = s0.index address) → line.tag ≠ s0.tag address →
            hit = false ∧ Classified Outcome.conflict s.toCacheSimulator s1.toCacheSimulator) := by
  obtain ⟨s0, hnew, hwf, -, -, -, -, hcache⟩ := DirectMappedCache.dm_fresh hv
  refine ⟨s0, hnew, ?_⟩
  intro pre address
  obtain ⟨s, hrun, hwf1, -, hi, ho, hn⟩ := DirectMappedCache.dm_run_total hwf pre
  obtain ⟨hit, s1, line, hacc, hl, -, -, -, -, h1, h2, -⟩ :=
    DirectMappedCache.dm_access_step hwf1 address
  have hidx : s.index address = s0.index address := DirectMappedCache.dm_index_congr ho hn address
  have htag : s.tag address = s0.tag address := DirectMappedCache.dm_tag_congr ho hi address
  rw [hidx] at hl
  rw [htag] at h2
  have hvalid := DirectMappedCache.dm_run_valid hwf hrun (s0.index address) line hl
  have hfresh : ¬ ∃ l0, s0.cache[s0.index address]? = some l0 ∧ l0.valid = true := by
    rintro ⟨l0, hl0, hl0v⟩
    rw [hcache, List.getElem?_replicate] at hl0
    split at hl0
    · cases hl0
      simp at hl0v
    · cases hl0
  refine ⟨s, line, hit, s1, hrun, hl, hacc, ?_, ?_⟩
  · intro hnone
    apply h1
    cases hlv : line.valid with
    | false => rfl
    | true =>
      rcases hvalid.mp hlv with h3 | ⟨b, hb, hb2⟩
      · exact absurd h3 hfresh
      · exact absurd hb2 (hnone b hb)
  · intro hsome hne
    exact h2 (hvalid.mpr (Or.inr hsome)) hne

/-- Witness of C2: 1 KB direct-mapped cache with 256-byte blocks; address 0 on
the fresh cache is a compulsory miss, and address 1024 (same slot, other tag)
after address 0 is a conflict miss. -/
theorem C2_direct_mapped_classification_witness :
    ValidConfig 1 256 ∧
    ∃ s0, DirectMappedCache.new 1 256 = some s0 ∧
      (∃ s hit s1, s0.run [] = some s ∧ s.access 0 = some (hit, s1) ∧ hit = false ∧
        Classified Outcome.compulsory s.toCacheSimulator s1.toCacheSimulator) ∧
      (∃ s hit s1, s0.run [0] = some s ∧ s.access 1024 = some (hit, s1) ∧ hit = false ∧
        Classified Outcome.conflict s.toCacheSimulator s1.toCacheSimulator) := by
  have hv : ValidConfig 1 256 := ⟨by decide, ⟨8, rfl⟩, ⟨2, rfl⟩⟩
  obtain ⟨s0, hnew, h⟩ := C2_direct_mapped_classification 1 256 hv
  refine ⟨hv, s0, hnew, ?_, ?_⟩
  · obtain ⟨s, line, hit, s1, hrun, -, hacc, hcomp, -⟩ := h [] 0
    obtain ⟨h1, h2⟩ := hcomp (by simp)
    exact ⟨s, hit, s1, hrun, hacc, h1, h2⟩
  · obtain ⟨s, line, hit, s1, hrun, hl, hacc, -, hconf⟩ := h [0] 1024
    have e0 : DirectMappedCache.new 1 256 = some
        { hits := 0, compulsory_misses := 0, capacity_misses := 0, conflict_misses := 0,
          cache_size_kb := 1, block_size := 256, offset_bits := 8, num_total_blocks := 4,
          index_bits := 2,
          cache := [⟨0, false⟩, ⟨0, false⟩, ⟨0, false⟩, ⟨0, false⟩] } := by decide
    rw [e0] at hnew
    obtain rfl := Option.some.inj hnew
    have e1 : DirectMappedCache.run
        { hits := 0, compulsory_misses := 0, capacity_misses := 0, conflict_misses := 0,
          cache_size_kb := 1, block_size := 256, offset_bits := 8, num_total_blocks := 4,
          index_bits := 2,
          cache := [⟨0, false⟩, ⟨0, false⟩, ⟨0, false⟩, ⟨0, false⟩] } [0] = some
        { hits := 0, compulsory_misses := 1, capacity_misses := 0, conflict_misses := 0,
          cache_size_kb := 1, block_size := 256, offset_bits := 8, num_total_blocks := 4,
          index_bits := 2,
          cache := [⟨0, true⟩, ⟨0, false⟩, ⟨0, false⟩, ⟨0, false⟩] } := by decide
    rw [e1] at hrun
    obtain rfl := Option.some.inj hrun
    obtain rfl : (⟨0, true⟩ : CacheLine) = line := Option.some.inj hl
    obtain ⟨h1, h2⟩ := hconf ⟨0, by simp, by decide⟩ (by decide)
    exact ⟨_, hit, s1, rfl, hacc, h1, h2⟩

/-! ## Address decomposition -/

theorem address_fields (a ob ib : Nat) :
    a = ((a >>> (ob + ib)) <<< (ob + ib)) ||| (((a >>> ob) % 2 ^ ib) <<< ob) |||
      (a % 2 ^ ob) := by
  apply Nat.eq_of_testBit_eq
  intro j
  simp only [Nat.testBit_or, Nat.testBit_shiftLeft, Nat.testBit_shiftRight,
    Nat.testBit_mod_two_pow]
  by_cases h1 : j < ob
  · have h2 : ¬ j ≥ ob + ib := by omega
    have h3 : ¬ j ≥ ob := by omega
    simp [h1, h2, h3]
  · by_cases h2 : j < ob + ib
    · have h3 : ¬ j ≥ ob + ib := by omega
      have h4 : j ≥ ob := by omega
      have h5 : j - ob < ib := by omega
      have h6 : ob + (j - ob) = j := by omega
      simp [h1, h3, h4, h5, h6]
    · have h3 : j ≥ ob + ib := by omega
      have h4 : j ≥ ob := by omega
      have h5 : ¬ j - ob < ib := by omega
      have h6 : ob + ib + (j - (ob + ib)) = j := by omega
      simp [h1, h3, h4, h5, h6]

/-- C3: under a valid configuration the fields computed by `perform_access`
recompose the address.  With `2 ^ offset_bits` the block size,
`2 ^ index_bits` the number of slots (direct-mapped) or sets
(set-associative) and `offset_bits + index_bits < 32`, every address equals
`(tag << (offset_bits + index_bits)) | (index << offset_bits) | offset` where
`offset = address & (block_size - 1)`, the index is below the number of
groups and the offset below the block size; for the fully-associative cache
there are no index bits and the index is 0. -/
theorem C3_address_round_trip :
    (∀ size_kb blk_size, ValidConfig size_kb blk_size →
      ∃ s, DirectMappedCache.new size_kb blk_size = some s ∧
        2 ^ s.offset_bits = blk_size ∧ 2 ^ s.index_bits = s.num_total_blocks ∧
        s.offset_bits + s.index_bits < 32 ∧
        ∀ address : Nat,
          address = (s.tag address <<< (s.offset_bits + s.index_bits)) |||
            (s.index address <<< s.offset_bits) ||| (address &&& (blk_size - 1)) ∧
          s.index address < s.num_total_blocks ∧ address &&& (blk_size - 1) < blk_size) ∧
    (∀ size_kb blk_size num_ways, ValidWays size_kb blk_size num_ways →
      ∃ s, SetAssociativeCache.new size_kb blk_size num_ways = some s ∧
        2 ^ s.offset_bits = blk_size ∧ 2 ^ s.index_bits = s.num_sets ∧
        s.offset_bits + s.index_bits < 32 ∧
        ∀ address : Nat,
          address = (s.tag address <<< (s.offset_bits + s.index_bits)) |||
            (s.index address <<< s.offset_bits) ||| (address &&& (blk_size - 1)) ∧
          s.index address < s.num_sets ∧ address &&& (blk_size - 1) < blk_size) ∧
    (∀ size_kb blk_size p, ValidBlocks size_kb blk_size →
      ∃ s, FullyAssociativeCache.new size_kb blk_size p = some s ∧
        2 ^ s.offset_bits = blk_size ∧ s.offset_bits + 0 < 32 ∧
        ∀ address : Nat,
          address = (s.tag address <<< (s.offset_bits + 0)) |||
            (0 <<< s.offset_bits) ||| (address &&& (blk_size - 1)) ∧
          address &&& (blk_size - 1) < blk_size) := by
  refine ⟨?_, ?_, ?_⟩
  · intro size_kb blk_size hv
    obtain ⟨a, c, ha, hc, hac, hnew⟩ := DirectMappedCache.dm_new_of_valid hv
    refine ⟨_, hnew, ha.symm, rfl, by show a + c < 32; omega, ?_⟩
    intro address
    have hmask : (2 ^ c + UINT_RANGE - 1) % UINT_RANGE = 2 ^ c - 1 := mask_two_pow (by omega)
    simp only [DirectMappedCache.tag, DirectMappedCache.index, hmask, ha,
      Nat.and_pow_two_sub_one_eq_mod]
    exact ⟨address_fields address a c, Nat.mod_lt _ (Nat.two_pow_pos _),
      Nat.mod_lt _ (Nat.two_pow_pos _)⟩
  · intro size_kb blk_size num_ways hv
    obtain ⟨a, c, w, ha, hc, hw, hwc, hac, hnew⟩ := SetAssociativeCache.sa_new_of_valid hv
    refine ⟨_, hnew, ha.symm, rfl, by show a + (c - w) < 32; omega, ?_⟩
    intro address
    have hmask : (2 ^ (c - w) + UINT_RANGE - 1) % UINT_RANGE = 2 ^ (c - w) - 1 :=
      mask_two_pow (by omega)
    simp only [SetAssociativeCache.tag, SetAssociativeCache.index, hmask, ha,
      Nat.and_pow_two_sub_one_eq_mod]
    exact ⟨address_fields address a (c - w), Nat.mod_lt _ (Nat.two_pow_pos _),
      Nat.mod_lt _ (Nat.two_pow_pos _)⟩
  · intro size_kb blk_size p hv
    obtain ⟨a, ha, ha31, -, -, hnew⟩ := FullyAssociativeCache.fa_new_of_valid p hv
    refine ⟨_, hnew, ha.symm, by show a + 0 < 32; omega, ?_⟩
    intro address
    simp only [FullyAssociativeCache.tag, ha, Nat.and_pow_two_sub_one_eq_mod]
    refine ⟨?_, Nat.mod_lt _ (Nat.two_pow_pos _)⟩
    have h := address_fields address a 0
    simpa [Nat.mod_one] using h

/-- Witness of C3: the three organisations at 1 KB with 256-byte blocks
(2 ways, policy FIFO) decompose the address 1317 = 0x525. -/
theorem C3_address_round_trip_witness :
    (ValidConfig 1 256 ∧ ∃ s, DirectMappedCache.new 1 256 = some s ∧
      1317 = (s.tag 1317 <<< (s.offset_bits + s.index_bits)) |||
        (s.index 1317 <<< s.offset_bits) ||| (1317 &&& (256 - 1))) ∧
    (ValidWays 1 256 2 ∧ ∃ s, SetAssociativeCache.new 1 256 2 = some s ∧
      1317 = (s.tag 1317 <<< (s.offset_bits + s.index_bits)) |||
        (s.index 1317 <<< s.offset_bits) ||| (1317 &&& (256 - 1))) ∧
    (ValidBlocks 1 256 ∧ ∃ s, FullyAssociativeCache.new 1 256 ReplacementPolicy.FIFO = some s ∧
      1317 = (s.tag 1317 <<< (s.offset_bits + 0)) ||| (0 <<< s.offset_bits) |||
        (1317 &&& (256 - 1))) := by
  have hv1 : ValidConfig 1 256 := ⟨by decide, ⟨8, rfl⟩, ⟨2, rfl⟩⟩
  have hv2 : ValidWays 1 256 2 := ⟨hv1, ⟨1, rfl⟩, by decide⟩
  have hv3 : ValidBlocks 1 256 := ⟨by decide, ⟨8, rfl⟩, by decide⟩
  obtain ⟨s1, hn1, -, -, -, hr1⟩ := C3_address_round_trip.1 1 256 hv1
  obtain ⟨s2, hn2, -, -, -, hr2⟩ := C3_address_round_trip.2.1 1 256 2 hv2
  obtain ⟨s3, hn3, -, -, hr3⟩ := C3_address_round_trip.2.2 1 256 ReplacementPolicy.FIFO hv3
  exact ⟨⟨hv1, s1, hn1, (hr1 1317).1⟩, ⟨hv2, s2, hn2, (hr2 1317).1⟩,
    ⟨hv3, s3, hn3, (hr3 1317).1⟩⟩

/-! ## Fully-associative cache: the three cases of an access -/

theorem FullyAssociativeCache.fa_access_cases {s : FullyAssociativeCache} (h : s.WF)
    (address r : Nat) :
    (∃ k b, k < s.filled_blocks ∧ s.cache[k]? = some b ∧ b.tag = s.tag address ∧
      (∀ j x, j < k → s.cache[j]? = some x → x.tag ≠ s.tag address) ∧
      s.access address r = some (true,
        { s with
          current_time := wrap_int (s.current_time + 1)
          hits := s.hits + 1
          cache := s.cache.set k
            (FullyAssociativeCache.touch s.policy (wrap_int (s.current_time + 1)) b) })) ∨
    (¬ ResidentIn s.cache s.filled_blocks (s.tag address) ∧
      s.filled_blocks < s.num_total_blocks ∧
      s.access address r = some (false,
        { s with
          current_time := wrap_int (s.current_time + 1)
          filled_blocks := s.filled_blocks + 1
          compulsory_misses := s.compulsory_misses + 1
          cache := s.cache.set s.filled_blocks
            { tag := s.tag address, valid := true,
              lru_counter := wrap_int (s.current_time + 1), lfu_counter := 1 } })) ∨
    (¬ ResidentIn s.cache s.filled_blocks (s.tag address) ∧
      s.filled_blocks = s.num_total_blocks ∧
      ∃ v, s.find_victim r = some v ∧ v < s.num_total_blocks ∧
        s.access address r = some (false,
          { s with
            current_time := wrap_int (s.current_time + 1)
            capacity_misses := s.capacity_misses + 1
            cache := s.cache.set v
              { tag := s.tag address, valid := true,
                lru_counter := wrap_int (s.current_time + 1), lfu_counter := 1 } })) := by
  obtain ⟨h1, h2, h3, h4⟩ := h
  obtain ⟨k, y, -, -, hk2, hk3, hk4, hk5⟩ | ⟨-, hn⟩ :=
    scan_first_spec s.cache (fun x => x.tag == s.tag address) s.filled_blocks 0 (by omega)
  · left
    have hyt : y.tag = s.tag address := by simpa using hk4
    have hfirst : ∀ j x, j < k → s.cache[j]? = some x → x.tag ≠ s.tag address := by
      intro j x hj hx
      simpa using hk5 j x (Nat.zero_le _) hj hx
    exact ⟨k, y, by omega, hk3, hyt, hfirst,
      FullyAssociativeCache.fa_access_hit r h4 (by omega) hk3 hyt hfirst⟩
  · right
    have hmiss : ∀ j x, j < s.filled_blocks → s.cache[j]? = some x → x.tag ≠ s.tag address := by
      intro j x hj hx
      simpa using hn j x (Nat.zero_le _) (by omega) hx
    have hnot : ¬ ResidentIn s.cache s.filled_blocks (s.tag address) := by
      rintro ⟨j, b, hj, hb, hbt⟩
      exact hmiss j b hj hb hbt
    by_cases hf : s.filled_blocks < s.num_total_blocks
    · left
      exact ⟨hnot, hf, FullyAssociativeCache.fa_access_compulsory r h4 hf h1 hmiss⟩
    · right
      obtain ⟨v, hv, hvlt⟩ := FullyAssociativeCache.fa_find_victim_lt ⟨h1, h2, h3, h4⟩ r
      exact ⟨hnot, by omega, v, hv, hvlt,
        FullyAssociativeCache.fa_access_capacity r h4 (by omega) h1 hmiss hv hvlt⟩

theorem FullyAssociativeCache.fa_touch_tag (p : ReplacementPolicy) (now : Int) (b : CacheBlock) :
    (FullyAssociativeCache.touch p now b).tag = b.tag := by
  cases p <;> rfl

theorem residentIn_set_same {cache : List CacheBlock} {k : Nat} {b b1 : CacheBlock}
    (hk : cache[k]? = some b) (ht : b1.tag = b.tag) (filled t : Nat) :
    ResidentIn (cache.set k b1) filled t ↔ ResidentIn cache filled t := by
  have hklt : k < cache.length := (List.getElem?_eq_some.mp hk).1
  constructor
  · rintro ⟨j, x, hj, hx, hxt⟩
    by_cases hkj : k = j
    · subst hkj
      rw [List.getElem?_set_self hklt] at hx
      cases hx
      exact ⟨k, b, hj, hk, ht ▸ hxt⟩
    · rw [List.getElem?_set_ne hkj] at hx
      exact ⟨j, x, hj, hx, hxt⟩
  · rintro ⟨j, x, hj, hx, hxt⟩
    by_cases hkj : k = j
    · subst hkj
      rw [hk] at hx
      cases hx
      exact ⟨k, b1, hj, List.getElem?_set_self hklt, ht.trans hxt⟩
    · exact ⟨j, x, hj, by rw [List.getElem?_set_ne hkj]; exact hx, hxt⟩

theorem residentIn_fill {cache : List CacheBlock} {filled : Nat} (b1 : CacheBlock)
    (hf : filled < cache.length) (t : Nat) :
    ResidentIn (cache.set filled b1) (filled + 1) t ↔ ResidentIn cache filled t ∨ b1.tag = t := by
  constructor
  · rintro ⟨j, x, hj, hx, hxt⟩
    by_cases hkj : filled = j
    · subst hkj
      rw [List.getElem?_set_self hf] at hx
      cases hx
      exact Or.inr hxt
    · rw [List.getElem?_set_ne hkj] at hx
      exact Or.inl ⟨j, x, by omega, hx, hxt⟩
  · rintro (⟨j, x, hj, hx, hxt⟩ | hb)
    · exact ⟨j, x, by omega, by rw [List.getElem?_set_ne (by omega)]; exact hx, hxt⟩
    · exact ⟨filled, b1, by omega, List.getElem?_set_self hf, hb⟩

theorem card_snoc_mem {seen : List Nat} {t : Nat} (ht : t ∈ seen) :
    (seen ++ [t]).toFinset.card = seen.toFinset.card := by
  have : (seen ++ [t]).toFinset = seen.toFinset := by
    ext x
    simp only [List.toFinset_append, List.toFinset_cons, List.toFinset_nil, Finset.mem_union,
      List.mem_toFinset, Finset.mem_insert, Finset.not_mem_empty, or_false]
    constructor
    · rintro (h | h)
      · exact h
      · exact h ▸ ht
    · exact Or.inl
  rw [this]

theorem card_snoc_not_mem {seen : List Nat} {t : Nat} (ht : t ∉ seen) :
    (seen ++ [t]).toFinset.card = seen.toFinset.card + 1 := by
  have : (seen ++ [t]).toFinset = insert t seen.toFinset := by
    ext x
    simp only [List.toFinset_append, List.toFinset_cons, List.toFinset_nil, Finset.mem_union,
      List.mem_toFinset, Finset.mem_insert, Finset.not_mem_empty, or_false]
    exact Or.comm
  rw [this, Finset.card_insert_of_not_mem (by simpa using ht)]

theorem card_snoc_le (seen : List Nat) (t : Nat) :
    seen.toFinset.card ≤ (seen ++ [t]).toFinset.card := by
  by_cases ht : t ∈ seen
  · rw [card_snoc_mem ht]
  · rw [card_snoc_not_mem ht]
    omega

/-! ## Fully-associative cache: compulsory misses and distinct tags -/

theorem FullyAssociativeCache.fa_seen_step {s s1 : FullyAssociativeCache} (h : s.WF)
    {seen : List Nat} (hJ : s.SeenInv seen) {address r : Nat} {hit : Bool}
    (hacc : s.access address r = some (hit, s1)) :
    s1.SeenInv (seen ++ [s.tag address]) ∧ s1.WF ∧ s1.offset_bits = s.offset_bits ∧
      s1.num_total_blocks = s.num_total_blocks ∧
      (Classified Outcome.compulsory s.toCacheSimulator s1.toCacheSimulator ↔
        s.tag address ∉ seen ∧ seen.toFinset.card < s.num_total_blocks) := by
  obtain ⟨hJ1, hJ2, hJ3⟩ := hJ
  have hlen := h.1
  have hle := card_snoc_le seen (s.tag address)
  rcases FullyAssociativeCache.fa_access_cases h address r with
    ⟨k, b, hk, hkb, hbt, -, heq⟩ | ⟨hnot, hf, heq⟩ | ⟨hnot, hf, v, -, hvlt, heq⟩
  · -- hit
    rw [heq] at hacc
    obtain ⟨-, rfl⟩ := Prod.mk.inj (Option.some.inj hacc)
    have hres : ResidentIn s.cache s.filled_blocks (s.tag address) := ⟨k, b, hk, hkb, hbt⟩
    have hsame : ∀ t, ResidentIn (s.cache.set k
        (FullyAssociativeCache.touch s.policy (wrap_int (s.current_time + 1)) b))
        s.filled_blocks t ↔ ResidentIn s.cache s.filled_blocks t :=
      residentIn_set_same hkb (FullyAssociativeCache.fa_touch_tag _ _ _) _
    have hcard : seen.toFinset.card ≤ s.num_total_blocks →
        (seen ++ [s.tag address]).toFinset.card = seen.toFinset.card := fun hc =>
      card_snoc_mem ((hJ3 hc _).mpr hres)
    refine ⟨⟨?_, ?_, ?_⟩, FullyAssociativeCache.fa_wf_of_step h rfl h.2.1 rfl rfl, rfl, rfl, ?_⟩
    · show s.compulsory_misses = min s.num_total_blocks (seen ++ [s.tag address]).toFinset.card
      by_cases hc : seen.toFinset.card ≤ s.num_total_blocks
      · rw [hcard hc]
        exact hJ1
      · rw [hJ1]
        omega
    · show s.filled_blocks = min s.num_total_blocks (seen ++ [s.tag address]).toFinset.card
      by_cases hc : seen.toFinset.card ≤ s.num_total_blocks
      · rw [hcard hc]
        exact hJ2
      · rw [hJ2]
        omega
    · intro hc t
      have hc0 : seen.toFinset.card ≤ s.num_total_blocks := by
        have : seen.toFinset.card ≤ (seen ++ [s.tag address]).toFinset.card := hle
        exact le_trans this hc
      show t ∈ seen ++ [s.tag address] ↔ ResidentIn (s.cache.set k _) s.filled_blocks t
      rw [hsame t, ← hJ3 hc0 t]
      simp only [List.mem_append, List.mem_singleton]
      constructor
      · rintro (h1 | h1)
        · exact h1
        · rw [h1]
          exact (hJ3 hc0 _).mpr hres
      · exact Or.inl
    · simp only [Classified, CacheSimulator.mk.injEq]
      constructor
      · intro h1
        omega
      · rintro ⟨h1, h2⟩
        exact absurd ((hJ3 (by omega) _).mpr hres) h1
  · -- compulsory miss
    rw [heq] at hacc
    obtain ⟨-, rfl⟩ := Prod.mk.inj (Option.some.inj hacc)
    have hcard : seen.toFinset.card = s.filled_blocks := by omega
    have hc0 : seen.toFinset.card ≤ s.num_total_blocks := by omega
    have hnew : s.tag address ∉ seen := fun hm => hnot ((hJ3 hc0 _).mp hm)
    have hcard1 := card_snoc_not_mem hnew
    refine ⟨⟨?_, ?_, ?_⟩,
      FullyAssociativeCache.fa_wf_of_step h rfl (by show s.filled_blocks + 1 ≤ _; omega) rfl rfl,
      rfl, rfl, ?_⟩
    · show s.compulsory_misses + 1 = min s.num_total_blocks (seen ++ [s.tag address]).toFinset.card
      rw [hcard1, hJ1]
      omega
    · show s.filled_blocks + 1 = min s.num_total_blocks (seen ++ [s.tag address]).toFinset.card
      rw [hcard1]
      omega
    · intro _ t
      show t ∈ seen ++ [s.tag address] ↔ ResidentIn (s.cache.set s.filled_blocks _)
        (s.filled_blocks + 1) t
      rw [residentIn_fill _ (by omega) t, ← hJ3 hc0 t]
      simp only [List.mem_append, List.mem_singleton]
      constructor
      · rintro (h1 | h1)
        · exact Or.inl h1
        · exact Or.inr h1.symm
      · rintro (h1 | h1)
        · exact Or.inl h1
        · exact Or.inr h1.symm
    · simp only [Classified]
      constructor
      · intro _
        exact ⟨hnew, by omega⟩
      · intro _
        trivial
  · -- capacity miss
    rw [heq] at hacc
    obtain ⟨-, rfl⟩ := Prod.mk.inj (Option.some.inj hacc)
    have hcard : s.num_total_blocks ≤ seen.toFinset.card := by omega
    refine ⟨⟨?_, ?_, ?_⟩, FullyAssociativeCache.fa_wf_of_step h rfl h.2.1 rfl rfl, rfl, rfl, ?_⟩
    · show s.compulsory_misses = min s.num_total_blocks (seen ++ [s.tag address]).toFinset.card
      rw [hJ1]
      omega
    · show s.filled_blocks = min s.num_total_blocks (seen ++ [s.tag address]).toFinset.card
      rw [hJ2]
      omega
    · intro hc t
      exfalso
      have hc1 : (seen ++ [s.tag address]).toFinset.card ≤ s.num_total_blocks := hc
      have hc0 : seen.toFinset.card ≤ s.num_total_blocks := le_trans hle hc1
      have hnew : s.tag address ∉ seen := fun hm => hnot ((hJ3 hc0 _).mp hm)
      have := card_snoc_not_mem hnew
      omega
    · simp only [Classified, CacheSimulator.mk.injEq]
      constructor
      · intro h1
        omega
      · rintro ⟨-, h2⟩
        omega

theorem FullyAssociativeCache.fa_tag_congr {s s1 : FullyAssociativeCache}
    (ho : s1.offset_bits = s.offset_bits) (address : Nat) : s1.tag address = s.tag address := by
  simp only [FullyAssociativeCache.tag, ho]

theorem FullyAssociativeCache.fa_seen_run {s : FullyAssociativeCache} (h : s.WF)
    {seen : List Nat} (hJ : s.SeenInv seen) (l : List (Nat × Nat)) :
    ∃ s1, s.run l = some s1 ∧ s1.WF ∧ s1.SeenInv (seen ++ l.map (fun x => s.tag x.1)) ∧
      s1.offset_bits = s.offset_bits ∧ s1.num_total_blocks = s.num_total_blocks := by
  induction l generalizing s seen with
  | nil =>
    refine ⟨s, rfl, h, ?_, rfl, rfl⟩
    simpa using hJ
  | cons x rest ih =>
    obtain ⟨a, r⟩ := x
    obtain ⟨hit, s2, o, hacc, -⟩ := FullyAssociativeCache.fa_access_step h a r
    obtain ⟨hJ2, hwf2, ho2, hn2, -⟩ := FullyAssociativeCache.fa_seen_step h hJ hacc
    obtain ⟨s1, hr, hwf1, hJ1, ho1, hn1⟩ := ih hwf2 hJ2
    refine ⟨s1, (FullyAssociativeCache.fa_run_cons hacc rest).trans hr, hwf1, ?_,
      ho1.trans ho2, hn1.trans hn2⟩
    have htag : (fun x : Nat × Nat => s2.tag x.1) = fun x => s.tag x.1 := by
      funext x
      exact FullyAssociativeCache.fa_tag_congr ho2 x.1
    rw [htag] at hJ1
    simpa using hJ1

theorem FullyAssociativeCache.fa_seen_fresh {s : FullyAssociativeCache}
    (hc : s.compulsory_misses = 0) (hf : s.filled_blocks = 0) : s.SeenInv [] := by
  refine ⟨by simp [hc], by simp [hf], ?_⟩
  intro _ t
  rw [hf]
  constructor
  · intro h
    simp at h
  · rintro ⟨j, b, hj, -⟩
    omega

theorem FullyAssociativeCache.fa_compulsory_step {s s1 : FullyAssociativeCache} (h : s.WF)
    {seen : List Nat} (hJ : s.SeenInv seen) {address r : Nat} {hit : Bool}
    (hacc : s.access address r = some (hit, s1)) :
    s1.compulsory_misses = s.compulsory_misses +
      (if s.tag address ∉ seen ∧ seen.dedup.length < s.num_total_blocks then 1 else 0) := by
  obtain ⟨-, -, -, -, hiff⟩ := FullyAssociativeCache.fa_seen_step h hJ hacc
  rw [List.card_toFinset] at hiff
  obtain ⟨hit1, s2, o, hacc1, -, hcl, -⟩ := FullyAssociativeCache.fa_access_step h address r
  rw [hacc] at hacc1
  obtain ⟨-, rfl⟩ := Prod.mk.inj (Option.some.inj hacc1)
  by_cases hc : s.tag address ∉ seen ∧ seen.dedup.length < s.num_total_blocks
  · rw [if_pos hc]
    have h1 := hiff.mpr hc
    simp only [Classified] at h1
    rw [h1]
  · rw [if_neg hc]
    have h1 : ¬ Classified Outcome.compulsory s.toCacheSimulator s1.toCacheSimulator :=
      fun hcomp => hc (hiff.mp hcomp)
    cases o with
    | compulsory => exact absurd hcl h1
    | hit =>
      simp only [Classified] at hcl
      rw [hcl]
      rfl
    | capacity =>
      simp only [Classified] at hcl
      rw [hcl]
      rfl
    | conflict =>
      simp only [Classified] at hcl
      rw [hcl]
      rfl

theorem FullyAssociativeCache.fa_count_run {s : FullyAssociativeCache} (h : s.WF)
    {seen : List Nat} (hJ : s.SeenInv seen) (l : List (Nat × Nat)) :
    ∃ s1, s.run l = some s1 ∧
      s1.compulsory_misses = s.compulsory_misses +
        count_first_refs s.num_total_blocks seen (l.map (fun x => s.tag x.1)) := by
  induction l generalizing s seen with
  | nil => exact ⟨s, rfl, rfl⟩
  | cons x rest ih =>
    obtain ⟨a, r⟩ := x
    obtain ⟨hit, s2, o, hacc, -⟩ := FullyAssociativeCache.fa_access_step h a r
    obtain ⟨hJ2, hwf2, ho2, hn2, -⟩ := FullyAssociativeCache.fa_seen_step h hJ hacc
    have hstep := FullyAssociativeCache.fa_compulsory_step h hJ hacc
    obtain ⟨s1, hr, hc1⟩ := ih hwf2 hJ2
    have htag : (fun x : Nat × Nat => s2.tag x.1) = fun x => s.tag x.1 := by
      funext x
      exact FullyAssociativeCache.fa_tag_congr ho2 x.1
    refine ⟨s1, (FullyAssociativeCache.fa_run_cons hacc rest).trans hr, ?_⟩
    rw [hc1, hstep, htag, hn2]
    simp only [List.map_cons, count_first_refs]
    omega

/-- C4: in a fully-associative cache with `N ≥ 1` blocks and any replacement
policy, after any sequence of accesses (any values of `rand()`) to a fresh
cache, `compulsory_misses` is at most `N`; it equals the number of accesses
whose tag `address >> offset_bits` occurs at no earlier access while fewer
than `N` distinct tags occur earlier (first references made while a block is
still unfilled), and it equals `min N d`, where `d` is the number of distinct
tags of the sequence. -/
theorem C4_compulsory_misses_bounded (size_kb blk_size : Nat) (p : ReplacementPolicy)
    (hv : ValidBlocks size_kb blk_size) :
    ∃ s0, FullyAssociativeCache.new size_kb blk_size p = some s0 ∧
      ∀ inputs : List (Nat × Nat), ∃ s, s0.run inputs = some s ∧
        s.compulsory_misses ≤ s0.num_total_blocks ∧
        s.compulsory_misses =
          count_first_refs s0.num_total_blocks []
            (inputs.map (fun x => x.1 >>> s0.offset_bits)) ∧
        s.compulsory_misses =
          min s0.num_total_blocks (inputs.map (fun x => x.1 >>> s0.offset_bits)).dedup.length := by
  obtain ⟨s0, hnew, hwf, -, hc, -, -, -, hf, -⟩ := FullyAssociativeCache.fa_fresh p hv
  refine ⟨s0, hnew, ?_⟩
  intro inputs
  obtain ⟨s, hrun, -, ⟨hJ1, -, -⟩, -, hn⟩ :=
    FullyAssociativeCache.fa_seen_run hwf (FullyAssociativeCache.fa_seen_fresh hc hf) inputs
  obtain ⟨s1, hrun1, hcount⟩ :=
    FullyAssociativeCache.fa_count_run hwf (FullyAssociativeCache.fa_seen_fresh hc hf) inputs
  rw [hrun] at hrun1
  obtain rfl := Option.some.inj hrun1
  rw [hn, List.nil_append, List.card_toFinset] at hJ1
  rw [hc, Nat.zero_add] at hcount
  refine ⟨s, hrun, ?_, hcount, hJ1⟩
  rw [hJ1]
  exact Nat.min_le_left _ _

/-- Witness of C4: a 2-block LRU cache (1 KB, 512-byte blocks) accessed at
0, 512, 1024 and 0 has 2 compulsory misses. -/
theorem C4_compulsory_misses_bounded_witness :
    ValidBlocks 1 512 ∧
    ∃ s0, FullyAssociativeCache.new 1 512 ReplacementPolicy.LRU = some s0 ∧
      ∃ s, s0.run [(0, 0), (512, 0), (1024, 0), (0, 0)] = some s ∧
        s.compulsory_misses ≤ s0.num_total_blocks ∧
        s.compulsory_misses = count_first_refs s0.num_total_blocks []
          ([(0, 0), (512, 0), (1024, 0), (0, 0)].map
            (fun x : Nat × Nat => x.1 >>> s0.offset_bits)) ∧
        s.compulsory_misses = min s0.num_total_blocks
          ([(0, 0), (512, 0), (1024, 0), (0, 0)].map
            (fun x : Nat × Nat => x.1 >>> s0.offset_bits)).dedup.length ∧
        s.compulsory_misses = 2 := by
  have hv : ValidBlocks 1 512 := ⟨by decide, ⟨9, rfl⟩, by decide⟩
  obtain ⟨s0, hnew, h⟩ := C4_compulsory_misses_bounded 1 512 ReplacementPolicy.LRU hv
  obtain ⟨s, h1, h2, h3, h4⟩ := h [(0, 0), (512, 0), (1024, 0), (0, 0)]
  refine ⟨hv, s0, hnew, s, h1, h2, h3, h4, ?_⟩
  have e0 : FullyAssociativeCache.new 1 512 ReplacementPolicy.LRU = some
      { hits := 0, compulsory_misses := 0, capacity_misses := 0, conflict_misses := 0,
        cache_size_kb := 1, block_size := 512, offset_bits := 9, num_total_blocks := 2,
        cache := [⟨0, false, 0, 0⟩, ⟨0, false, 0, 0⟩],
        policy := ReplacementPolicy.LRU, current_time := 0, filled_blocks := 0 } := by decide
  rw [e0] at hnew
  obtain rfl := Option.some.inj hnew
  rw [h4]
  decide

/-- C5, counterexample: in a 2-block fully-associative LRU cache (1 KB,
512-byte blocks) the accesses 0 and 512 fill the cache; the access to 1024 is
the first reference ever to its block, yet it is counted as a capacity miss
and not as a compulsory miss. -/
theorem C5_first_reference_when_full_counterexample :
    ∃ s0 s s1, FullyAssociativeCache.new 1 512 ReplacementPolicy.LRU = some s0 ∧
      s0.run [(0, 0), (512, 0)] = some s ∧
      s.access 1024 0 = some (false, s1) ∧
      (1024 >>> s0.offset_bits) ∉ [0 >>> s0.offset_bits, 512 >>> s0.offset_bits] ∧
      ¬ Classified Outcome.compulsory s.toCacheSimulator s1.toCacheSimulator ∧
      Classified Outcome.capacity s.toCacheSimulator s1.toCacheSimulator := by
  refine ⟨_, _, _, rfl, rfl, rfl, ?_, ?_, ?_⟩ <;> decide

/-- C5, amended: in a fully-associative cache, after any sequence `pre` of
accesses to a fresh cache, an access is counted as a compulsory miss if and
only if its tag was never referenced in `pre` and `pre` references fewer
than `N` distinct tags (the cache still has an unfilled block). -/
theorem C5_compulsory_iff_first_reference_with_room (size_kb blk_size : Nat)
    (p : ReplacementPolicy) (hv : ValidBlocks size_kb blk_size) :
    ∃ s0, FullyAssociativeCache.new size_kb blk_size p = some s0 ∧
      ∀ (pre : List (Nat × Nat)) (address r : Nat),
        ∃ s hit s1, s0.run pre = some s ∧ s.access address r = some (hit, s1) ∧
          (Classified Outcome.compulsory s.toCacheSimulator s1.toCacheSimulator ↔
            (address >>> s0.offset_bits) ∉ pre.map (fun x => x.1 >>> s0.offset_bits) ∧
            (pre.map (fun x => x.1 >>> s0.offset_bits)).dedup.length < s0.num_total_blocks) := by
  obtain ⟨s0, hnew, hwf, -, hc, -, -, -, hf, -⟩ := FullyAssociativeCache.fa_fresh p hv
  refine ⟨s0, hnew, ?_⟩
  intro pre address r
  obtain ⟨s, hrun, hwf1, hJ, ho, hn⟩ :=
    FullyAssociativeCache.fa_seen_run hwf (FullyAssociativeCache.fa_seen_fresh hc hf) pre
  obtain ⟨hit, s1, o, hacc, -⟩ := FullyAssociativeCache.fa_access_step hwf1 address r
  obtain ⟨-, -, -, -, hiff⟩ := FullyAssociativeCache.fa_seen_step hwf1 hJ hacc
  refine ⟨s, hit, s1, hrun, hacc, ?_⟩
  rw [hiff, FullyAssociativeCache.fa_tag_congr ho, hn, List.nil_append, List.card_toFinset]
  rfl

/-- Witness of C5 (amended): in a fresh 2-block FIFO cache the access to 512
after the access to 0 is a compulsory miss. -/
theorem C5_compulsory_iff_first_reference_with_room_witness :
    ValidBlocks 1 512 ∧
    ∃ s0, FullyAssociativeCache.new 1 512 ReplacementPolicy.FIFO = some s0 ∧
      ∃ s hit s1, s0.run [(0, 0)] = some s ∧ s.access 512 0 = some (hit, s1) ∧
        Classified Outcome.compulsory s.toCacheSimulator s1.toCacheSimulator := by
  have hv : ValidBlocks 1 512 := ⟨by decide, ⟨9, rfl⟩, by decide⟩
  obtain ⟨s0, hnew, h⟩ :=
    C5_compulsory_iff_first_reference_with_room 1 512 ReplacementPolicy.FIFO hv
  obtain ⟨s, hit, s1, hrun, hacc, hiff⟩ := h [(0, 0)] 512 0
  refine ⟨hv, s0, hnew, s, hit, s1, hrun, hacc, hiff.mpr ?_⟩
  have e0 : FullyAssociativeCache.new 1 512 ReplacementPolicy.FIFO = some
      { hits := 0, compulsory_misses := 0, capacity_misses := 0, conflict_misses := 0,
        cache_size_kb := 1, block_size := 512, offset_bits := 9, num_total_blocks := 2,
        cache := [⟨0, false, 0, 0⟩, ⟨0, false, 0, 0⟩],
        policy := ReplacementPolicy.FIFO, current_time := 0, filled_blocks := 0 } := by decide
  rw [e0] at hnew
  obtain rfl := Option.some.inj hnew
  decide

/-! ## Fully-associative cache: filling the cache with distinct tags -/

theorem wrap_int_small {x : Int} (h0 : 0 ≤ x) (h1 : x < 2147483648) : wrap_int x = x := by
  unfold wrap_int
  omega

theorem nodup_tags_ne {l : List (Nat × Nat)} {f : Nat × Nat → Nat} (h : (l.map f).Nodup)
    {i j : Nat} {x y : Nat × Nat} (hi : l[i]? = some x) (hj : l[j]? = some y) (hij : i ≠ j) :
    f x ≠ f y := by
  intro heq
  have hjl : j < l.length := (List.getElem?_eq_some.mp hj).1
  have hil : i < l.length := (List.getElem?_eq_some.mp hi).1
  have h1 : (l.map f)[i]? = some (f x) := by rw [List.getElem?_map, hi]; rfl
  have h2 : (l.map f)[j]? = some (f y) := by rw [List.getElem?_map, hj]; rfl
  rcases Nat.lt_or_gt_of_ne hij with hlt | hlt
  · exact (List.nodup_iff_getElem?_ne_getElem?.mp h) i j hlt (by simpa using hjl)
      (by rw [h1, h2, heq])
  · exact (List.nodup_iff_getElem?_ne_getElem?.mp h) j i hlt (by simpa using hil)
      (by rw [h1, h2, heq])

theorem FullyAssociativeCache.fa_fill (l : List (Nat × Nat)) :
    ∀ (s : FullyAssociativeCache) (k : Nat), s.WF → s.num_total_blocks < INT_LIMIT →
      s.filled_blocks = k → s.current_time = (k : Int) → k + l.length ≤ s.num_total_blocks →
      (l.map (fun x => s.tag x.1)).Nodup →
      (∀ x ∈ l, ¬ ResidentIn s.cache k (s.tag x.1)) →
      ∃ s1, s.run l = some s1 ∧ s1.WF ∧ s1.filled_blocks = k + l.length ∧
        s1.current_time = ((k + l.length : Nat) : Int) ∧ s1.policy = s.policy ∧
        s1.offset_bits = s.offset_bits ∧ s1.num_total_blocks = s.num_total_blocks ∧
        s1.hits = s.hits ∧ s1.compulsory_misses = s.compulsory_misses + l.length ∧
        s1.capacity_misses = s.capacity_misses ∧ s1.conflict_misses = s.conflict_misses ∧
        (∀ j, j < k → s1.cache[j]? = s.cache[j]?) ∧
        (∀ j x, l[j]? = some x → s1.cache[k + j]? = some
          { tag := s.tag x.1, valid := true, lru_counter := ((k + j + 1 : Nat) : Int),
            lfu_counter := 1 }) := by
  induction l with
  | nil =>
    intro s k h _ hf ht _ _ _
    refine ⟨s, rfl, h, by simpa using hf, by simpa using ht, rfl, rfl, rfl, rfl, rfl, rfl, rfl,
      fun _ _ => rfl, ?_⟩
    intro j x hx
    simp at hx
  | cons y rest ih =>
    intro s k h hN hf ht hroom hnd hnr
    obtain ⟨a, r⟩ := y
    have hlen := h.1
    have hob := h.2.2.2
    simp only [List.length_cons] at hroom
    simp only [INT_LIMIT] at hN
    have hmiss : ∀ j x, j < s.filled_blocks → s.cache[j]? = some x → x.tag ≠ s.tag a := by
      intro j x hj hx hxt
      exact hnr (a, r) (List.mem_cons_self _ _) ⟨j, x, hf ▸ hj, hx, hxt⟩
    have hacc := @FullyAssociativeCache.fa_access_compulsory s a r hob
      (by omega) hlen hmiss
    have hnow : wrap_int (s.current_time + 1) = ((k + 1 : Nat) : Int) := by
      rw [ht, wrap_int_small (by omega) (by omega)]
      push_cast
      rfl
    rw [hnow, hf] at hacc
    have hwf2 := @FullyAssociativeCache.fa_wf_of_step s
      { s with
        current_time := ((k + 1 : Nat) : Int)
        filled_blocks := k + 1
        compulsory_misses := s.compulsory_misses + 1
        cache := s.cache.set k
          { tag := s.tag a, valid := true, lru_counter := ((k + 1 : Nat) : Int),
            lfu_counter := 1 } } h k _ rfl (by show k + 1 ≤ s.num_total_blocks; omega) rfl rfl
    simp only [List.map_cons, List.nodup_cons] at hnd
    obtain ⟨s1, hr, hwf1, hf1, ht1, hp1, ho1, hn1, hh1, hc1, hcap1, hcon1, hlow, hhigh⟩ :=
      ih _ (k + 1) hwf2 (by simpa [INT_LIMIT] using hN) rfl rfl
        (by show k + 1 + rest.length ≤ s.num_total_blocks; omega)
        hnd.2
        (by
          intro x hx hres
          have hres1 := (residentIn_fill _ (show k < s.cache.length by omega) _).mp hres
          rcases hres1 with h1 | h1
          · exact hnr x (List.mem_cons_of_mem _ hx) h1
          · exact hnd.1 (List.mem_map.mpr ⟨x, hx, h1.symm⟩))
    refine ⟨s1, (FullyAssociativeCache.fa_run_cons hacc rest).trans hr, hwf1, ?_, ?_, hp1, ho1,
      hn1, hh1, ?_, hcap1, hcon1, ?_, ?_⟩
    · rw [hf1, List.length_cons]
      omega
    · rw [ht1, List.length_cons]
      congr 1
      omega
    · rw [hc1, List.length_cons]
      show s.compulsory_misses + 1 + rest.length = _
      omega
    · intro j hj
      rw [hlow j (by omega)]
      show (s.cache.set k _)[j]? = _
      rw [List.getElem?_set_ne (by omega)]
    · intro j x hx
      cases j with
      | zero =>
        simp only [List.getElem?_cons_zero, Option.some.injEq] at hx
        subst hx
        rw [Nat.add_zero, hlow k (by omega)]
        show (s.cache.set k _)[k]? = _
        rw [List.getElem?_set_self (by omega)]
      | succ j =>
        simp only [List.getElem?_cons_succ] at hx
        have := hhigh j x hx
        have e1 : k + (j + 1) = k + 1 + j := by omega
        rw [e1, this]
        rfl

theorem FullyAssociativeCache.fa_filled_fresh {size_kb blk_size : Nat} (p : ReplacementPolicy)
    (hv : ValidBlocks size_kb blk_size) (l : List (Nat × Nat))
    (hlen : l.length ≤ size_kb * 1024 / blk_size)
    (hnd : (l.map (fun x => x.1 >>> log2_floor blk_size)).Nodup) :
    ∃ s0 s, FullyAssociativeCache.new size_kb blk_size p = some s0 ∧ s0.run l = some s ∧
      s.WF ∧ s.FilledWith l ∧ s.filled_blocks = l.length ∧
      s.current_time = (l.length : Int) ∧ s.policy = p ∧
      s.offset_bits = log2_floor blk_size ∧ s0.offset_bits = log2_floor blk_size ∧
      s.num_total_blocks = size_kb * 1024 / blk_size ∧
      s0.num_total_blocks = size_kb * 1024 / blk_size ∧
      s.num_total_blocks + 1024 ≤ INT_LIMIT ∧
      s.hits = 0 ∧ s.compulsory_misses = l.length ∧ s.capacity_misses = 0 ∧
      s.conflict_misses = 0 := by
  obtain ⟨a, ha, ha31, hn, hn2, hnew⟩ := FullyAssociativeCache.fa_new_of_valid p hv
  obtain ⟨s0, hnew0, hwf, h1, h2, h3, h4, hp, hf, ht, hN, hN2, -⟩ :=
    FullyAssociativeCache.fa_fresh p hv
  have hob : s0.offset_bits = log2_floor blk_size := by
    rw [hnew] at hnew0
    rw [← Option.some.inj hnew0, ha, log2_floor_two_pow a (by omega)]
  have htag : (fun x : Nat × Nat => s0.tag x.1) = fun x => x.1 >>> log2_floor blk_size := by
    funext x
    simp only [FullyAssociativeCache.tag, hob]
  obtain ⟨s, hr, hwf1, hf1, ht1, hp1, ho1, hn1, hh1, hc1, hcap1, hcon1, -, hhigh⟩ :=
    FullyAssociativeCache.fa_fill l s0 0 hwf (by omega) hf (by simpa using ht)
      (by rw [hN]; omega) (by rw [htag]; exact hnd)
      (by
        rintro x - ⟨j, b, hj, -⟩
        omega)
  refine ⟨s0, s, hnew0, hr, hwf1, ?_, by simpa using hf1, by simpa using ht1, hp1.trans hp,
    ho1.trans hob, hob, hn1.trans hN, hN, by rw [hn1]; exact hN2, hh1.trans h1,
    by rw [hc1, h2]; omega, hcap1.trans h3, hcon1.trans h4⟩
  intro j x hx
  have := hhigh j x hx
  rw [Nat.zero_add] at this
  rw [this, FullyAssociativeCache.fa_tag_congr ho1]

theorem FullyAssociativeCache.fa_hit_result {s : FullyAssociativeCache} {address : Nat}
    (r : Nat) (hb : s.offset_bits < 32) {k : Nat} {b : CacheBlock} (hk : k < s.filled_blocks)
    (hkb : s.cache[k]? = some b) (ht : b.tag = s.tag address)
    (hfirst : ∀ j x, j < k → s.cache[j]? = some x → x.tag ≠ s.tag address) :
    ∃ s1, s.access address r = some (true, s1) ∧
      s1.cache = s.cache.set k
        (FullyAssociativeCache.touch s.policy (wrap_int (s.current_time + 1)) b) ∧
      s1.filled_blocks = s.filled_blocks ∧ s1.num_total_blocks = s.num_total_blocks ∧
      s1.offset_bits = s.offset_bits ∧ s1.policy = s.policy ∧
      s1.current_time = wrap_int (s.current_time + 1) ∧
      Classified Outcome.hit s.toCacheSimulator s1.toCacheSimulator :=
  ⟨_, FullyAssociativeCache.fa_access_hit r hb hk hkb ht hfirst, rfl, rfl, rfl, rfl, rfl, rfl,
    rfl⟩

theorem FullyAssociativeCache.fa_capacity_result {s : FullyAssociativeCache} {address : Nat}
    (r : Nat) (h : s.WF) (hf : s.filled_blocks = s.num_total_blocks)
    (hnot : ¬ ResidentIn s.cache s.filled_blocks (s.tag address))
    {v : Nat} (hv : s.find_victim r = some v) :
    ∃ s1, s.access address r = some (false, s1) ∧
      s1.cache = s.cache.set v
        { tag := s.tag address, valid := true,
          lru_counter := wrap_int (s.current_time + 1), lfu_counter := 1 } ∧
      s1.filled_blocks = s.filled_blocks ∧ s1.num_total_blocks = s.num_total_blocks ∧
      s1.offset_bits = s.offset_bits ∧ s1.policy = s.policy ∧
      s1.current_time = wrap_int (s.current_time + 1) ∧
      Classified Outcome.capacity s.toCacheSimulator s1.toCacheSimulator := by
  obtain ⟨v1, hv1, hvlt⟩ := FullyAssociativeCache.fa_find_victim_lt h r
  rw [hv] at hv1
  obtain rfl := Option.some.inj hv1
  have hmiss : ∀ j x, j < s.filled_blocks → s.cache[j]? = some x → x.tag ≠ s.tag address :=
    fun j x hj hx hxt => hnot ⟨j, x, hj, hx, hxt⟩
  exact ⟨_, FullyAssociativeCache.fa_access_capacity r h.2.2.2 hf h.1 hmiss hv hvlt, rfl, rfl,
    rfl, rfl, rfl, rfl, rfl⟩

theorem FullyAssociativeCache.fa_miss_of_not_resident {s : FullyAssociativeCache} (h : s.WF)
    (address r : Nat) (hnot : ¬ ResidentIn s.cache s.filled_blocks (s.tag address)) :
    ∃ s1, s.access address r = some (false, s1) := by
  rcases FullyAssociativeCache.fa_access_cases h address r with
    ⟨k, b, hk, hkb, hbt, -, -⟩ | ⟨-, -, heq⟩ | ⟨-, -, v, -, -, heq⟩
  · exact absurd ⟨k, b, hk, hkb, hbt⟩ hnot
  · exact ⟨_, heq⟩
  · exact ⟨_, heq⟩

theorem FullyAssociativeCache.fa_hit_of_resident {s : FullyAssociativeCache} (h : s.WF)
    (address r : Nat) (hres : ResidentIn s.cache s.filled_blocks (s.tag address)) :
    ∃ s1, s.access address r = some (true, s1) := by
  rcases FullyAssociativeCache.fa_access_cases h address r with
    ⟨k, b, hk, hkb, hbt, -, heq⟩ | ⟨hnot, -, -⟩ | ⟨hnot, -, -⟩
  · exact ⟨_, heq⟩
  · exact absurd hres hnot
  · exact absurd hres hnot

/-! ## Fully-associative cache: the LRU and FIFO scenarios -/

theorem mem_tags_of_getElem? {l : List (Nat × Nat)} (f : Nat × Nat → Nat) {j : Nat}
    {x : Nat × Nat} (hx : l[j]? = some x) : f x ∈ l.map f :=
  List.mem_map.mpr ⟨x, List.getElem?_mem hx, rfl⟩

theorem set_eq_self_of_getElem? {α : Type} {l : List α} {k : Nat} {b : α}
    (h : l[k]? = some b) : l.set k b = l := by
  have hk : k < l.length := (List.getElem?_eq_some.mp h).1
  apply List.ext_getElem?
  intro i
  by_cases hi : k = i
  · subst hi
    rw [List.getElem?_set_self hk, h]
  · rw [List.getElem?_set_ne hi]

theorem wrap_int_add_one {x : Int} {n : Nat} (h : x = (n : Int)) (hn : n + 1 < INT_LIMIT) :
    wrap_int (x + 1) = (n : Int) + 1 := by
  simp only [INT_LIMIT] at hn
  rw [h, wrap_int_small (by omega) (by omega)]

theorem wrap_int_add_two {x : Int} {n : Nat} (h : x = (n : Int) + 1) (hn : n + 2 < INT_LIMIT) :
    wrap_int (x + 1) = (n : Int) + 2 := by
  simp only [INT_LIMIT] at hn
  rw [h, wrap_int_small (by omega) (by omega)]
  omega

theorem not_resident_of_tags {cache : List CacheBlock} {l : List (Nat × Nat)} {f : Nat × Nat → Nat}
    {n t : Nat}
    (hdesc : ∀ (j : Nat) (b : CacheBlock), j < n → cache[j]? = some b →
      ∃ x, l[j]? = some x ∧ b.tag = f x)
    (ht : t ∉ l.map f) : ¬ ResidentIn cache n t := by
  rintro ⟨j, b, hj, hb, hbt⟩
  obtain ⟨x, hx, hxt⟩ := hdesc j b hj hb
  apply ht
  rw [← hbt, hxt]
  exact mem_tags_of_getElem? f hx

/-- Blocks of a filled cache whose block 0 was re-stamped. -/
theorem FullyAssociativeCache.fa_lru_victim {s1 : FullyAssociativeCache} (h : s1.WF)
    (hp : s1.policy = ReplacementPolicy.LRU) {l : List (Nat × Nat)} {f : Nat × Nat → Nat}
    (hlen : l.length = s1.num_total_blocks) (h2 : 2 ≤ s1.num_total_blocks)
    {b0 : CacheBlock} (h10 : s1.cache[0]? = some b0)
    (hb0 : b0.lru_counter = (s1.num_total_blocks : Int) + 1)
    (h1j : ∀ (j : Nat) (x : Nat × Nat), j ≠ 0 → l[j]? = some x → s1.cache[j]? = some
      { tag := f x, valid := true, lru_counter := ((j + 1 : Nat) : Int), lfu_counter := 1 })
    (re : Nat) : s1.find_victim re = some 1 := by
  obtain ⟨w, bw, hw, hwlt, hwb, hmin, -⟩ :=
    FullyAssociativeCache.fa_min_scan_spec CacheBlock.lru_counter s1.cache _ h10
  rw [FullyAssociativeCache.fa_find_victim_lru re (Or.inl hp) h10, ← h.1, hw]
  obtain ⟨x1, hx1⟩ : ∃ x, l[1]? = some x := ⟨_, List.getElem?_eq_getElem (by omega)⟩
  have hle := hmin 1 _ (h1j 1 x1 (by omega) hx1)
  rw [h.1] at hwlt
  by_cases hw0 : w = 0
  · subst hw0
    rw [h10] at hwb
    obtain rfl := Option.some.inj hwb
    rw [hb0] at hle
    simp only at hle
    omega
  · obtain ⟨x, hx⟩ : ∃ x, l[w]? = some x := ⟨_, List.getElem?_eq_getElem (by omega)⟩
    rw [h1j w x hw0 hx] at hwb
    obtain rfl := Option.some.inj hwb
    simp only at hle
    congr 1
    omega

theorem FullyAssociativeCache.fa_fifo_victim {s1 : FullyAssociativeCache} (h : s1.WF)
    (hp : s1.policy = ReplacementPolicy.FIFO) {l : List (Nat × Nat)} {f : Nat × Nat → Nat}
    (hlen : l.length = s1.num_total_blocks)
    (hall : ∀ (j : Nat) (x : Nat × Nat), l[j]? = some x → s1.cache[j]? = some
      { tag := f x, valid := true, lru_counter := ((j + 1 : Nat) : Int), lfu_counter := 1 })
    (re : Nat) : s1.find_victim re = some 0 := by
  obtain ⟨x0, hx0⟩ : ∃ x, l[0]? = some x :=
    ⟨_, List.getElem?_eq_getElem (by rw [hlen]; exact h.2.2.1)⟩
  have h10 := hall 0 x0 hx0
  obtain ⟨w, bw, hw, hwlt, hwb, hmin, -⟩ :=
    FullyAssociativeCache.fa_min_scan_spec CacheBlock.lru_counter s1.cache _ h10
  rw [FullyAssociativeCache.fa_find_victim_lru re (Or.inr hp) h10, ← h.1, hw]
  have hle := hmin 0 _ h10
  rw [h.1] at hwlt
  obtain ⟨x, hx⟩ : ∃ x, l[w]? = some x := ⟨_, List.getElem?_eq_getElem (by omega)⟩
  rw [hall w x hx] at hwb
  obtain rfl := Option.some.inj hwb
  simp only at hle
  congr 1
  omega

theorem FullyAssociativeCache.fa_after_evict {s2 : FullyAssociativeCache} (h : s2.WF)
    (hfill : s2.filled_blocks = s2.num_total_blocks) {c1 : List CacheBlock}
    {l : List (Nat × Nat)} {v : Nat} {nb : CacheBlock} {tg : Nat → Nat}
    (htg : ∀ a, s2.tag a = tg a) (hc : s2.cache = c1.set v nb)
    (hlen : l.length = s2.num_total_blocks)
    (hpos : ∀ (j : Nat) (x : Nat × Nat), l[j]? = some x →
      ∃ b : CacheBlock, c1[j]? = some b ∧ b.tag = tg x.1)
    (hnd : (l.map (fun x => tg x.1)).Nodup) (hnb : nb.tag ∉ l.map (fun x => tg x.1)) :
    (∀ (j : Nat) (x : Nat × Nat), j ≠ v → l[j]? = some x →
      ∀ r, ∃ s3, s2.access x.1 r = some (true, s3)) ∧
    (∀ x : Nat × Nat, l[v]? = some x → ∀ r, ∃ s4, s2.access x.1 r = some (false, s4)) := by
  constructor
  · intro j x hjv hx r
    obtain ⟨b, hb, hbt⟩ := hpos j x hx
    have hjlt : j < l.length := (List.getElem?_eq_some.mp hx).1
    apply FullyAssociativeCache.fa_hit_of_resident h
    refine ⟨j, b, by omega, ?_, hbt.trans (htg x.1).symm⟩
    rw [hc, List.getElem?_set_ne (Ne.symm hjv), hb]
  · intro x hx r
    have hvlt : v < l.length := (List.getElem?_eq_some.mp hx).1
    apply FullyAssociativeCache.fa_miss_of_not_resident h
    rintro ⟨k, b, hk, hb, hbt⟩
    rw [htg] at hbt
    by_cases hkv : k = v
    · subst hkv
      have hklt : k < c1.length := by
        have := h.1
        rw [hc, List.length_set] at this
        omega
      rw [hc, List.getElem?_set_self hklt] at hb
      obtain rfl := Option.some.inj hb
      apply hnb
      rw [hbt]
      exact mem_tags_of_getElem? (fun x => tg x.1) hx
    · obtain ⟨y, hy⟩ : ∃ y, l[k]? = some y := ⟨_, List.getElem?_eq_getElem (by omega)⟩
      obtain ⟨b1, hb1, hb1t⟩ := hpos k y hy
      rw [hc, List.getElem?_set_ne (Ne.symm hkv), hb1] at hb
      obtain rfl := Option.some.inj hb
      exact nodup_tags_ne hnd hy hx hkv (hb1t.symm.trans hbt)

theorem FullyAssociativeCache.fa_lru_scenario {s : FullyAssociativeCache} (h : s.WF)
    (hp : s.policy = ReplacementPolicy.LRU) (hN : s.num_total_blocks + 2 < INT_LIMIT)
    {a0 r0 a1 r1 : Nat} {rest : List (Nat × Nat)}
    (hfw : s.FilledWith ((a0, r0) :: (a1, r1) :: rest))
    (hfill : s.filled_blocks = s.num_total_blocks)
    (hlen : rest.length + 2 = s.num_total_blocks)
    (ht : s.current_time = (s.num_total_blocks : Int))
    (hnd : (((a0, r0) :: (a1, r1) :: rest).map (fun x => s.tag x.1)).Nodup)
    (e : Nat) (he : s.tag e ∉ ((a0, r0) :: (a1, r1) :: rest).map (fun x => s.tag x.1))
    (ra re rb rc : Nat) :
    ∃ s1 s2, s.access a0 ra = some (true, s1) ∧ s1.find_victim re = some 1 ∧
      s1.cache[1]? = some
        { tag := s.tag a1, valid := true, lru_counter := 2, lfu_counter := 1 } ∧
      s1.access e re = some (false, s2) ∧
      Classified Outcome.capacity s1.toCacheSimulator s2.toCacheSimulator ∧
      s2.cache = s1.cache.set 1
        { tag := s.tag e, valid := true,
          lru_counter := (s.num_total_blocks : Int) + 2, lfu_counter := 1 } ∧
      (∃ s3, s2.access a0 rb = some (true, s3)) ∧ (∃ s4, s2.access a1 rc = some (false, s4)) := by
  have hlen1 : ((a0, r0) :: (a1, r1) :: rest).length = s.num_total_blocks := by
    simp only [List.length_cons]
    omega
  have hl1 : ((a0, r0) :: (a1, r1) :: rest)[1]? = some (a1, r1) := by simp
  have hF0 := hfw 0 (a0, r0) (by simp)
  have hpos0 : 0 < s.filled_blocks := by omega
  have h2 : 2 ≤ s.num_total_blocks := by omega
  have hN1 : s.num_total_blocks + 1 < INT_LIMIT := by omega
  have hclen : 0 < s.cache.length := by rw [h.1]; omega
  obtain ⟨s1, hacc1, hc1, hf1, hn1, ho1, hp1, ht1, -⟩ :=
    @FullyAssociativeCache.fa_hit_result s a0 ra h.2.2.2 0 _ hpos0 hF0 rfl
      (fun j _ hj => absurd hj (Nat.not_lt_zero j))
  have hwf1 : s1.WF :=
    FullyAssociativeCache.fa_wf_of_step h hc1 (hf1.trans_le h.2.1) hn1 ho1
  rw [hp, wrap_int_add_one ht hN1] at hc1
  rw [wrap_int_add_one ht hN1] at ht1
  have htag1 : ∀ x, s1.tag x = s.tag x := FullyAssociativeCache.fa_tag_congr ho1
  have h10 : s1.cache[0]? = some
      { tag := s.tag a0, valid := true, lru_counter := (s.num_total_blocks : Int) + 1,
        lfu_counter := 1 } := by
    rw [hc1, List.getElem?_set_self hclen]
    rfl
  have h1j : ∀ (j : Nat) (x : Nat × Nat), j ≠ 0 →
      ((a0, r0) :: (a1, r1) :: rest)[j]? = some x → s1.cache[j]? = some
      { tag := s.tag x.1, valid := true, lru_counter := ((j + 1 : Nat) : Int),
        lfu_counter := 1 } := by
    intro j x hj hx
    rw [hc1, List.getElem?_set_ne (Ne.symm hj)]
    exact hfw j x hx
  have hpos : ∀ (j : Nat) (x : Nat × Nat), ((a0, r0) :: (a1, r1) :: rest)[j]? = some x →
      ∃ b : CacheBlock, s1.cache[j]? = some b ∧ b.tag = s.tag x.1 := by
    intro j x hx
    by_cases hj : j = 0
    · subst hj
      obtain rfl : (a0, r0) = x := by simpa using hx
      exact ⟨_, h10, rfl⟩
    · exact ⟨_, h1j j x hj hx, rfl⟩
  have hdesc : ∀ (j : Nat) (b : CacheBlock), j < s1.filled_blocks → s1.cache[j]? = some b →
      ∃ x, ((a0, r0) :: (a1, r1) :: rest)[j]? = some x ∧ b.tag = s.tag x.1 := by
    intro j b hj hb
    obtain ⟨x, hx⟩ : ∃ x, ((a0, r0) :: (a1, r1) :: rest)[j]? = some x :=
      ⟨_, List.getElem?_eq_getElem (by rw [hlen1, ← hfill, ← hf1]; exact hj)⟩
    obtain ⟨b1, hb1, hb1t⟩ := hpos j x hx
    rw [hb1] at hb
    exact ⟨x, hx, (Option.some.inj hb) ▸ hb1t⟩
  have hnot1 : ¬ ResidentIn s1.cache s1.filled_blocks (s1.tag e) := by
    rw [htag1]
    exact not_resident_of_tags hdesc he
  have hvic : s1.find_victim re = some 1 :=
    FullyAssociativeCache.fa_lru_victim hwf1 (hp1.trans hp) (hlen1.trans hn1.symm)
      (hn1.symm ▸ h2) h10 (by rw [hn1]) h1j re
  have h11 : s1.cache[1]? = some
      { tag := s.tag a1, valid := true, lru_counter := 2, lfu_counter := 1 } :=
    h1j 1 (a1, r1) (by decide) hl1
  obtain ⟨s2, hacc2, hc2, hf2, hn2, ho2, -, -, hcl2⟩ :=
    FullyAssociativeCache.fa_capacity_result re hwf1 (hf1.trans (hfill.trans hn1.symm)) hnot1
      hvic
  have hwf2 : s2.WF :=
    FullyAssociativeCache.fa_wf_of_step hwf1 hc2 (hf2.trans_le hwf1.2.1) hn2 ho2
  rw [wrap_int_add_two ht1 hN, htag1] at hc2
  have htag2 : ∀ x, s2.tag x = s.tag x := fun x =>
    (FullyAssociativeCache.fa_tag_congr ho2 x).trans (htag1 x)
  obtain ⟨hhit, hmiss⟩ := FullyAssociativeCache.fa_after_evict hwf2
    (hf2.trans (hf1.trans (hfill.trans (hn1.symm.trans hn2.symm)))) htag2 hc2
    (hlen1.trans (hn1.symm.trans hn2.symm)) hpos hnd he
  exact ⟨s1, s2, hacc1, hvic, h11, hacc2, hcl2, hc2,
    hhit 0 (a0, r0) (by decide) (by simp) rb, hmiss (a1, r1) hl1 rc⟩

theorem FullyAssociativeCache.fa_fifo_scenario {s : FullyAssociativeCache} (h : s.WF)
    (hp : s.policy = ReplacementPolicy.FIFO) (hN : s.num_total_blocks + 2 < INT_LIMIT)
    {a0 r0 : Nat} {rest : List (Nat × Nat)}
    (hfw : s.FilledWith ((a0, r0) :: rest))
    (hfill : s.filled_blocks = s.num_total_blocks)
    (hlen : rest.length + 1 = s.num_total_blocks)
    (ht : s.current_time = (s.num_total_blocks : Int))
    (hnd : (((a0, r0) :: rest).map (fun x => s.tag x.1)).Nodup)
    (e : Nat) (he : s.tag e ∉ ((a0, r0) :: rest).map (fun x => s.tag x.1))
    (ra re rb : Nat) :
    ∃ s1 s2, s.access a0 ra = some (true, s1) ∧ s1.cache = s.cache ∧
      s1.find_victim re = some 0 ∧
      s1.cache[0]? = some
        { tag := s.tag a0, valid := true, lru_counter := 1, lfu_counter := 1 } ∧
      s1.access e re = some (false, s2) ∧
      Classified Outcome.capacity s1.toCacheSimulator s2.toCacheSimulator ∧
      s2.cache = s1.cache.set 0
        { tag := s.tag e, valid := true,
          lru_counter := (s.num_total_blocks : Int) + 2, lfu_counter := 1 } ∧
      (∃ s3, s2.access a0 rb = some (false, s3)) ∧
      (∀ x ∈ rest, ∀ r, ∃ s4, s2.access x.1 r = some (true, s4)) := by
  have hlen1 : ((a0, r0) :: rest).length = s.num_total_blocks := by
    simp only [List.length_cons]
    omega
  have hl0 : ((a0, r0) :: rest)[0]? = some (a0, r0) := by simp
  have hF0 := hfw 0 (a0, r0) hl0
  have hpos0 : 0 < s.filled_blocks := by omega
  have hN1 : s.num_total_blocks + 1 < INT_LIMIT := by omega
  obtain ⟨s1, hacc1, hc1, hf1, hn1, ho1, hp1, ht1, -⟩ :=
    @FullyAssociativeCache.fa_hit_result s a0 ra h.2.2.2 0 _ hpos0 hF0 rfl
      (fun j _ hj => absurd hj (Nat.not_lt_zero j))
  have hwf1 : s1.WF :=
    FullyAssociativeCache.fa_wf_of_step h hc1 (hf1.trans_le h.2.1) hn1 ho1
  rw [hp] at hc1
  simp only [FullyAssociativeCache.touch] at hc1
  rw [set_eq_self_of_getElem? hF0] at hc1
  rw [wrap_int_add_one ht hN1] at ht1
  have htag1 : ∀ x, s1.tag x = s.tag x := FullyAssociativeCache.fa_tag_congr ho1
  have hall : ∀ (j : Nat) (x : Nat × Nat), ((a0, r0) :: rest)[j]? = some x →
      s1.cache[j]? = some
      { tag := s.tag x.1, valid := true, lru_counter := ((j + 1 : Nat) : Int),
        lfu_counter := 1 } := by
    intro j x hx
    rw [hc1]
    exact hfw j x hx
  have h10 : s1.cache[0]? = some
      { tag := s.tag a0, valid := true, lru_counter := 1, lfu_counter := 1 } :=
    hall 0 (a0, r0) hl0
  have hpos : ∀ (j : Nat) (x : Nat × Nat), ((a0, r0) :: rest)[j]? = some x →
      ∃ b : CacheBlock, s1.cache[j]? = some b ∧ b.tag = s.tag x.1 :=
    fun j x hx => ⟨_, hall j x hx, rfl⟩
  have hdesc : ∀ (j : Nat) (b : CacheBlock), j < s1.filled_blocks → s1.cache[j]? = some b →
      ∃ x, ((a0, r0) :: rest)[j]? = some x ∧ b.tag = s.tag x.1 := by
    intro j b hj hb
    obtain ⟨x, hx⟩ : ∃ x, ((a0, r0) :: rest)[j]? = some x :=
      ⟨_, List.getElem?_eq_getElem (by rw [hlen1, ← hfill, ← hf1]; exact hj)⟩
    rw [hall j x hx] at hb
    exact ⟨x, hx, (Option.some.inj hb) ▸ rfl⟩
  have hnot1 : ¬ ResidentIn s1.cache s1.filled_blocks (s1.tag e) := by
    rw [htag1]
    exact not_resident_of_tags hdesc he
  have hvic : s1.find_victim re = some 0 :=
    FullyAssociativeCache.fa_fifo_victim hwf1 (hp1.trans hp) (hlen1.trans hn1.symm) hall re
  obtain ⟨s2, hacc2, hc2, hf2, hn2, ho2, -, -, hcl2⟩ :=
    FullyAssociativeCache.fa_capacity_result re hwf1 (hf1.trans (hfill.trans hn1.symm)) hnot1
      hvic
  have hwf2 : s2.WF :=
    FullyAssociativeCache.fa_wf_of_step hwf1 hc2 (hf2.trans_le hwf1.2.1) hn2 ho2
  rw [wrap_int_add_two ht1 hN, htag1] at hc2
  have htag2 : ∀ x, s2.tag x = s.tag x := fun x =>
    (FullyAssociativeCache.fa_tag_congr ho2 x).trans (htag1 x)
  obtain ⟨hhit, hmiss⟩ := FullyAssociativeCache.fa_after_evict hwf2
    (hf2.trans (hf1.trans (hfill.trans (hn1.symm.trans hn2.symm)))) htag2 hc2
    (hlen1.trans (hn1.symm.trans hn2.symm)) hpos hnd he
  refine ⟨s1, s2, hacc1, hc1, hvic, h10, hacc2, hcl2, hc2, hmiss (a0, r0) hl0 rb, ?_⟩
  intro x hx r
  obtain ⟨j, hj⟩ := List.mem_iff_getElem?.mp hx
  exact hhit (j + 1) x (Nat.succ_ne_zero j) (by simpa using hj) r

theorem FullyAssociativeCache.fa_tag_fun {s : FullyAssociativeCache} {n : Nat}
    (ho : s.offset_bits = n) :
    (fun x : Nat × Nat => s.tag x.1) = fun x => x.1 >>> n := by
  funext x
  simp only [FullyAssociativeCache.tag, ho]

/-- C6: fully-associative LRU cache with `N ≥ 2` blocks.  From a fresh cache,
accessing `N` addresses `a0, a1, ...` with pairwise distinct tags, then `a0`
again (a hit), then an address `e` with a new tag makes the access to `e` a
capacity miss whose victim is block 1, the block holding the tag of `a1`;
afterwards `a0` hits and `a1` misses.  The values `r0, r1, ra, ...` of
`rand()` are arbitrary. -/
theorem C6_lru_evicts_least_recent (size_kb blk_size : Nat)
    (hv : ValidBlocks size_kb blk_size) (a0 r0 a1 r1 : Nat) (rest : List (Nat × Nat))
    (e ra re rb rc : Nat)
    (hlen : rest.length + 2 = size_kb * 1024 / blk_size)
    (hnd : (((a0, r0) :: (a1, r1) :: rest).map (fun x => x.1 >>> log2_floor blk_size)).Nodup)
    (he : e >>> log2_floor blk_size ∉
      ((a0, r0) :: (a1, r1) :: rest).map (fun x => x.1 >>> log2_floor blk_size)) :
    ∃ s0 s s1 s2, FullyAssociativeCache.new size_kb blk_size ReplacementPolicy.LRU = some s0 ∧
      s0.offset_bits = log2_floor blk_size ∧
      s0.num_total_blocks = size_kb * 1024 / blk_size ∧
      s0.run ((a0, r0) :: (a1, r1) :: rest) = some s ∧
      s.access a0 ra = some (true, s1) ∧
      s1.find_victim re = some 1 ∧
      (∃ b, s1.cache[1]? = some b ∧ b.tag = a1 >>> log2_floor blk_size) ∧
      s1.access e re = some (false, s2) ∧
      Classified Outcome.capacity s1.toCacheSimulator s2.toCacheSimulator ∧
      s2.cache = s1.cache.set 1
        { tag := e >>> log2_floor blk_size, valid := true,
          lru_counter := ((size_kb * 1024 / blk_size : Nat) : Int) + 2, lfu_counter := 1 } ∧
      (∃ s3, s2.access a0 rb = some (true, s3)) ∧
      (∃ s4, s2.access a1 rc = some (false, s4)) := by
  obtain ⟨s0, s, hnew, hrun, hwf, hfw, hf, ht, hp, ho, ho0, hn, hn0, hroom, -⟩ :=
    FullyAssociativeCache.fa_filled_fresh ReplacementPolicy.LRU hv
      ((a0, r0) :: (a1, r1) :: rest) (by simp only [List.length_cons]; omega) hnd
  have hlen2 : ((a0, r0) :: (a1, r1) :: rest).length = s.num_total_blocks := by
    simp only [List.length_cons]
    omega
  have htf := FullyAssociativeCache.fa_tag_fun ho
  have hte : s.tag e = e >>> log2_floor blk_size := by
    simp only [FullyAssociativeCache.tag, ho]
  have hta : s.tag a1 = a1 >>> log2_floor blk_size := by
    simp only [FullyAssociativeCache.tag, ho]
  obtain ⟨s1, s2, h1, h2, h3, h4, h5, h6, h7, h8⟩ :=
    FullyAssociativeCache.fa_lru_scenario hwf hp (by omega) hfw (by rw [hf, hlen2])
      (by omega) (by rw [ht, hlen2]) (by rw [htf]; exact hnd) e (by rw [htf, hte]; exact he)
      ra re rb rc
  refine ⟨s0, s, s1, s2, hnew, ho0, hn0, hrun, h1, h2, ⟨_, h3, hta⟩, h4, h5, ?_, h7, h8⟩
  rw [h6, hte, hn]

/-- Witness of C6: a 2-block LRU cache (1 KB, 512-byte blocks) accessed at
0, 512, 0 and then 1024. -/
theorem C6_lru_evicts_least_recent_witness :
    ValidBlocks 1 512 ∧
    ∃ s0 s s1 s2, FullyAssociativeCache.new 1 512 ReplacementPolicy.LRU = some s0 ∧
      s0.run [(0, 0), (512, 0)] = some s ∧ s.access 0 0 = some (true, s1) ∧
      s1.find_victim 0 = some 1 ∧ s1.access 1024 0 = some (false, s2) ∧
      Classified Outcome.capacity s1.toCacheSimulator s2.toCacheSimulator ∧
      (∃ s3, s2.access 0 0 = some (true, s3)) ∧ (∃ s4, s2.access 512 0 = some (false, s4)) := by
  have hv : ValidBlocks 1 512 := ⟨by decide, ⟨9, rfl⟩, by decide⟩
  obtain ⟨s0, s, s1, s2, h1, -, -, h2, h3, h4, -, h5, h6, -, h7, h8⟩ :=
    C6_lru_evicts_least_recent 1 512 hv 0 0 512 0 [] 1024 0 0 0 0 (by decide) (by decide)
      (by decide)
  exact ⟨hv, s0, s, s1, s2, h1, h2, h3, h4, h5, h6, h7, h8⟩

/-- C7: fully-associative FIFO cache with `N ≥ 1` blocks.  From a fresh cache,
accessing `N` addresses `a0, ...` with pairwise distinct tags, then `a0` again
is a hit that leaves every block as it was; an address `e` with a new tag is
then a capacity miss whose victim is block 0, the block holding the tag of
`a0`; afterwards `a0` misses and all of the other `N - 1` addresses hit.
Under LRU (when `N ≥ 2`) the same accesses evict block 1 instead and `a0`
hits afterwards. -/
theorem C7_fifo_evicts_oldest (size_kb blk_size : Nat)
    (hv : ValidBlocks size_kb blk_size) (a0 r0 : Nat) (rest : List (Nat × Nat))
    (e ra re rb : Nat)
    (hlen : rest.length + 1 = size_kb * 1024 / blk_size)
    (hnd : (((a0, r0) :: rest).map (fun x => x.1 >>> log2_floor blk_size)).Nodup)
    (he : e >>> log2_floor blk_size ∉
      ((a0, r0) :: rest).map (fun x => x.1 >>> log2_floor blk_size)) :
    (∃ s0 s s1 s2, FullyAssociativeCache.new size_kb blk_size ReplacementPolicy.FIFO = some s0 ∧
      s0.offset_bits = log2_floor blk_size ∧
      s0.num_total_blocks = size_kb * 1024 / blk_size ∧
      s0.run ((a0, r0) :: rest) = some s ∧
      s.access a0 ra = some (true, s1) ∧ s1.cache = s.cache ∧
      s1.find_victim re = some 0 ∧
      (∃ b, s1.cache[0]? = some b ∧ b.tag = a0 >>> log2_floor blk_size) ∧
      s1.access e re = some (false, s2) ∧
      Classified Outcome.capacity s1.toCacheSimulator s2.toCacheSimulator ∧
      s2.cache = s1.cache.set 0
        { tag := e >>> log2_floor blk_size, valid := true,
          lru_counter := ((size_kb * 1024 / blk_size : Nat) : Int) + 2, lfu_counter := 1 } ∧
      (∃ s3, s2.access a0 rb = some (false, s3)) ∧
      (∀ x ∈ rest, ∀ r, ∃ s4, s2.access x.1 r = some (true, s4))) ∧
    (2 ≤ size_kb * 1024 / blk_size →
      ∃ u0 u u1 u2, FullyAssociativeCache.new size_kb blk_size ReplacementPolicy.LRU = some u0 ∧
        u0.run ((a0, r0) :: rest) = some u ∧
        u.access a0 ra = some (true, u1) ∧ u1.find_victim re = some 1 ∧
        u1.access e re = some (false, u2) ∧
        (∃ u3, u2.access a0 rb = some (true, u3))) := by
  constructor
  · obtain ⟨s0, s, hnew, hrun, hwf, hfw, hf, ht, hp, ho, ho0, hn, hn0, hroom, -⟩ :=
      FullyAssociativeCache.fa_filled_fresh ReplacementPolicy.FIFO hv
        ((a0, r0) :: rest) (by simp only [List.length_cons]; omega) hnd
    have hlen2 : ((a0, r0) :: rest).length = s.num_total_blocks := by
      simp only [List.length_cons]
      omega
    have htf := FullyAssociativeCache.fa_tag_fun ho
    have hte : s.tag e = e >>> log2_floor blk_size := by
      simp only [FullyAssociativeCache.tag, ho]
    have hta : s.tag a0 = a0 >>> log2_floor blk_size := by
      simp only [FullyAssociativeCache.tag, ho]
    obtain ⟨s1, s2, h1, h2, h3, h4, h5, h6, h7, h8, h9⟩ :=
      FullyAssociativeCache.fa_fifo_scenario hwf hp (by omega) hfw (by rw [hf, hlen2])
        (by omega) (by rw [ht, hlen2]) (by rw [htf]; exact hnd) e (by rw [htf, hte]; exact he)
        ra re rb
    refine ⟨s0, s, s1, s2, hnew, ho0, hn0, hrun, h1, h2, h3, ⟨_, h4, hta⟩, h5, h6, ?_, h8, h9⟩
    rw [h7, hte, hn]
  · intro h2
    obtain ⟨y, rest1, hrest⟩ : ∃ y rest1, rest = y :: rest1 := by
      cases rest with
      | nil =>
        simp only [List.length_nil] at hlen
        omega
      | cons y rest1 => exact ⟨y, rest1, rfl⟩
    obtain ⟨a1, r1⟩ := y
    subst hrest
    obtain ⟨u0, u, hnew, hrun, hwf, hfw, hf, ht, hp, ho, ho0, hn, hn0, hroom, -⟩ :=
      FullyAssociativeCache.fa_filled_fresh ReplacementPolicy.LRU hv
        ((a0, r0) :: (a1, r1) :: rest1) (by simp only [List.length_cons] at hlen ⊢; omega) hnd
    have hlen2 : ((a0, r0) :: (a1, r1) :: rest1).length = u.num_total_blocks := by
      simp only [List.length_cons] at hlen ⊢
      omega
    have htf := FullyAssociativeCache.fa_tag_fun ho
    have hte : u.tag e = e >>> log2_floor blk_size := by
      simp only [FullyAssociativeCache.tag, ho]
    obtain ⟨u1, u2, h1, h2, -, h4, -, -, h7, -⟩ :=
      FullyAssociativeCache.fa_lru_scenario hwf hp (by omega) hfw (by rw [hf, hlen2])
        (by simp only [List.length_cons] at hlen; omega) (by rw [ht, hlen2])
        (by rw [htf]; exact hnd) e (by rw [htf, hte]; exact he) ra re rb 0
    exact ⟨u0, u, u1, u2, hnew, hrun, h1, h2, h4, h7⟩

/-- Witness of C7: a 2-block FIFO cache (1 KB, 512-byte blocks) accessed at
0, 512, 0 and then 1024. -/
theorem C7_fifo_evicts_oldest_witness :
    ValidBlocks 1 512 ∧
    ∃ s0 s s1 s2, FullyAssociativeCache.new 1 512 ReplacementPolicy.FIFO = some s0 ∧
      s0.run [(0, 0), (512, 0)] = some s ∧ s.access 0 0 = some (true, s1) ∧
      s1.cache = s.cache ∧ s1.find_victim 0 = some 0 ∧ s1.access 1024 0 = some (false, s2) ∧
      Classified Outcome.capacity s1.toCacheSimulator s2.toCacheSimulator ∧
      (∃ s3, s2.access 0 0 = some (false, s3)) ∧ (∃ s4, s2.access 512 0 = some (true, s4)) := by
  have hv : ValidBlocks 1 512 := ⟨by decide, ⟨9, rfl⟩, by decide⟩
  obtain ⟨⟨s0, s, s1, s2, h1, -, -, h2, h3, h4, h5, -, h6, h7, -, h8, h9⟩, -⟩ :=
    C7_fifo_evicts_oldest 1 512 hv 0 0 [(512, 0)] 1024 0 0 0 (by decide) (by decide)
      (by decide)
  exact ⟨hv, s0, s, s1, s2, h1, h2, h3, h4, h5, h6, h7, h8, h9 (512, 0) (by simp) 0⟩

/-! ## Set-associative cache: filling one set -/

theorem set_append_replicate {α : Type} (F : List α) (x y : α) (m : Nat) :
    (F ++ List.replicate (m + 1) x).set F.length y = (F ++ [y]) ++ List.replicate m x := by
  induction F with
  | nil => rfl
  | cons a F ih =>
    simp only [List.cons_append, List.length_cons, List.set_cons_succ, ih]

theorem SetAssociativeCache.sa_fill (idx : Nat) (l : List (Nat × Nat)) :
    ∀ (s : SetAssociativeCache) (F : List CacheLine) (m : Nat), s.WF →
      s.cache[idx]? = some (F ++ List.replicate m { tag := 0, valid := false }) →
      (∀ x ∈ F, x.valid = true) → l.length ≤ m →
      (∀ x ∈ l, s.index x.1 = idx) →
      (l.map (fun x => s.tag x.1)).Nodup →
      (∀ x ∈ l, ∀ y ∈ F, y.tag ≠ s.tag x.1) →
      ∃ s1, s.run l = some s1 ∧ s1.WF ∧
        s1.cache[idx]? = some
          ((F ++ l.map (fun x => { tag := s.tag x.1, valid := true })) ++
            List.replicate (m - l.length) { tag := 0, valid := false }) ∧
        s1.hits = s.hits ∧ s1.compulsory_misses = s.compulsory_misses + l.length ∧
        s1.capacity_misses = s.capacity_misses ∧ s1.conflict_misses = s.conflict_misses ∧
        s1.ways = s.ways ∧ s1.num_sets = s.num_sets ∧ s1.index_bits = s.index_bits ∧
        s1.offset_bits = s.offset_bits := by
  induction l with
  | nil =>
    intro s F m h hset _ _ _ _ _
    exact ⟨s, rfl, h, by simpa using hset, rfl, rfl, rfl, rfl, rfl, rfl, rfl, rfl⟩
  | cons y rest ih =>
    intro s F m h hset hF hm hidx hnd hnew
    obtain ⟨a, r⟩ := y
    simp only [List.length_cons] at hm
    obtain ⟨m1, rfl⟩ : ∃ m1, m = m1 + 1 := ⟨m - 1, by omega⟩
    have hia : s.index a = idx := hidx (a, r) (List.mem_cons_self _ _)
    have hilt : idx < s.cache.length := (List.getElem?_eq_some.mp hset).1
    have hslen : (F ++ List.replicate (m1 + 1) ({ tag := 0, valid := false } : CacheLine)).length
        = s.ways := h.2.1 _ (List.getElem?_mem hset)
    have hmiss : ∀ line ∈ F ++ List.replicate (m1 + 1) ({ tag := 0, valid := false } : CacheLine),
        ¬ (line.valid = true ∧ line.tag = s.tag a) := by
      intro line hl
      rcases List.mem_append.mp hl with h1 | h1
      · exact fun hc => hnew (a, r) (List.mem_cons_self _ _) line h1 hc.2
      · rw [(List.mem_replicate.mp h1).2]
        simp
    have hk : (F ++ List.replicate (m1 + 1) ({ tag := 0, valid := false } : CacheLine))[F.length]?
        = some { tag := 0, valid := false } := by
      rw [List.getElem?_append_right (Nat.le_refl _)]
      simp
    have hfirst : ∀ j x, j < F.length →
        (F ++ List.replicate (m1 + 1) ({ tag := 0, valid := false } : CacheLine))[j]? = some x →
        x.valid = true := by
      intro j x hj hx
      rw [List.getElem?_append_left hj] at hx
      exact hF x (List.getElem?_mem hx)
    have hacc := SetAssociativeCache.sa_access_compulsory r h.2.2.2.2 (hia ▸ hset) hslen hmiss hk
      rfl hfirst
    rw [hia, set_append_replicate] at hacc
    have hwf2 := @SetAssociativeCache.sa_wf_of_step s
      { s with
        cache := s.cache.set idx
          ((F ++ [{ tag := s.tag a, valid := true }]) ++
            List.replicate m1 { tag := 0, valid := false })
        compulsory_misses := s.compulsory_misses + 1 } h idx _ rfl
      (by rw [← hslen]; simp only [List.length_append, List.length_replicate,
            List.length_singleton]; omega)
      rfl rfl rfl rfl
    simp only [List.map_cons, List.nodup_cons] at hnd
    obtain ⟨s1, hr, hwf1, hc1, hh1, hcm1, hcap1, hcon1, hw1, hn1, hi1, ho1⟩ :=
      ih _ (F ++ [{ tag := s.tag a, valid := true }]) m1 hwf2
        (by show (s.cache.set idx _)[idx]? = _; rw [List.getElem?_set_self hilt])
        (by
          intro x hx
          rcases List.mem_append.mp hx with h1 | h1
          · exact hF x h1
          · rw [List.mem_singleton.mp h1])
        (by omega)
        (fun x hx => hidx x (List.mem_cons_of_mem _ hx))
        hnd.2
        (by
          intro x hx y hy
          rcases List.mem_append.mp hy with h1 | h1
          · exact hnew x (List.mem_cons_of_mem _ hx) y h1
          · rw [List.mem_singleton.mp h1]
            intro heq
            exact hnd.1 (List.mem_map.mpr ⟨x, hx, heq.symm⟩))
    refine ⟨s1, (SetAssociativeCache.sa_run_cons hacc rest).trans hr, hwf1, ?_, hh1, ?_, hcap1,
      hcon1, hw1, hn1, hi1, ho1⟩
    · rw [hc1]
      simp only [List.map_cons, List.length_cons, List.append_assoc, List.singleton_append,
        Nat.add_sub_add_right]
      rfl
    · rw [hcm1, List.length_cons]
      show s.compulsory_misses + 1 + rest.length = _
      omega

theorem SetAssociativeCache.sa_index_congr {s s1 : SetAssociativeCache}
    (ho : s1.offset_bits = s.offset_bits) (hn : s1.num_sets = s.num_sets)
    (address : Nat) : s1.index address = s.index address := by
  simp only [SetAssociativeCache.index, ho, hn]

theorem SetAssociativeCache.sa_tag_congr {s s1 : SetAssociativeCache}
    (ho : s1.offset_bits = s.offset_bits) (hi : s1.index_bits = s.index_bits)
    (address : Nat) : s1.tag address = s.tag address := by
  simp only [SetAssociativeCache.tag, ho, hi]

/-- C8: set-associative cache with `W` ways under a valid configuration.  From
a fresh cache, `W` accesses `l` that map to one set and have pairwise distinct
tags are all compulsory misses and fill ways `0, ..., W - 1` of that set in
order.  A further access `e` to that set with a new tag is, for every value
`r` of `rand()`, a conflict miss; it overwrites way `r % W` (which is below
`W`) with the new tag and leaves every other way, and every other set, as it
was, so all `W` ways stay valid. -/
theorem C8_set_fills_then_conflicts (size_kb blk_size num_ways : Nat)
    (hv : ValidWays size_kb blk_size num_ways) :
    ∃ s0, SetAssociativeCache.new size_kb blk_size num_ways = some s0 ∧ s0.ways = num_ways ∧
      ∀ (l : List (Nat × Nat)) (e r : Nat), l.length = num_ways →
        (∀ x ∈ l, s0.index x.1 = s0.index e) →
        (l.map (fun x => s0.tag x.1)).Nodup →
        s0.tag e ∉ l.map (fun x => s0.tag x.1) →
        ∃ s s1, s0.run l = some s ∧
          s.hits = 0 ∧ s.compulsory_misses = num_ways ∧ s.capacity_misses = 0 ∧
          s.conflict_misses = 0 ∧
          s.cache[s0.index e]? = some (l.map (fun x => { tag := s0.tag x.1, valid := true })) ∧
          s.access e r = some (false, s1) ∧
          Classified Outcome.conflict s.toCacheSimulator s1.toCacheSimulator ∧
          r % num_ways < num_ways ∧
          s1.cache = s.cache.set (s0.index e)
            ((l.map (fun x => { tag := s0.tag x.1, valid := true })).set (r % num_ways)
              { tag := s0.tag e, valid := true }) := by
  obtain ⟨s0, hnew, hwf, h1, h2, h3, h4, hways, hcache⟩ := SetAssociativeCache.sa_fresh hv
  refine ⟨s0, hnew, hways, ?_⟩
  intro l e r hlen hidx hnd he
  have hw : 0 < s0.ways := hwf.2.2.2.1
  have hilt := SetAssociativeCache.sa_index_lt hwf e
  have hset0 : s0.cache[s0.index e]? =
      some ([] ++ List.replicate s0.ways ({ tag := 0, valid := false } : CacheLine)) := by
    have hlt : s0.index e < s0.num_sets := by
      rw [← hwf.1]
      exact hilt
    rw [hcache, List.getElem?_replicate, if_pos hlt]
    rfl
  obtain ⟨s, hrun, hwf1, hc, hh, hcm, hcap, hcon, hw1, hn1, hi1, ho1⟩ :=
    SetAssociativeCache.sa_fill (s0.index e) l s0 [] s0.ways hwf hset0
      (by intro x hx; simp at hx) (by omega) hidx hnd (by intro x _ y hy; simp at hy)
  have hc1 : s.cache[s0.index e]? =
      some (l.map (fun x => ({ tag := s0.tag x.1, valid := true } : CacheLine))) := by
    rw [hc, hlen, hways]
    simp
  have hidx1 : s.index e = s0.index e := SetAssociativeCache.sa_index_congr ho1 hn1 e
  have htag1 : s.tag e = s0.tag e := SetAssociativeCache.sa_tag_congr ho1 hi1 e
  have hacc := SetAssociativeCache.sa_access_conflict r hwf1.2.2.2.2 (hidx1 ▸ hc1)
    (by rw [List.length_map, hlen, hw1, hways]) hwf1.2.2.2.1
    (by
      intro line hl hc2
      obtain ⟨x, hx, rfl⟩ := List.mem_map.mp hl
      apply he
      rw [← htag1, ← hc2.2]
      exact List.mem_map.mpr ⟨x, hx, rfl⟩)
    (by
      intro line hl
      obtain ⟨x, hx, rfl⟩ := List.mem_map.mp hl
      rfl)
  rw [hidx1, htag1, hw1, hways] at hacc
  refine ⟨s, _, hrun, hh.trans h1, by rw [hcm, h2, hlen]; omega, hcap.trans h3, hcon.trans h4,
    hc1, hacc, rfl, Nat.mod_lt _ (hways ▸ hw), rfl⟩

/-- Witness of C8: a 2-way cache with 4 sets of 256-byte blocks (2 KB); the
addresses 0 and 1024 fill set 0, and address 2048 with `rand() = 5` then
overwrites way 1. -/
theorem C8_set_fills_then_conflicts_witness :
    ValidWays 2 256 2 ∧
    ∃ s0 s s1, SetAssociativeCache.new 2 256 2 = some s0 ∧
      s0.run [(0, 0), (1024, 0)] = some s ∧ s.compulsory_misses = 2 ∧
      s.access 2048 5 = some (false, s1) ∧
      Classified Outcome.conflict s.toCacheSimulator s1.toCacheSimulator ∧
      s1.cache = s.cache.set 0 [{ tag := 0, valid := true }, { tag := 2, valid := true }] := by
  have hv : ValidWays 2 256 2 := ⟨⟨by decide, ⟨8, rfl⟩, ⟨3, rfl⟩⟩, ⟨1, rfl⟩, by decide⟩
  obtain ⟨s0, hnew, -, h⟩ := C8_set_fills_then_conflicts 2 256 2 hv
  have e0 : SetAssociativeCache.new 2 256 2 = some
      { hits := 0, compulsory_misses := 0, capacity_misses := 0, conflict_misses := 0,
        cache_size_kb := 2, block_size := 256, offset_bits := 8, num_total_blocks := 8,
        ways := 2, num_sets := 4, index_bits := 2,
        cache := List.replicate 4 [⟨0, false⟩, ⟨0, false⟩] } := by decide
  rw [e0] at hnew
  obtain rfl := Option.some.inj hnew
  obtain ⟨s, s1, h1, -, h2, -, -, -, h3, h4, -, h5⟩ :=
    h [(0, 0), (1024, 0)] 2048 5 (by decide) (by decide) (by decide) (by decide)
  exact ⟨hv, _, s, s1, rfl, h1, h2, h3, h4, h5⟩

/-! ## Dependence on the values of `rand()` -/

theorem FullyAssociativeCache.fa_find_victim_congr (s : FullyAssociativeCache) {r1 r2 : Nat}
    (hr : s.policy = ReplacementPolicy.RANDOM →
      r1 % s.num_total_blocks = r2 % s.num_total_blocks) :
    s.find_victim r1 = s.find_victim r2 := by
  unfold FullyAssociativeCache.find_victim
  cases hp : s.policy with
  | RANDOM => simp only [hr hp]
  | LRU => rfl
  | FIFO => rfl
  | LFU => rfl

theorem FullyAssociativeCache.fa_access_congr {s : FullyAssociativeCache} (h : s.WF)
    (address : Nat) {r1 r2 : Nat}
    (hr : s.policy = ReplacementPolicy.RANDOM →
      r1 % s.num_total_blocks = r2 % s.num_total_blocks) :
    s.access address r1 = s.access address r2 := by
  rcases FullyAssociativeCache.fa_access_cases h address r1 with
    ⟨k, b, hk, hkb, hbt, hfirst, heq⟩ | ⟨hnot, hf, heq⟩ | ⟨hnot, hf, v, hv, hvlt, heq⟩
  · rw [heq, FullyAssociativeCache.fa_access_hit r2 h.2.2.2 hk hkb hbt hfirst]
  · have hmiss : ∀ j x, j < s.filled_blocks → s.cache[j]? = some x → x.tag ≠ s.tag address :=
      fun j x hj hx hxt => hnot ⟨j, x, hj, hx, hxt⟩
    rw [heq, FullyAssociativeCache.fa_access_compulsory r2 h.2.2.2 hf h.1 hmiss]
  · have hmiss : ∀ j x, j < s.filled_blocks → s.cache[j]? = some x → x.tag ≠ s.tag address :=
      fun j x hj hx hxt => hnot ⟨j, x, hj, hx, hxt⟩
    have hv2 : s.find_victim r2 = some v :=
      (FullyAssociativeCache.fa_find_victim_congr s hr).symm.trans hv
    rw [heq, FullyAssociativeCache.fa_access_capacity r2 h.2.2.2 hf h.1 hmiss hv2 hvlt]

theorem FullyAssociativeCache.fa_run_congr (l1 : List (Nat × Nat)) :
    ∀ (s : FullyAssociativeCache) (l2 : List (Nat × Nat)), s.WF →
      l1.map Prod.fst = l2.map Prod.fst →
      (s.policy = ReplacementPolicy.RANDOM →
        l1.map (fun x => x.2 % s.num_total_blocks) =
          l2.map (fun x => x.2 % s.num_total_blocks)) →
      ∃ s1, s.run l1 = some s1 ∧ s.run l2 = some s1 := by
  induction l1 with
  | nil =>
    intro s l2 _ ha _
    cases l2 with
    | nil => exact ⟨s, rfl, rfl⟩
    | cons y t => simp at ha
  | cons x t1 ih =>
    intro s l2 h ha hr
    cases l2 with
    | nil => simp at ha
    | cons y t2 =>
      obtain ⟨a, r1⟩ := x
      obtain ⟨a2, r2⟩ := y
      simp only [List.map_cons, List.cons.injEq] at ha hr
      obtain ⟨rfl, ha2⟩ := ha
      obtain ⟨hit, s2, o, hacc, hwf2, hcl, -, -, hp2⟩ :=
        FullyAssociativeCache.fa_access_step h a r1
      have hacc2 : s.access a r2 = some (hit, s2) := by
        rw [← FullyAssociativeCache.fa_access_congr h a (fun hp => (hr hp).1)]
        exact hacc
      have hn2 : s2.num_total_blocks = s.num_total_blocks := by
        cases o <;> simp only [Classified] at hcl <;> rw [hcl]
      obtain ⟨s1, h1, h2⟩ := ih s2 t2 hwf2 ha2 (by
        intro hp
        rw [hn2]
        exact (hr (hp2 ▸ hp)).2)
      exact ⟨s1, (FullyAssociativeCache.fa_run_cons hacc t1).trans h1,
        (FullyAssociativeCache.fa_run_cons hacc2 t2).trans h2⟩

theorem SetAssociativeCache.sa_access_congr {s : SetAssociativeCache} (h : s.WF)
    (address : Nat) {r1 r2 : Nat} (hr : r1 % s.ways = r2 % s.ways) :
    s.access address r1 = s.access address r2 := by
  obtain ⟨set, hl, hlen⟩ := SetAssociativeCache.sa_exists_set h address
  have hb := h.2.2.2.2
  have hw := h.2.2.2.1
  by_cases hh : ∃ (k : Nat) (line : CacheLine),
      set[k]? = some line ∧ line.valid = true ∧ line.tag = s.tag address
  · obtain ⟨k, line, hk, hv, ht⟩ := hh
    rw [SetAssociativeCache.sa_access_hit r1 hb hl hlen hk hv ht,
      SetAssociativeCache.sa_access_hit r2 hb hl hlen hk hv ht]
  · have hmiss : ∀ line ∈ set, ¬ (line.valid = true ∧ line.tag = s.tag address) := by
      intro line hm hc
      obtain ⟨k, hk⟩ := List.mem_iff_getElem?.mp hm
      exact hh ⟨k, line, hk, hc⟩
    obtain ⟨k, y, -, -, hk2, hk3, hk4, hk5⟩ | ⟨-, h2⟩ :=
      scan_first_spec set (fun l => !l.valid) s.ways 0 (by omega)
    · have hyv : y.valid = false := by simpa using hk4
      have hfirst : ∀ j x, j < k → set[j]? = some x → x.valid = true := by
        intro j x hj hx
        simpa using hk5 j x (Nat.zero_le _) hj hx
      rw [SetAssociativeCache.sa_access_compulsory r1 hb hl hlen hmiss hk3 hyv hfirst,
        SetAssociativeCache.sa_access_compulsory r2 hb hl hlen hmiss hk3 hyv hfirst]
    · have hfull : ∀ line ∈ set, line.valid = true := by
        intro line hm
        obtain ⟨k, hk⟩ := List.mem_iff_getElem?.mp hm
        have hklt : k < set.length := (List.getElem?_eq_some.mp hk).1
        simpa using h2 k line (Nat.zero_le _) (by omega) hk
      rw [SetAssociativeCache.sa_access_conflict r1 hb hl hlen hw hmiss hfull,
        SetAssociativeCache.sa_access_conflict r2 hb hl hlen hw hmiss hfull, hr]

theorem SetAssociativeCache.sa_run_congr (l1 : List (Nat × Nat)) :
    ∀ (s : SetAssociativeCache) (l2 : List (Nat × Nat)), s.WF →
      l1.map Prod.fst = l2.map Prod.fst →
      l1.map (fun x => x.2 % s.ways) = l2.map (fun x => x.2 % s.ways) →
      ∃ s1, s.run l1 = some s1 ∧ s.run l2 = some s1 := by
  induction l1 with
  | nil =>
    intro s l2 _ ha _
    cases l2 with
    | nil => exact ⟨s, rfl, rfl⟩
    | cons y t => simp at ha
  | cons x t1 ih =>
    intro s l2 h ha hr
    cases l2 with
    | nil => simp at ha
    | cons y t2 =>
      obtain ⟨a, r1⟩ := x
      obtain ⟨a2, r2⟩ := y
      simp only [List.map_cons, List.cons.injEq] at ha hr
      obtain ⟨rfl, ha2⟩ := ha
      obtain ⟨hit, s2, o, hacc, hwf2, -, -, -, hw2, -⟩ :=
        SetAssociativeCache.sa_access_step h a r1
      have hacc2 : s.access a r2 = some (hit, s2) := by
        rw [← SetAssociativeCache.sa_access_congr h a hr.1]
        exact hacc
      obtain ⟨s1, h1, h2⟩ := ih s2 t2 hwf2 ha2 (by rw [hw2]; exact hr.2)
      exact ⟨s1, (SetAssociativeCache.sa_run_cons hacc t1).trans h1,
        (SetAssociativeCache.sa_run_cons hacc2 t2).trans h2⟩

/-- C9, counterexample: a 2-way set-associative cache with one set (1 KB,
512-byte blocks) is run twice on the addresses 0, 512, 1024, 0.  With
`rand() = 0` at the third access the block of address 0 is evicted and the
run ends with no hit; with `rand() = 1` the block of address 512 is evicted
and the run ends with one hit. -/
theorem C9_statistics_depend_on_draws_counterexample :
    ∃ s0 s1 s2, SetAssociativeCache.new 1 512 2 = some s0 ∧
      s0.run [(0, 0), (512, 0), (1024, 0), (0, 0)] = some s1 ∧
      s0.run [(0, 0), (512, 0), (1024, 1), (0, 0)] = some s2 ∧
      [(0, 0), (512, 0), (1024, 0), (0, 0)].map Prod.fst =
        [(0, 0), (512, 0), (1024, 1), (0, 0)].map Prod.fst ∧
      s1.hits = 0 ∧ s1.conflict_misses = 2 ∧ s2.hits = 1 ∧ s2.conflict_misses = 1 := by
  refine ⟨_, _, _, rfl, rfl, rfl, ?_, ?_, ?_, ?_, ?_⟩ <;> decide

/-- C11, counterexample: a direct-mapped cache of 3 KB (not a power of two)
with 32-byte blocks is constructed: it has 96 blocks and `index_bits = 6`,
the rounded-down logarithm; a set-associative cache of 1 KB with 256-byte
blocks and 3 ways (not a power of two, not a divisor of the 4 blocks) is
constructed with one set. -/
theorem C11_unvalidated_construction_counterexample :
    (∃ s, DirectMappedCache.new 3 32 = some s ∧ s.num_total_blocks = 96 ∧ s.index_bits = 6 ∧
      2 ^ s.index_bits ≠ s.num_total_blocks) ∧
    (∃ s, SetAssociativeCache.new 1 256 3 = some s ∧ s.num_total_blocks = 4 ∧ s.ways = 3 ∧
      s.num_sets = 1 ∧ s.num_sets * s.ways ≠ s.num_total_blocks) := by
  constructor
  · refine ⟨_, rfl, ?_, ?_, ?_⟩ <;> decide
  · refine ⟨_, rfl, ?_, ?_, ?_, ?_⟩ <;> decide

theorem FullyAssociativeCache.fa_fifo_effect {s : FullyAssociativeCache} (h : s.WF)
    (hp : s.policy = ReplacementPolicy.FIFO ∨ s.policy = ReplacementPolicy.RANDOM)
    (address r : Nat) :
    ∃ hit s1, s.access address r = some (hit, s1) ∧
      ((hit = true ∧ Classified Outcome.hit s.toCacheSimulator s1.toCacheSimulator ∧
          s1.cache = s.cache) ∨
        (hit = false ∧ Classified Outcome.compulsory s.toCacheSimulator s1.toCacheSimulator ∧
          s.filled_blocks < s.num_total_blocks ∧
          s1.cache = s.cache.set s.filled_blocks
            { tag := s.tag address, valid := true, lru_counter := s1.current_time,
              lfu_counter := 1 }) ∨
        (hit = false ∧ Classified Outcome.capacity s.toCacheSimulator s1.toCacheSimulator ∧
          s.filled_blocks = s.num_total_blocks ∧
          ∃ v, s.find_victim r = some v ∧ v < s.num_total_blocks ∧
            s1.cache = s.cache.set v
              { tag := s.tag address, valid := true, lru_counter := s1.current_time,
                lfu_counter := 1 })) := by
  rcases FullyAssociativeCache.fa_access_cases h address r with
    ⟨k, b, hk, hkb, hbt, -, heq⟩ | ⟨hnot, hf, heq⟩ | ⟨hnot, hf, v, hv, hvlt, heq⟩
  · refine ⟨true, _, heq, Or.inl ⟨rfl, rfl, ?_⟩⟩
    have htouch : FullyAssociativeCache.touch s.policy (wrap_int (s.current_time + 1)) b = b := by
      rcases hp with hp | hp <;> rw [hp] <;> rfl
    show s.cache.set k _ = s.cache
    rw [htouch, set_eq_self_of_getElem? hkb]
  · exact ⟨false, _, heq, Or.inr (Or.inl ⟨rfl, rfl, hf, rfl⟩)⟩
  · exact ⟨false, _, heq, Or.inr (Or.inr ⟨rfl, rfl, hf, v, hv, hvlt, rfl⟩)⟩

/-- C12, counterexample: in a 2-block FIFO cache (1 KB, 512-byte blocks) the
accesses 0 and 512 fill the blocks with timestamps 1 and 2; the access to
1024 is a capacity miss that replaces block 0 and rewrites its timestamp
to 3. -/
theorem C12_fifo_replacement_restamps_counterexample :
    ∃ s0 s s1, FullyAssociativeCache.new 1 512 ReplacementPolicy.FIFO = some s0 ∧
      s0.run [(0, 0), (512, 0)] = some s ∧ s.access 1024 0 = some (false, s1) ∧
      Classified Outcome.capacity s.toCacheSimulator s1.toCacheSimulator ∧
      s.cache.map CacheBlock.lru_counter = [1, 2] ∧
      s1.cache.map CacheBlock.lru_counter = [3, 2] := by
  refine ⟨_, _, _, rfl, rfl, rfl, ?_, ?_, ?_⟩ <;> decide

/-- C12, amended: in a fully-associative FIFO cache, in every state reached
from a fresh cache and for every address, an access that hits changes no
block at all, so no timestamp; an access that misses writes exactly one
block, the next unfilled one on a compulsory miss and the victim chosen by
`find_victim` on a capacity miss (a replacement), and stamps that block with
the current clock value, leaving every other block as it was. -/
theorem C12_fifo_timestamp_written_on_placement (size_kb blk_size : Nat)
    (hv : ValidBlocks size_kb blk_size) (pre : List (Nat × Nat)) (address r : Nat) :
    ∃ s0 s hit s1, FullyAssociativeCache.new size_kb blk_size ReplacementPolicy.FIFO = some s0 ∧
      s0.run pre = some s ∧ s.access address r = some (hit, s1) ∧
      ((hit = true ∧ Classified Outcome.hit s.toCacheSimulator s1.toCacheSimulator ∧
          s1.cache = s.cache) ∨
        (hit = false ∧ Classified Outcome.compulsory s.toCacheSimulator s1.toCacheSimulator ∧
          s.filled_blocks < s.num_total_blocks ∧
          s1.cache = s.cache.set s.filled_blocks
            { tag := s.tag address, valid := true, lru_counter := s1.current_time,
              lfu_counter := 1 }) ∨
        (hit = false ∧ Classified Outcome.capacity s.toCacheSimulator s1.toCacheSimulator ∧
          s.filled_blocks = s.num_total_blocks ∧
          ∃ v, s.find_victim r = some v ∧ v < s.num_total_blocks ∧
            s1.cache = s.cache.set v
              { tag := s.tag address, valid := true, lru_counter := s1.current_time,
                lfu_counter := 1 })) := by
  obtain ⟨s0, hnew, hwf, -, -, -, -, hpol, -⟩ :=
    FullyAssociativeCache.fa_fresh ReplacementPolicy.FIFO hv
  obtain ⟨s, hrun, hwf1, -, -, hp1, -⟩ := FullyAssociativeCache.fa_run_total hwf pre
  obtain ⟨hit, s1, hacc, heff⟩ :=
    FullyAssociativeCache.fa_fifo_effect hwf1 (Or.inl (hp1.trans hpol)) address r
  exact ⟨s0, s, hit, s1, hnew, hrun, hacc, heff⟩

/-- Witness of C12 (amended): a 2-block FIFO cache (1 KB, 512-byte blocks)
after the accesses 0 and 512, accessed at 1024. -/
theorem C12_fifo_timestamp_written_on_placement_witness :
    ValidBlocks 1 512 ∧
    ∃ s0 s hit s1, FullyAssociativeCache.new 1 512 ReplacementPolicy.FIFO = some s0 ∧
      s0.run [(0, 0), (512, 0)] = some s ∧ s.access 1024 0 = some (hit, s1) ∧
      (hit = true → s1.cache = s.cache) := by
  have hv : ValidBlocks 1 512 := ⟨by decide, ⟨9, rfl⟩, by decide⟩
  obtain ⟨s0, s, hit, s1, h1, h2, h3, h4⟩ :=
    C12_fifo_timestamp_written_on_placement 1 512 hv [(0, 0), (512, 0)] 1024 0
  refine ⟨hv, s0, s, hit, s1, h1, h2, h3, fun hh => ?_⟩
  rcases h4 with ⟨-, -, hc⟩ | ⟨hf, -⟩ | ⟨hf, -⟩
  · exact hc
  · rw [hh] at hf
    cases hf
  · rw [hh] at hf
    cases hf

theorem FullyAssociativeCache.fa_find_victim_min {s : FullyAssociativeCache}
    (hlen : s.cache.length = s.num_total_blocks) (hN : 0 < s.num_total_blocks) (r : Nat)
    (key : CacheBlock → Int)
    (hfv : ∀ b0, s.cache[0]? = some b0 → s.find_victim r =
      FullyAssociativeCache.min_loop key s.cache 1 (s.num_total_blocks - 1) (key b0) 0) :
    ∃ v b, s.find_victim r = some v ∧ v < s.num_total_blocks ∧ s.cache[v]? = some b ∧
      (∀ (j : Nat) (bj : CacheBlock), s.cache[j]? = some bj → key b ≤ key bj) ∧
      (∀ (k : Nat) (bk : CacheBlock), k < v → s.cache[k]? = some bk → key b < key bk) := by
  obtain ⟨b0, h0⟩ : ∃ b0, s.cache[0]? = some b0 :=
    ⟨_, List.getElem?_eq_getElem (show 0 < s.cache.length by omega)⟩
  obtain ⟨w, bw, hw, hwlt, hwb, hmin, hfirst⟩ :=
    FullyAssociativeCache.fa_min_scan_spec key s.cache b0 h0
  refine ⟨w, bw, ?_, hlen ▸ hwlt, hwb, hmin, hfirst⟩
  rw [hfv b0 h0, ← hlen]
  exact hw

/-- C13: `find_victim` on a cache of `N ≥ 1` blocks.  For LRU and FIFO it
returns the smallest block index whose `lru_counter` is minimal over all
blocks; for LFU the smallest block index whose `lfu_counter` is minimal over
all blocks; for RANDOM `rand() % N`, which is below `N`. -/
theorem C13_find_victim_first_minimum (s : FullyAssociativeCache) (r : Nat)
    (hlen : s.cache.length = s.num_total_blocks) (hN : 0 < s.num_total_blocks) :
    (s.policy = ReplacementPolicy.LRU ∨ s.policy = ReplacementPolicy.FIFO →
      ∃ v b, s.find_victim r = some v ∧ v < s.num_total_blocks ∧ s.cache[v]? = some b ∧
        (∀ (j : Nat) (bj : CacheBlock), s.cache[j]? = some bj →
          b.lru_counter ≤ bj.lru_counter) ∧
        (∀ (k : Nat) (bk : CacheBlock), k < v → s.cache[k]? = some bk →
          b.lru_counter < bk.lru_counter)) ∧
    (s.policy = ReplacementPolicy.LFU →
      ∃ v b, s.find_victim r = some v ∧ v < s.num_total_blocks ∧ s.cache[v]? = some b ∧
        (∀ (j : Nat) (bj : CacheBlock), s.cache[j]? = some bj →
          b.lfu_counter ≤ bj.lfu_counter) ∧
        (∀ (k : Nat) (bk : CacheBlock), k < v → s.cache[k]? = some bk →
          b.lfu_counter < bk.lfu_counter)) ∧
    (s.policy = ReplacementPolicy.RANDOM →
      s.find_victim r = some (r % s.num_total_blocks) ∧
        r % s.num_total_blocks < s.num_total_blocks) := by
  refine ⟨fun hp => ?_, fun hp => ?_, fun hp => ?_⟩
  · exact FullyAssociativeCache.fa_find_victim_min hlen hN r CacheBlock.lru_counter
      (fun b0 h0 => FullyAssociativeCache.fa_find_victim_lru r hp h0)
  · exact FullyAssociativeCache.fa_find_victim_min hlen hN r CacheBlock.lfu_counter
      (fun b0 h0 => FullyAssociativeCache.fa_find_victim_lfu r hp h0)
  · exact ⟨FullyAssociativeCache.fa_find_victim_random r hp hN, Nat.mod_lt _ hN⟩

/-- Witness of C13: a 3-block LFU cache whose frequency counters are 4, 2, 2:
the victim is the first block of minimal frequency. -/
theorem C13_find_victim_first_minimum_witness :
    ∃ v b, FullyAssociativeCache.find_victim
      { hits := 0, compulsory_misses := 3, capacity_misses := 0, conflict_misses := 0,
        cache_size_kb := 3, block_size := 1024, offset_bits := 10, num_total_blocks := 3,
        cache := [⟨7, true, 1, 4⟩, ⟨8, true, 2, 2⟩, ⟨9, true, 3, 2⟩],
        policy := ReplacementPolicy.LFU, current_time := 8, filled_blocks := 3 } 0 = some v ∧
      v < 3 ∧
      ([⟨7, true, 1, 4⟩, ⟨8, true, 2, 2⟩, ⟨9, true, 3, 2⟩] : List CacheBlock)[v]? = some b ∧
      (∀ (j : Nat) (bj : CacheBlock),
        ([⟨7, true, 1, 4⟩, ⟨8, true, 2, 2⟩, ⟨9, true, 3, 2⟩] : List CacheBlock)[j]? = some bj →
          b.lfu_counter ≤ bj.lfu_counter) ∧
      (∀ (k : Nat) (bk : CacheBlock), k < v →
        ([⟨7, true, 1, 4⟩, ⟨8, true, 2, 2⟩, ⟨9, true, 3, 2⟩] : List CacheBlock)[k]? = some bk →
          b.lfu_counter < bk.lfu_counter) :=
  (C13_find_victim_first_minimum
    { hits := 0, compulsory_misses := 3, capacity_misses := 0, conflict_misses := 0,
      cache_size_kb := 3, block_size := 1024, offset_bits := 10, num_total_blocks := 3,
      cache := [⟨7, true, 1, 4⟩, ⟨8, true, 2, 2⟩, ⟨9, true, 3, 2⟩],
      policy := ReplacementPolicy.LFU, current_time := 8, filled_blocks := 3 } 0
    (by decide) (by decide)).2.1 rfl

/-! ## Accesses that stay in bounds without powers of two -/

theorem mask_and_lt {n : Nat} (x : Nat) (h0 : 0 < n) (h1 : n < UINT_RANGE) :
    x &&& ((n + UINT_RANGE - 1) % UINT_RANGE) < n := by
  have hm : (n + UINT_RANGE - 1) % UINT_RANGE = n - 1 := by
    simp only [UINT_RANGE] at h1 ⊢
    omega
  rw [hm]
  exact lt_of_le_of_lt Nat.and_le_right (by omega)

theorem log2_floor_aux_le : ∀ (fuel x : Nat), 0 < x → 2 ^ log2_floor_aux fuel x ≤ x
  | 0, x, h => by
    simp only [log2_floor_aux, pow_zero]
    omega
  | fuel + 1, x, h => by
    simp only [log2_floor_aux]
    split
    · have ih := log2_floor_aux_le fuel (x / 2) (by omega)
      rw [pow_succ]
      omega
    · simp only [pow_zero]
      omega

theorem log2_floor_fit {cap blk n : Nat} (hb : 0 < blk) (hn : 0 < n) (hle : n ≤ cap / blk)
    (hcap : cap < INT_LIMIT) : log2_floor blk + log2_floor n < 31 := by
  apply two_pow_lt_int_limit
  have h1 : 2 ^ log2_floor blk ≤ blk := log2_floor_aux_le 32 blk hb
  have h2 : 2 ^ log2_floor n ≤ n := log2_floor_aux_le 32 n hn
  have h3 : blk * n ≤ cap :=
    (Nat.mul_le_mul_left blk hle).trans (Nat.mul_div_le cap blk)
  rw [pow_add]
  exact lt_of_le_of_lt ((Nat.mul_le_mul h1 h2).trans h3) hcap

theorem CacheSimulator.base_new_some {size_kb blk_size : Nat} {b : CacheSimulator}
    (h : CacheSimulator.new size_kb blk_size = some b) :
    0 < blk_size ∧ size_kb * 1024 < INT_LIMIT ∧
      b = { hits := 0, compulsory_misses := 0, capacity_misses := 0, conflict_misses := 0,
            cache_size_kb := size_kb, block_size := blk_size,
            offset_bits := log2_floor blk_size,
            num_total_blocks := size_kb * 1024 / blk_size } := by
  unfold CacheSimulator.new at h
  split at h
  · cases h
  · rename_i hg
    cases h
    exact ⟨by omega, by omega, rfl⟩

theorem DirectMappedCache.dm_in_bounds_new {size_kb blk_size : Nat} {s0 : DirectMappedCache}
    (h : DirectMappedCache.new size_kb blk_size = some s0) :
    s0.InBounds ∧ s0.capacity_misses = 0 ∧
      s0.num_total_blocks = size_kb * 1024 / blk_size := by
  unfold DirectMappedCache.new at h
  cases hb : CacheSimulator.new size_kb blk_size with
  | none => simp [hb] at h
  | some base =>
    obtain ⟨h1, h2, rfl⟩ := CacheSimulator.base_new_some hb
    simp only [hb] at h
    split at h
    · cases h
    · rename_i hz
      cases h
      have hn : 0 < size_kb * 1024 / blk_size := Nat.pos_of_ne_zero hz
      have hlt : size_kb * 1024 / blk_size < INT_LIMIT :=
        lt_of_le_of_lt (Nat.div_le_self _ _) h2
      refine ⟨⟨?_, hn, ?_, ?_⟩, rfl, rfl⟩
      · simp
      · simp only [INT_LIMIT, UINT_RANGE] at hlt ⊢
        omega
      · exact (log2_floor_fit h1 hn le_rfl h2).trans (by decide)

theorem SetAssociativeCache.sa_in_bounds_new {size_kb blk_size num_ways : Nat}
    {s0 : SetAssociativeCache}
    (h : SetAssociativeCache.new size_kb blk_size num_ways = some s0) :
    s0.InBounds ∧ s0.capacity_misses = 0 ∧ s0.ways = num_ways ∧
      s0.num_sets = size_kb * 1024 / blk_size / num_ways := by
  unfold SetAssociativeCache.new at h
  cases hb : CacheSimulator.new size_kb blk_size with
  | none => simp [hb] at h
  | some base =>
    obtain ⟨h1, h2, rfl⟩ := CacheSimulator.base_new_some hb
    simp only [hb] at h
    split at h
    · cases h
    · rename_i hw
      split at h
      · cases h
      · rename_i hz
        cases h
        have hn : 0 < size_kb * 1024 / blk_size / num_ways := Nat.pos_of_ne_zero hz
        have hle : size_kb * 1024 / blk_size / num_ways ≤ size_kb * 1024 / blk_size :=
          Nat.div_le_self _ _
        have hlt : size_kb * 1024 / blk_size / num_ways < INT_LIMIT :=
          lt_of_le_of_lt (hle.trans (Nat.div_le_self _ _)) h2
        refine ⟨⟨?_, ?_, hn, ?_, Nat.pos_of_ne_zero (fun h0 => hw (Or.inl h0)), ?_⟩, rfl, rfl, rfl⟩
        · simp
        · intro x hx
          rw [(List.mem_replicate.mp hx).2]
          simp
        · simp only [INT_LIMIT, UINT_RANGE] at hlt ⊢
          omega
        · exact (log2_floor_fit h1 hn hle h2).trans (by decide)

theorem DirectMappedCache.dm_in_bounds_index {s : DirectMappedCache} (h : s.InBounds)
    (address : Nat) : s.index address < s.num_total_blocks :=
  mask_and_lt _ h.2.1 h.2.2.1

theorem SetAssociativeCache.sa_in_bounds_index {s : SetAssociativeCache} (h : s.InBounds)
    (address : Nat) : s.index address < s.num_sets :=
  mask_and_lt _ h.2.2.1 h.2.2.2.1

theorem DirectMappedCache.dm_in_bounds_step {s : DirectMappedCache} (h : s.InBounds)
    (address : Nat) :
    ∃ hit s1 o, s.access address = some (hit, s1) ∧ s1.InBounds ∧
      Classified o s.toCacheSimulator s1.toCacheSimulator ∧ (hit = true ↔ o = Outcome.hit) ∧
      o ≠ Outcome.capacity ∧
      s1.cache = s.cache.set (s.index address) { tag := s.tag address, valid := true } ∧
      s1.index_bits = s.index_bits := by
  have hlt : s.index address < s.cache.length :=
    h.1.symm ▸ DirectMappedCache.dm_in_bounds_index h address
  obtain ⟨line, hl⟩ : ∃ line, s.cache[s.index address]? = some line :=
    ⟨_, List.getElem?_eq_getElem hlt⟩
  have hb := h.2.2.2
  have hkeep : ∀ (s1 : DirectMappedCache) (line1 : CacheLine),
      s1.cache = s.cache.set (s.index address) line1 → s1.index_bits = s.index_bits →
      s1.offset_bits = s.offset_bits → s1.num_total_blocks = s.num_total_blocks →
      s1.InBounds := by
    intro s1 line1 hc hi ho hn
    unfold DirectMappedCache.InBounds at *
    rw [hc, hi, ho, hn, List.length_set]
    exact h
  cases hv : line.valid with
  | false =>
    exact ⟨false, _, Outcome.compulsory, DirectMappedCache.dm_access_compulsory hb hl hv,
      hkeep _ _ rfl rfl rfl rfl, rfl, by simp, by simp, rfl, rfl⟩
  | true =>
    by_cases ht : line.tag = s.tag address
    · refine ⟨true, _, Outcome.hit, DirectMappedCache.dm_access_hit hb hl hv ht, h, rfl,
        by simp, by simp, ?_, rfl⟩
      have hline : line = { tag := s.tag address, valid := true } := by
        cases line
        simp_all
      exact (set_eq_self_of_getElem? (hline ▸ hl)).symm
    · exact ⟨false, _, Outcome.conflict, DirectMappedCache.dm_access_conflict hb hl hv ht,
        hkeep _ _ rfl rfl rfl rfl, rfl, by simp, by simp, rfl, rfl⟩

theorem SetAssociativeCache.sa_in_bounds_keep {s s1 : SetAssociativeCache} (h : s.InBounds)
    {i : Nat} {set1 : List CacheLine} (hc : s1.cache = s.cache.set i set1)
    (hlen : set1.length = s.ways) (hw : s1.ways = s.ways) (hn : s1.num_sets = s.num_sets)
    (hi : s1.index_bits = s.index_bits) (ho : s1.offset_bits = s.offset_bits) :
    s1.InBounds := by
  unfold SetAssociativeCache.InBounds at *
  rw [hc, hw, hn, hi, ho, List.length_set]
  refine ⟨h.1, ?_, h.2.2⟩
  intro x hx
  rcases List.mem_or_eq_of_mem_set hx with h1 | h1
  · exact h.2.1 x h1
  · rw [h1]
    exact hlen

theorem SetAssociativeCache.sa_in_bounds_step {s : SetAssociativeCache} (h : s.InBounds)
    (address r : Nat) :
    ∃ hit s1 o, s.access address r = some (hit, s1) ∧ s1.InBounds ∧
      Classified o s.toCacheSimulator s1.toCacheSimulator ∧ (hit = true ↔ o = Outcome.hit) ∧
      o ≠ Outcome.capacity ∧
      s1.ways = s.ways ∧ s1.num_sets = s.num_sets ∧ s1.index_bits = s.index_bits ∧
      ∃ (set1 : List CacheLine) (k : Nat) (line : CacheLine),
        s1.cache[s.index address]? = some set1 ∧ set1[k]? = some line ∧
        line.valid = true ∧ line.tag = s.tag address := by
  have hlt : s.index address < s.cache.length :=
    h.1.symm ▸ SetAssociativeCache.sa_in_bounds_index h address
  obtain ⟨set, hl, hlen⟩ : ∃ set, s.cache[s.index address]? = some set ∧ set.length = s.ways :=
    ⟨_, List.getElem?_eq_getElem hlt, h.2.1 _ (List.getElem_mem hlt)⟩
  have hb := h.2.2.2.2.2
  have hw := h.2.2.2.2.1
  by_cases hh : ∃ (k : Nat) (line : CacheLine),
      set[k]? = some line ∧ line.valid = true ∧ line.tag = s.tag address
  · obtain ⟨k, line, hk, hv, ht⟩ := hh
    exact ⟨true, _, Outcome.hit, SetAssociativeCache.sa_access_hit r hb hl hlen hk hv ht, h, rfl,
      by simp, by simp, rfl, rfl, rfl, set, k, line, hl, hk, hv, ht⟩
  · have hmiss : ∀ line ∈ set, ¬ (line.valid = true ∧ line.tag = s.tag address) := by
      intro line hm hc
      obtain ⟨k, hk⟩ := List.mem_iff_getElem?.mp hm
      exact hh ⟨k, line, hk, hc⟩
    obtain ⟨k, y, -, -, hk2, hk3, hk4, hk5⟩ | ⟨-, h2⟩ :=
      scan_first_spec set (fun l => !l.valid) s.ways 0 (by omega)
    · have hyv : y.valid = false := by simpa using hk4
      have hfirst : ∀ j x, j < k → set[j]? = some x → x.valid = true := by
        intro j x hj hx
        simpa using hk5 j x (Nat.zero_le _) hj hx
      have hklt : k < set.length := (List.getElem?_eq_some.mp hk3).1
      exact ⟨false, _, Outcome.compulsory,
        SetAssociativeCache.sa_access_compulsory r hb hl hlen hmiss hk3 hyv hfirst,
        SetAssociativeCache.sa_in_bounds_keep h rfl (by rw [List.length_set, hlen]) rfl rfl rfl
          rfl,
        rfl, by simp, by simp, rfl, rfl, rfl, _, k, _, List.getElem?_set_self hlt,
        List.getElem?_set_self hklt, rfl, rfl⟩
    · have hfull : ∀ line ∈ set, line.valid = true := by
        intro line hm
        obtain ⟨k, hk⟩ := List.mem_iff_getElem?.mp hm
        have hklt : k < set.length := (List.getElem?_eq_some.mp hk).1
        simpa using h2 k line (Nat.zero_le _) (by omega) hk
      have hrlt : r % s.ways < set.length := hlen.symm ▸ Nat.mod_lt _ hw
      exact ⟨false, _, Outcome.conflict,
        SetAssociativeCache.sa_access_conflict r hb hl hlen hw hmiss hfull,
        SetAssociativeCache.sa_in_bounds_keep h rfl (by rw [List.length_set, hlen]) rfl rfl rfl
          rfl,
        rfl, by simp, by simp, rfl, rfl, rfl, _, r % s.ways, _, List.getElem?_set_self hlt,
        List.getElem?_set_self hrlt, rfl, rfl⟩

theorem classified_capacity_same {o : Outcome} {b b1 : CacheSimulator}
    (h : Classified o b b1) (ho : o ≠ Outcome.capacity) :
    b1.capacity_misses = b.capacity_misses ∧ b1.offset_bits = b.offset_bits ∧
      b1.num_total_blocks = b.num_total_blocks := by
  cases o <;> simp only [Classified] at h <;>
    first | (rw [h]; exact ⟨rfl, rfl, rfl⟩) | exact absurd rfl ho

theorem DirectMappedCache.dm_in_bounds_run {s : DirectMappedCache} (h : s.InBounds)
    (l : List Nat) :
    ∃ s1, s.run l = some s1 ∧ s1.InBounds ∧ s1.capacity_misses = s.capacity_misses ∧
      s1.num_total_blocks = s.num_total_blocks := by
  induction l generalizing s with
  | nil => exact ⟨s, rfl, h, rfl, rfl⟩
  | cons a rest ih =>
    obtain ⟨hit, s2, o, hacc, hin, hcl, -, hcap, -⟩ := DirectMappedCache.dm_in_bounds_step h a
    obtain ⟨s1, hr, hin1, hc1, hn1⟩ := ih hin
    have hk := classified_capacity_same hcl hcap
    exact ⟨s1, (DirectMappedCache.dm_run_cons hacc rest).trans hr, hin1, hc1.trans hk.1,
      hn1.trans hk.2.2⟩

theorem SetAssociativeCache.sa_in_bounds_run {s : SetAssociativeCache} (h : s.InBounds)
    (l : List (Nat × Nat)) :
    ∃ s1, s.run l = some s1 ∧ s1.InBounds ∧ s1.capacity_misses = s.capacity_misses ∧
      s1.ways = s.ways ∧ s1.num_sets = s.num_sets := by
  induction l generalizing s with
  | nil => exact ⟨s, rfl, h, rfl, rfl, rfl⟩
  | cons x rest ih =>
    obtain ⟨a, r⟩ := x
    obtain ⟨hit, s2, o, hacc, hin, hcl, -, hcap, hw, hn, -⟩ :=
      SetAssociativeCache.sa_in_bounds_step h a r
    obtain ⟨s1, hr, hin1, hc1, hw1, hn1⟩ := ih hin
    exact ⟨s1, (SetAssociativeCache.sa_run_cons hacc rest).trans hr, hin1,
      hc1.trans (classified_capacity_same hcl hcap).1, hw1.trans hw, hn1.trans hn⟩

theorem valid_blocks_bounds {size_kb blk_size : Nat} (h : ValidBlocks size_kb blk_size) :
    ¬ (blk_size = 0 ∨ INT_LIMIT ≤ blk_size ∨ INT_LIMIT ≤ size_kb * 1024) ∧
      0 < size_kb * 1024 / blk_size ∧ size_kb * 1024 / blk_size < INT_LIMIT := by
  obtain ⟨hr, ⟨a, ha⟩, hle⟩ := h
  have hb1 : 0 < blk_size := ha ▸ Nat.two_pow_pos a
  exact ⟨by omega, Nat.div_pos hle hb1, lt_of_le_of_lt (Nat.div_le_self _ _) hr⟩

theorem DirectMappedCache.dm_new_defined {size_kb blk_size : Nat}
    (h : ValidBlocks size_kb blk_size) :
    ∃ s0, DirectMappedCache.new size_kb blk_size = some s0 := by
  obtain ⟨hg, hn, -⟩ := valid_blocks_bounds h
  simp only [DirectMappedCache.new, CacheSimulator.new, if_neg hg]
  rw [if_neg (Nat.pos_iff_ne_zero.mp hn)]
  exact ⟨_, rfl⟩

theorem SetAssociativeCache.sa_new_defined {size_kb blk_size num_ways : Nat}
    (h : ValidSets size_kb blk_size num_ways) :
    ∃ s0, SetAssociativeCache.new size_kb blk_size num_ways = some s0 := by
  obtain ⟨hv, hw, hd⟩ := h
  obtain ⟨hg, hn, hlt⟩ := valid_blocks_bounds hv
  have hle : num_ways ≤ size_kb * 1024 / blk_size := Nat.le_of_dvd hn hd
  have hw2 : ¬ (num_ways = 0 ∨ INT_LIMIT ≤ num_ways) := by omega
  have hs : size_kb * 1024 / blk_size / num_ways ≠ 0 :=
    Nat.pos_iff_ne_zero.mp (Nat.div_pos hle hw)
  simp only [SetAssociativeCache.new, CacheSimulator.new, if_neg hg]
  rw [if_neg hw2, if_neg hs]
  exact ⟨_, rfl⟩

theorem FullyAssociativeCache.fa_placement_in_bounds {s : FullyAssociativeCache} (h : s.WF)
    (address r : Nat) :
    ∃ hit s1 o, s.access address r = some (hit, s1) ∧
      Classified o s.toCacheSimulator s1.toCacheSimulator ∧ (hit = true ↔ o = Outcome.hit) ∧
      (o = Outcome.compulsory → s.filled_blocks < s.num_total_blocks) ∧
      (o = Outcome.capacity → ∃ v, s.find_victim r = some v ∧ v < s.num_total_blocks) := by
  rcases FullyAssociativeCache.fa_access_cases h address r with
    ⟨k, b, -, -, -, -, hacc⟩ | ⟨-, hf, hacc⟩ | ⟨-, hf, v, hv, hvlt, hacc⟩
  · exact ⟨true, _, Outcome.hit, hacc, rfl, by simp, by simp, by simp⟩
  · exact ⟨false, _, Outcome.compulsory, hacc, rfl, by simp, fun _ => hf, by simp⟩
  · exact ⟨false, _, Outcome.capacity, hacc, rfl, by simp, by simp, fun _ => ⟨v, hv, hvlt⟩⟩

/-- C16: the per-access path never subscripts out of bounds.  When the
capacity in bytes is an `int`, the block size is a power of two and there is
at least one block (for the set-associative cache: the way count is at least
1 and divides the block count), the constructor yields a cache, every
sequence of accesses runs from it to a state, and in that state, for every
address and every value of `rand()`: the direct-mapped slot index is below
`num_total_blocks`, the length of the vector; the set index is below
`num_sets`, every set has `ways` lines and the random victim way is below
`ways`; `filled_blocks` is at most `num_total_blocks`, a compulsory miss
places at `filled_blocks < num_total_blocks` and a capacity miss at
`find_victim() < num_total_blocks`; and the access returns, classified by
exactly one counter. -/
theorem C16_access_in_bounds (size_kb blk_size num_ways : Nat) (p : ReplacementPolicy) :
    (ValidBlocks size_kb blk_size →
      ∃ s0, DirectMappedCache.new size_kb blk_size = some s0 ∧ ∀ (pre : List Nat),
        ∃ s, s0.run pre = some s ∧ s.cache.length = s.num_total_blocks ∧
          ∀ (address : Nat), s.index address < s.num_total_blocks ∧
            ∃ hit s1 o, s.access address = some (hit, s1) ∧
              Classified o s.toCacheSimulator s1.toCacheSimulator) ∧
    (ValidSets size_kb blk_size num_ways →
      ∃ s0, SetAssociativeCache.new size_kb blk_size num_ways = some s0 ∧
        ∀ (pre : List (Nat × Nat)),
        ∃ s, s0.run pre = some s ∧ s.cache.length = s.num_sets ∧
          (∀ set ∈ s.cache, set.length = s.ways) ∧
          ∀ (address r : Nat), s.index address < s.num_sets ∧ r % s.ways < s.ways ∧
            ∃ hit s1 o, s.access address r = some (hit, s1) ∧
              Classified o s.toCacheSimulator s1.toCacheSimulator) ∧
    (ValidBlocks size_kb blk_size →
      ∃ s0, FullyAssociativeCache.new size_kb blk_size p = some s0 ∧
        ∀ (pre : List (Nat × Nat)),
        ∃ s, s0.run pre = some s ∧ s.cache.length = s.num_total_blocks ∧
          s.filled_blocks ≤ s.num_total_blocks ∧
          ∀ (address r : Nat), ∃ hit s1 o, s.access address r = some (hit, s1) ∧
            Classified o s.toCacheSimulator s1.toCacheSimulator ∧
            (hit = true ↔ o = Outcome.hit) ∧
            (o = Outcome.compulsory → s.filled_blocks < s.num_total_blocks) ∧
            (o = Outcome.capacity →
              ∃ v, s.find_victim r = some v ∧ v < s.num_total_blocks)) := by
  refine ⟨fun hv => ?_, fun hv => ?_, fun hv => ?_⟩
  · obtain ⟨s0, hnew⟩ := DirectMappedCache.dm_new_defined hv
    refine ⟨s0, hnew, fun pre => ?_⟩
    obtain ⟨s, hr, hs, -⟩ :=
      DirectMappedCache.dm_in_bounds_run (DirectMappedCache.dm_in_bounds_new hnew).1 pre
    refine ⟨s, hr, hs.1, fun address => ⟨DirectMappedCache.dm_in_bounds_index hs address, ?_⟩⟩
    obtain ⟨hit, s1, o, hacc, -, hcl, -⟩ := DirectMappedCache.dm_in_bounds_step hs address
    exact ⟨hit, s1, o, hacc, hcl⟩
  · obtain ⟨s0, hnew⟩ := SetAssociativeCache.sa_new_defined hv
    refine ⟨s0, hnew, fun pre => ?_⟩
    obtain ⟨s, hr, hs, -⟩ :=
      SetAssociativeCache.sa_in_bounds_run (SetAssociativeCache.sa_in_bounds_new hnew).1 pre
    refine ⟨s, hr, hs.1, hs.2.1, fun address r =>
      ⟨SetAssociativeCache.sa_in_bounds_index hs address, Nat.mod_lt _ hs.2.2.2.2.1, ?_⟩⟩
    obtain ⟨hit, s1, o, hacc, -, hcl, -⟩ := SetAssociativeCache.sa_in_bounds_step hs address r
    exact ⟨hit, s1, o, hacc, hcl⟩
  · obtain ⟨s0, hnew, hwf, -⟩ := FullyAssociativeCache.fa_fresh p hv
    refine ⟨s0, hnew, fun pre => ?_⟩
    obtain ⟨s, hr, hs, -⟩ := FullyAssociativeCache.fa_run_total hwf pre
    exact ⟨s, hr, hs.1, hs.2.1,
      fun address r => FullyAssociativeCache.fa_placement_in_bounds hs address r⟩

/-- Witness of C16: 2 KB of 512-byte blocks in 4 ways (one set). -/
theorem C16_access_in_bounds_witness :
    ValidSets 2 512 4 ∧
    ∃ s0, SetAssociativeCache.new 2 512 4 = some s0 ∧
      ∀ (pre : List (Nat × Nat)),
      ∃ s, s0.run pre = some s ∧ s.cache.length = s.num_sets ∧
        (∀ set ∈ s.cache, set.length = s.ways) ∧
        ∀ (address r : Nat), s.index address < s.num_sets ∧ r % s.ways < s.ways ∧
          ∃ hit s1 o, s.access address r = some (hit, s1) ∧
            Classified o s.toCacheSimulator s1.toCacheSimulator :=
  have hv : ValidSets 2 512 4 := ⟨⟨by decide, ⟨9, by decide⟩, by decide⟩, by decide, by decide⟩
  ⟨hv, (C16_access_in_bounds 2 512 4 ReplacementPolicy.LRU).2.1 hv⟩

/-! ## Immediate re-reference -/

theorem DirectMappedCache.dm_rehit {s : DirectMappedCache} (h : s.InBounds) (a a1 : Nat)
    (heq : a >>> s.offset_bits = a1 >>> s.offset_bits) :
    ∃ hit s1 s2, s.access a = some (hit, s1) ∧ s1.access a1 = some (true, s2) ∧
      s2.hits = s1.hits + 1 := by
  obtain ⟨hit, s1, o, hacc, hin, hcl, -, hcap, hc, hi⟩ := DirectMappedCache.dm_in_bounds_step h a
  obtain ⟨-, ho, hn⟩ := classified_capacity_same hcl hcap
  have hidx : s1.index a1 = s.index a := by
    simp only [DirectMappedCache.index]
    rw [show s1.offset_bits = s.offset_bits from ho,
      show s1.num_total_blocks = s.num_total_blocks from hn, heq]
  have htag : s1.tag a1 = s.tag a := by
    simp only [DirectMappedCache.tag]
    rw [show s1.offset_bits = s.offset_bits from ho, hi, Nat.shiftRight_add, Nat.shiftRight_add,
      heq]
  have hlt : s.index a < s.cache.length :=
    h.1.symm ▸ DirectMappedCache.dm_in_bounds_index h a
  have hl : s1.cache[s1.index a1]? = some { tag := s.tag a, valid := true } := by
    rw [hidx, hc]
    exact List.getElem?_set_self hlt
  exact ⟨hit, s1, _, hacc, DirectMappedCache.dm_access_hit hin.2.2.2 hl rfl htag.symm, rfl⟩

theorem SetAssociativeCache.sa_rehit {s : SetAssociativeCache} (h : s.InBounds)
    (a r a1 r1 : Nat) (heq : a >>> s.offset_bits = a1 >>> s.offset_bits) :
    ∃ hit s1 s2, s.access a r = some (hit, s1) ∧ s1.access a1 r1 = some (true, s2) ∧
      s2.hits = s1.hits + 1 := by
  obtain ⟨hit, s1, o, hacc, hin, hcl, -, hcap, hw, hn, hi, set1, k, line, hl, hk, hv, ht⟩ :=
    SetAssociativeCache.sa_in_bounds_step h a r
  obtain ⟨-, ho, -⟩ := classified_capacity_same hcl hcap
  have hidx : s1.index a1 = s.index a := by
    simp only [SetAssociativeCache.index]
    rw [show s1.offset_bits = s.offset_bits from ho, hn, heq]
  have htag : s1.tag a1 = s.tag a := by
    simp only [SetAssociativeCache.tag]
    rw [show s1.offset_bits = s.offset_bits from ho, hi, Nat.shiftRight_add, Nat.shiftRight_add,
      heq]
  have hl1 : s1.cache[s1.index a1]? = some set1 := hidx ▸ hl
  have hlen : set1.length = s1.ways := hin.2.1 _ (List.getElem?_mem hl1)
  exact ⟨hit, s1, _, hacc,
    SetAssociativeCache.sa_access_hit r1 hin.2.2.2.2.2 hl1 hlen hk hv (ht.trans htag.symm), rfl⟩

theorem FullyAssociativeCache.fa_resident_after {s : FullyAssociativeCache} (h : s.WF)
    (address r : Nat) :
    ∃ hit s1, s.access address r = some (hit, s1) ∧ s1.WF ∧
      s1.offset_bits = s.offset_bits ∧
      ResidentIn s1.cache s1.filled_blocks (s.tag address) := by
  rcases FullyAssociativeCache.fa_access_cases h address r with
    ⟨k, b, hk, hkb, hbt, -, hacc⟩ | ⟨-, hf, hacc⟩ | ⟨-, hf, v, -, hvlt, hacc⟩
  · have hklt : k < s.cache.length := (List.getElem?_eq_some.mp hkb).1
    exact ⟨true, _, hacc, FullyAssociativeCache.fa_wf_of_step h rfl h.2.1 rfl rfl, rfl,
      k, _, hk, List.getElem?_set_self hklt,
      (FullyAssociativeCache.fa_touch_tag _ _ _).trans hbt⟩
  · have hflt : s.filled_blocks < s.cache.length := h.1.symm ▸ hf
    exact ⟨false, _, hacc, FullyAssociativeCache.fa_wf_of_step h rfl hf rfl rfl, rfl,
      s.filled_blocks, _, Nat.lt_succ_self _, List.getElem?_set_self hflt, rfl⟩
  · have hvl : v < s.cache.length := h.1.symm ▸ hvlt
    exact ⟨false, _, hacc, FullyAssociativeCache.fa_wf_of_step h rfl h.2.1 rfl rfl, rfl,
      v, _, hf.symm ▸ hvlt, List.getElem?_set_self hvl, rfl⟩

theorem FullyAssociativeCache.fa_rehit {s : FullyAssociativeCache} (h : s.WF)
    (a r a1 r1 : Nat) (heq : a >>> s.offset_bits = a1 >>> s.offset_bits) :
    ∃ hit s1 s2, s.access a r = some (hit, s1) ∧ s1.access a1 r1 = some (true, s2) ∧
      s2.hits = s1.hits + 1 := by
  obtain ⟨hit, s1, hacc, hwf, ho, hres⟩ := FullyAssociativeCache.fa_resident_after h a r
  have htag : s1.tag a1 = s.tag a := by
    simp only [FullyAssociativeCache.tag]
    rw [show s1.offset_bits = s.offset_bits from ho, heq]
  rw [← htag] at hres
  rcases FullyAssociativeCache.fa_access_cases hwf a1 r1 with
    ⟨k, b, -, -, -, -, h2⟩ | ⟨hnot, -, -⟩ | ⟨hnot, -, -⟩
  · exact ⟨hit, s1, _, hacc, h2, rfl⟩
  · exact absurd hres hnot
  · exact absurd hres hnot

/-- C17: immediate re-reference hits.  For each organisation whose capacity in
bytes is an `int`, whose block size is a power of two and which has at least
one block (set-associative: a way count of at least 1 dividing the block
count) — in particular under every configuration whose sizes are all powers
of two — the constructor yields a cache, every sequence of accesses runs from
it to a state, and from that state, for all addresses `a`, `a1` with
`a >> offset_bits == a1 >> offset_bits` and all values of `rand()`, the access
of `a` returns and the access of `a1` directly after it returns `true` and
increments `hits`, whatever the outcome of the access of `a`. -/
theorem C17_immediate_rereference_hits (size_kb blk_size num_ways : Nat)
    (p : ReplacementPolicy) :
    (ValidBlocks size_kb blk_size →
      ∃ s0, DirectMappedCache.new size_kb blk_size = some s0 ∧ ∀ (pre : List Nat),
        ∃ s, s0.run pre = some s ∧
          ∀ (a a1 : Nat), a >>> s.offset_bits = a1 >>> s.offset_bits →
            ∃ hit s1 s2, s.access a = some (hit, s1) ∧ s1.access a1 = some (true, s2) ∧
              s2.hits = s1.hits + 1) ∧
    (ValidSets size_kb blk_size num_ways →
      ∃ s0, SetAssociativeCache.new size_kb blk_size num_ways = some s0 ∧
        ∀ (pre : List (Nat × Nat)),
        ∃ s, s0.run pre = some s ∧
          ∀ (a r a1 r1 : Nat), a >>> s.offset_bits = a1 >>> s.offset_bits →
            ∃ hit s1 s2, s.access a r = some (hit, s1) ∧
              s1.access a1 r1 = some (true, s2) ∧ s2.hits = s1.hits + 1) ∧
    (ValidBlocks size_kb blk_size →
      ∃ s0, FullyAssociativeCache.new size_kb blk_size p = some s0 ∧
        ∀ (pre : List (Nat × Nat)),
        ∃ s, s0.run pre = some s ∧
          ∀ (a r a1 r1 : Nat), a >>> s.offset_bits = a1 >>> s.offset_bits →
            ∃ hit s1 s2, s.access a r = some (hit, s1) ∧
              s1.access a1 r1 = some (true, s2) ∧ s2.hits = s1.hits + 1) := by
  refine ⟨fun hv => ?_, fun hv => ?_, fun hv => ?_⟩
  · obtain ⟨s0, hnew⟩ := DirectMappedCache.dm_new_defined hv
    refine ⟨s0, hnew, fun pre => ?_⟩
    obtain ⟨s, hr, hs, -⟩ :=
      DirectMappedCache.dm_in_bounds_run (DirectMappedCache.dm_in_bounds_new hnew).1 pre
    exact ⟨s, hr, fun a a1 heq => DirectMappedCache.dm_rehit hs a a1 heq⟩
  · obtain ⟨s0, hnew⟩ := SetAssociativeCache.sa_new_defined hv
    refine ⟨s0, hnew, fun pre => ?_⟩
    obtain ⟨s, hr, hs, -⟩ :=
      SetAssociativeCache.sa_in_bounds_run (SetAssociativeCache.sa_in_bounds_new hnew).1 pre
    exact ⟨s, hr, fun a r a1 r1 heq => SetAssociativeCache.sa_rehit hs a r a1 r1 heq⟩
  · obtain ⟨s0, hnew, hwf, -⟩ := FullyAssociativeCache.fa_fresh p hv
    refine ⟨s0, hnew, fun pre => ?_⟩
    obtain ⟨s, hr, hs, -⟩ := FullyAssociativeCache.fa_run_total hwf pre
    exact ⟨s, hr, fun a r a1 r1 heq => FullyAssociativeCache.fa_rehit hs a r a1 r1 heq⟩

/-- Witness of C17: a 1 KB fully-associative RANDOM cache with 512-byte
blocks. -/
theorem C17_immediate_rereference_hits_witness :
    ValidBlocks 1 512 ∧
    ∃ s0, FullyAssociativeCache.new 1 512 ReplacementPolicy.RANDOM = some s0 ∧
      ∀ (pre : List (Nat × Nat)),
      ∃ s, s0.run pre = some s ∧
        ∀ (a r a1 r1 : Nat), a >>> s.offset_bits = a1 >>> s.offset_bits →
          ∃ hit s1 s2, s.access a r = some (hit, s1) ∧
            s1.access a1 r1 = some (true, s2) ∧ s2.hits = s1.hits + 1 :=
  have hv : ValidBlocks 1 512 := ⟨by decide, ⟨9, by decide⟩, by decide⟩
  ⟨hv, (C17_immediate_rereference_hits 1 512 1 ReplacementPolicy.RANDOM).2.2 hv⟩

theorem wrap_int_range {x : Int} (h0 : -(INT_LIMIT : Int) ≤ x) (h1 : x < (INT_LIMIT : Int)) :
    wrap_int x = x := by
  simp only [INT_LIMIT] at h0 h1
  unfold wrap_int
  omega

/-- C15: effect of a hit in the fully-associative cache.  Let the hit loop find
the tag of `address` in filled block `i` (the first filled block with that
tag), let the clock not be at the largest `int`, and under LFU let the
frequency counter of block `i` not be at the largest `int`.  Then the access
returns `true`, the clock is advanced by 1, `hits` is incremented and no miss
counter, nor `filled_blocks`, nor the policy changes.  Under LRU the cache
differs only in block `i`, whose `lru_counter` becomes the advanced clock;
under LFU only in block `i`, whose `lfu_counter` is increased by 1; under
FIFO and RANDOM the cache is unchanged.  No tag and no valid flag changes. -/
theorem C15_effect_of_hit (s : FullyAssociativeCache) (address r i : Nat) (b : CacheBlock)
    (hob : s.offset_bits < 32) (hi : i < s.filled_blocks) (hib : s.cache[i]? = some b)
    (ht : b.tag = s.tag address)
    (hfirst : ∀ (j : Nat) (x : CacheBlock), j < i → s.cache[j]? = some x →
      x.tag ≠ s.tag address)
    (hc0 : -(INT_LIMIT : Int) ≤ s.current_time + 1)
    (hc1 : s.current_time + 1 < (INT_LIMIT : Int))
    (hfreq : s.policy = ReplacementPolicy.LFU →
      -(INT_LIMIT : Int) ≤ b.lfu_counter + 1 ∧ b.lfu_counter + 1 < (INT_LIMIT : Int)) :
    ∃ s1, s.access address r = some (true, s1) ∧
      s1.current_time = s.current_time + 1 ∧
      Classified Outcome.hit s.toCacheSimulator s1.toCacheSimulator ∧
      s1.filled_blocks = s.filled_blocks ∧ s1.policy = s.policy ∧
      (s.policy = ReplacementPolicy.LRU →
        s1.cache = s.cache.set i { b with lru_counter := s.current_time + 1 }) ∧
      (s.policy = ReplacementPolicy.LFU →
        s1.cache = s.cache.set i { b with lfu_counter := b.lfu_counter + 1 }) ∧
      (s.policy = ReplacementPolicy.FIFO ∨ s.policy = ReplacementPolicy.RANDOM →
        s1.cache = s.cache) ∧
      s1.cache.map CacheBlock.tag = s.cache.map CacheBlock.tag ∧
      s1.cache.map CacheBlock.valid = s.cache.map CacheBlock.valid := by
  have hw := wrap_int_range hc0 hc1
  have hself : s.cache.set i b = s.cache := set_eq_self_of_getElem? hib
  have hmap : ∀ (f : CacheBlock → Nat) (b1 : CacheBlock), f b1 = f b →
      (s.cache.set i b1).map f = s.cache.map f := by
    intro f b1 hf
    rw [List.map_set, hf, ← List.map_set, hself]
  have hmapv : ∀ (f : CacheBlock → Bool) (b1 : CacheBlock), f b1 = f b →
      (s.cache.set i b1).map f = s.cache.map f := by
    intro f b1 hf
    rw [List.map_set, hf, ← List.map_set, hself]
  refine ⟨_, FullyAssociativeCache.fa_access_hit r hob hi hib ht hfirst, hw, rfl, rfl, rfl,
    ?_, ?_, ?_, ?_, ?_⟩
  · intro hp
    show s.cache.set i (FullyAssociativeCache.touch s.policy _ b) = _
    rw [hp, hw]
    rfl
  · intro hp
    show s.cache.set i (FullyAssociativeCache.touch s.policy _ b) = _
    rw [hp]
    show s.cache.set i { b with lfu_counter := wrap_int (b.lfu_counter + 1) } = _
    rw [wrap_int_range (hfreq hp).1 (hfreq hp).2]
  · intro hp
    show s.cache.set i (FullyAssociativeCache.touch s.policy _ b) = _
    rcases hp with hp | hp <;> rw [hp] <;> exact hself
  · exact hmap CacheBlock.tag _ (FullyAssociativeCache.fa_touch_tag _ _ _)
  · refine hmapv CacheBlock.valid _ ?_
    cases s.policy <;> rfl

/-- Witness of C15: an LFU cache of two blocks holding tags 7 and 8; the access
of address 8192 (tag 8 with 1024-byte blocks) hits block 1. -/
theorem C15_effect_of_hit_witness :
    ∃ s1, FullyAssociativeCache.access
        { hits := 0, compulsory_misses := 2, capacity_misses := 0, conflict_misses := 0,
          cache_size_kb := 2, block_size := 1024, offset_bits := 10, num_total_blocks := 2,
          cache := [⟨7, true, 1, 1⟩, ⟨8, true, 2, 1⟩],
          policy := ReplacementPolicy.LFU, current_time := 2, filled_blocks := 2 } 8192 0 =
        some (true, s1) ∧
      s1.current_time = 3 ∧ s1.cache = [⟨7, true, 1, 1⟩, ⟨8, true, 2, 2⟩] := by
  obtain ⟨s1, hacc, hct, -, -, -, -, hlfu, -⟩ := C15_effect_of_hit
    { hits := 0, compulsory_misses := 2, capacity_misses := 0, conflict_misses := 0,
      cache_size_kb := 2, block_size := 1024, offset_bits := 10, num_total_blocks := 2,
      cache := [⟨7, true, 1, 1⟩, ⟨8, true, 2, 1⟩],
      policy := ReplacementPolicy.LFU, current_time := 2, filled_blocks := 2 } 8192 0 1
    ⟨8, true, 2, 1⟩ (by decide) (by decide) (by decide) (by decide)
    (by
      intro j x hj hx
      have hj0 : j = 0 := by omega
      subst hj0
      have hx7 : x = ⟨7, true, 1, 1⟩ := (Option.some.inj hx).symm
      rw [hx7]
      decide)
    (by decide) (by decide) (fun _ => ⟨by decide, by decide⟩)
  exact ⟨s1, hacc, hct, hlfu rfl⟩

/-! ## Direct-mapped cache: the content of a slot after a run -/

theorem last_same_index_cons (idx : Nat → Nat) (i a : Nat) (rest : List Nat) :
    last_same_index idx i (a :: rest) =
      match last_same_index idx i rest with
      | some b => some b
      | none => if idx a = i then some a else none := by
  unfold last_same_index
  rw [List.reverse_cons, List.find?_append]
  cases h : List.find? (fun b => idx b == i) rest.reverse with
  | some b => rfl
  | none =>
    by_cases ha : idx a = i
    · simp [ha]
    · simp [ha]

theorem last_same_index_some {idx : Nat → Nat} {i b : Nat} {pre : List Nat}
    (h : last_same_index idx i pre = some b) : idx b = i := by
  unfold last_same_index at h
  simpa using List.find?_some h

theorem DirectMappedCache.dm_run_slot {s s1 : DirectMappedCache} {l : List Nat} (h : s.WF)
    (hr : s.run l = some s1) (i : Nat) :
    s1.cache[i]? =
      match last_same_index s.index i l with
      | some b => some { tag := s.tag b, valid := true }
      | none => s.cache[i]? := by
  induction l generalizing s with
  | nil =>
    simp only [DirectMappedCache.run, Option.some.injEq] at hr
    subst hr
    rfl
  | cons a rest ih =>
    obtain ⟨hit, s2, line, hacc, hl, hc, hi, ho, hn, -⟩ := DirectMappedCache.dm_access_step h a
    have hwf : s2.WF := DirectMappedCache.dm_wf_of_step h hc hi ho hn
    rw [DirectMappedCache.dm_run_cons hacc rest] at hr
    have hidx : s2.index = s.index := funext (DirectMappedCache.dm_index_congr ho hn)
    have htag : s2.tag = s.tag := funext (DirectMappedCache.dm_tag_congr ho hi)
    have hlt := DirectMappedCache.dm_index_lt h a
    rw [ih hwf hr, hidx, htag, last_same_index_cons]
    cases hlast : last_same_index s.index i rest with
    | some b => rfl
    | none =>
      by_cases hia : s.index a = i
      · subst hia
        simp only [if_true, hc]
        exact List.getElem?_set_self hlt
      · simp only [if_neg hia, hc]
        exact List.getElem?_set_ne hia

theorem DirectMappedCache.dm_same_block {s : DirectMappedCache} (h : s.WF) (a b : Nat) :
    (s.index b = s.index a ∧ s.tag b = s.tag a) ↔
      b >>> s.offset_bits = a >>> s.offset_bits := by
  rw [DirectMappedCache.dm_index_eq_mod h, DirectMappedCache.dm_index_eq_mod h]
  simp only [DirectMappedCache.tag, Nat.shiftRight_add]
  rw [Nat.shiftRight_eq_div_pow (b >>> s.offset_bits), Nat.shiftRight_eq_div_pow
    (a >>> s.offset_bits)]
  constructor
  · rintro ⟨h1, h2⟩
    rw [← Nat.div_add_mod (b >>> s.offset_bits) (2 ^ s.index_bits),
      ← Nat.div_add_mod (a >>> s.offset_bits) (2 ^ s.index_bits), h1, h2]
  · intro heq
    rw [heq]
    exact ⟨rfl, rfl⟩

theorem DirectMappedCache.dm_hit_iff {s : DirectMappedCache} (h : s.WF) (address : Nat) :
    ∃ hit s1 line, s.access address = some (hit, s1) ∧
      s.cache[s.index address]? = some line ∧
      (hit = true ↔ line.valid = true ∧ line.tag = s.tag address) := by
  obtain ⟨hit, s1, line, hacc, hl, -, -, -, -, h1, h2, h3⟩ :=
    DirectMappedCache.dm_access_step h address
  refine ⟨hit, s1, line, hacc, hl, ?_⟩
  cases hv : line.valid with
  | false => simp [(h1 hv).1]
  | true =>
    by_cases ht : line.tag = s.tag address
    · simp [(h3 hv ht).1, ht]
    · simp [(h2 hv ht).1, ht]

/-- C18: hit characterisation of the direct-mapped cache.  Under a valid
configuration (so that `offset_bits + index_bits < 32`), after any sequence
`pre` of accesses to a fresh cache the next access returns, and it is a hit
if and only if some earlier access had the same index and the most recent
such access `b` lies in the same memory block:
`b >> offset_bits == address >> offset_bits`. -/
theorem C18_direct_mapped_hit_iff (size_kb blk_size : Nat)
    (hv : ValidConfig size_kb blk_size) :
    ∃ s0, DirectMappedCache.new size_kb blk_size = some s0 ∧
      s0.offset_bits + s0.index_bits < 32 ∧
      ∀ (pre : List Nat) (address : Nat),
        ∃ s hit s1, s0.run pre = some s ∧ s.access address = some (hit, s1) ∧
          (hit = true ↔
            ∃ b, last_same_index s0.index (s0.index address) pre = some b ∧
              b >>> s0.offset_bits = address >>> s0.offset_bits) := by
  obtain ⟨s0, hnew, hwf, -, -, -, -, hcache⟩ := DirectMappedCache.dm_fresh hv
  refine ⟨s0, hnew, hwf.2.2, fun pre address => ?_⟩
  obtain ⟨s, hrun, hwf1, -, hi, ho, hn⟩ := DirectMappedCache.dm_run_total hwf pre
  obtain ⟨hit, s1, line, hacc, hl, hiff⟩ := DirectMappedCache.dm_hit_iff hwf1 address
  have hidx : s.index address = s0.index address := DirectMappedCache.dm_index_congr ho hn address
  have htag : s.tag address = s0.tag address := DirectMappedCache.dm_tag_congr ho hi address
  rw [hidx, DirectMappedCache.dm_run_slot hwf hrun] at hl
  rw [htag] at hiff
  refine ⟨s, hit, s1, hrun, hacc, hiff.trans ?_⟩
  cases hlast : last_same_index s0.index (s0.index address) pre with
  | some b =>
    rw [hlast] at hl
    have hline : line = { tag := s0.tag b, valid := true } := (Option.some.inj hl).symm
    have hsame := DirectMappedCache.dm_same_block hwf address b
    have hbi := last_same_index_some hlast
    rw [hline]
    constructor
    · rintro ⟨-, ht⟩
      exact ⟨b, rfl, hsame.mp ⟨hbi, ht⟩⟩
    · rintro ⟨b1, hb1, hblk⟩
      cases hb1
      exact ⟨rfl, (hsame.mpr hblk).2⟩
  | none =>
    simp only [hlast] at hl
    rw [hcache] at hl
    have hline : line.valid = false := by
      rw [(List.mem_replicate.mp (List.getElem?_mem hl)).2]
    simp [hline]

/-- Witness of C18: 1 KB direct-mapped cache with 256-byte blocks (4 slots).
After addresses 0, 1024, 256 the access of 1030 hits: slot 0 was last used by
1024, which lies in the same block as 1030. -/
theorem C18_direct_mapped_hit_iff_witness :
    ValidConfig 1 256 ∧
    ∃ s0 s s1, DirectMappedCache.new 1 256 = some s0 ∧ s0.run [0, 1024, 256] = some s ∧
      s.access 1030 = some (true, s1) := by
  have hv : ValidConfig 1 256 := ⟨by decide, ⟨8, rfl⟩, ⟨2, rfl⟩⟩
  obtain ⟨s0, hnew, -, h⟩ := C18_direct_mapped_hit_iff 1 256 hv
  obtain ⟨s, hit, s1, hrun, hacc, hiff⟩ := h [0, 1024, 256] 1030
  have e0 : DirectMappedCache.new 1 256 = some
      { hits := 0, compulsory_misses := 0, capacity_misses := 0, conflict_misses := 0,
        cache_size_kb := 1, block_size := 256, offset_bits := 8, num_total_blocks := 4,
        index_bits := 2,
        cache := [⟨0, false⟩, ⟨0, false⟩, ⟨0, false⟩, ⟨0, false⟩] } := by decide
  rw [e0] at hnew
  obtain rfl := Option.some.inj hnew
  have hhit : hit = true := hiff.mpr ⟨1024, by decide, by decide⟩
  rw [hhit] at hacc
  exact ⟨hv, _, s, s1, e0, hrun, hacc⟩

/-! ## Fully-associative cache: LRU timestamps -/

theorem last_ref_snoc (t x : Nat) : ∀ (seen : List Nat),
    last_ref t (seen ++ [x]) = if x = t then seen.length + 1 else last_ref t seen
  | [] => by
    simp [last_ref]
  | y :: rest => by
    have ih := last_ref_snoc t x rest
    show (if last_ref t (rest ++ [x]) = 0 then (if y = t then 1 else 0)
        else last_ref t (rest ++ [x]) + 1) =
      if x = t then rest.length + 1 + 1 else
        if last_ref t rest = 0 then (if y = t then 1 else 0) else last_ref t rest + 1
    rw [ih]
    by_cases hx : x = t
    · simp only [if_pos hx]
      rw [if_neg (Nat.succ_ne_zero _)]
    · simp only [if_neg hx]

theorem last_ref_get (t : Nat) : ∀ (seen : List Nat), 0 < last_ref t seen →
    seen[last_ref t seen - 1]? = some t
  | [] => by
    intro h
    simp [last_ref] at h
  | y :: rest => by
    intro h
    have ih := last_ref_get t rest
    simp only [last_ref] at h ⊢
    by_cases h0 : last_ref t rest = 0
    · rw [if_pos h0] at h ⊢
      by_cases hy : y = t
      · simp [hy]
      · simp [hy] at h
    · rw [if_neg h0] at h ⊢
      have hpos : 0 < last_ref t rest := Nat.pos_of_ne_zero h0
      have hidx : last_ref t rest + 1 - 1 = (last_ref t rest - 1) + 1 := by omega
      rw [hidx, List.getElem?_cons_succ]
      exact ih hpos

theorem last_ref_inj {t1 t2 : Nat} {seen : List Nat} (h1 : 0 < last_ref t1 seen)
    (h : last_ref t1 seen = last_ref t2 seen) : t1 = t2 := by
  have e1 := last_ref_get t1 seen h1
  have e2 := last_ref_get t2 seen (h ▸ h1)
  rw [h, e2] at e1
  exact (Option.some.inj e1).symm

theorem lru_stamped_set {cache : List CacheBlock} {filled filled1 k t : Nat} {seen : List Nat}
    {nb : CacheBlock} (hJ : LruStamped cache filled seen) (hk : k < cache.length)
    (hgrow : ∀ j, j < filled1 → j ≠ k → j < filled)
    (hnt : nb.tag = t) (hnl : nb.lru_counter = ((seen.length + 1 : Nat) : Int))
    (hother : ∀ (j : Nat) (b : CacheBlock), j < filled → j ≠ k → cache[j]? = some b →
      b.tag ≠ t) :
    LruStamped (cache.set k nb) filled1 (seen ++ [t]) := by
  obtain ⟨hst, hdis⟩ := hJ
  constructor
  · intro j b hj hb
    by_cases hjk : k = j
    · subst hjk
      rw [List.getElem?_set_self hk] at hb
      obtain rfl := Option.some.inj hb
      rw [last_ref_snoc, if_pos hnt.symm]
      exact ⟨hnl, Nat.succ_pos _⟩
    · rw [List.getElem?_set_ne hjk] at hb
      have hjf := hgrow j hj (Ne.symm hjk)
      have hne := hother j b hjf (Ne.symm hjk) hb
      rw [last_ref_snoc, if_neg (Ne.symm hne)]
      exact hst j b hjf hb
  · intro i j bi bj hi hj hbi hbj htag
    by_cases hik : k = i
    · by_cases hjk : k = j
      · exact hik.symm.trans hjk
      · subst hik
        rw [List.getElem?_set_self hk] at hbi
        obtain rfl := Option.some.inj hbi
        rw [List.getElem?_set_ne hjk] at hbj
        exact absurd (htag.symm.trans hnt)
          (hother j bj (hgrow j hj (Ne.symm hjk)) (Ne.symm hjk) hbj)
    · rw [List.getElem?_set_ne hik] at hbi
      by_cases hjk : k = j
      · subst hjk
        rw [List.getElem?_set_self hk] at hbj
        obtain rfl := Option.some.inj hbj
        exact absurd (htag.trans hnt)
          (hother i bi (hgrow i hi (Ne.symm hik)) (Ne.symm hik) hbi)
      · rw [List.getElem?_set_ne hjk] at hbj
        exact hdis i j bi bj (hgrow i hi (Ne.symm hik)) (hgrow j hj (Ne.symm hjk)) hbi hbj htag

theorem lru_stamped_counters {cache : List CacheBlock} {filled : Nat} {seen : List Nat}
    (hJ : LruStamped cache filled seen) {i j : Nat} {bi bj : CacheBlock} (hi : i < filled)
    (hj : j < filled) (hbi : cache[i]? = some bi) (hbj : cache[j]? = some bj) (hij : i ≠ j) :
    bi.tag ≠ bj.tag ∧ bi.lru_counter ≠ bj.lru_counter ∧
      last_ref bi.tag seen ≠ last_ref bj.tag seen := by
  have htag : bi.tag ≠ bj.tag := fun h => hij (hJ.2 i j bi bj hi hj hbi hbj h)
  have hlast : last_ref bi.tag seen ≠ last_ref bj.tag seen :=
    fun h => htag (last_ref_inj (hJ.1 i bi hi hbi).2 h)
  refine ⟨htag, ?_, hlast⟩
  rw [(hJ.1 i bi hi hbi).1, (hJ.1 j bj hj hbj).1]
  exact fun h => hlast (Int.ofNat.inj h)

theorem FullyAssociativeCache.fa_lru_step {s : FullyAssociativeCache} (h : s.WF)
    (hp : s.policy = ReplacementPolicy.LRU) {seen : List Nat} (hJ : s.LruInv seen)
    (hlen : seen.length + 1 < INT_LIMIT) (address r : Nat) :
    ∃ hit s1, s.access address r = some (hit, s1) ∧ s1.WF ∧
      s1.policy = ReplacementPolicy.LRU ∧ s1.offset_bits = s.offset_bits ∧
      s1.num_total_blocks = s.num_total_blocks ∧ s1.LruInv (seen ++ [s.tag address]) := by
  obtain ⟨hct, hst⟩ := hJ
  have hnow : wrap_int (s.current_time + 1) = ((seen.length + 1 : Nat) : Int) := by
    rw [wrap_int_add_one hct hlen]
    push_cast
    rfl
  have hlen1 : (((seen ++ [s.tag address]).length : Nat) : Int) =
      ((seen.length + 1 : Nat) : Int) := by
    rw [List.length_append]
    rfl
  rcases FullyAssociativeCache.fa_access_cases h address r with
    ⟨k, b, hk, hkb, hbt, -, hacc⟩ | ⟨hnot, hf, hacc⟩ | ⟨hnot, hf, v, -, hvlt, hacc⟩
  · have hklt : k < s.cache.length := (List.getElem?_eq_some.mp hkb).1
    refine ⟨true, _, hacc, FullyAssociativeCache.fa_wf_of_step h rfl h.2.1 rfl rfl, hp, rfl, rfl,
      hnow.trans hlen1.symm, ?_⟩
    refine lru_stamped_set hst hklt (fun j hj _ => hj)
      ((FullyAssociativeCache.fa_touch_tag _ _ _).trans hbt) ?_ ?_
    · show (FullyAssociativeCache.touch s.policy _ b).lru_counter = _
      rw [hp]
      exact hnow
    · intro j bj hj hjk hbj hjt
      exact hjk (hst.2 j k bj b hj hk hbj hkb (hjt.trans hbt.symm))
  · have hflt : s.filled_blocks < s.cache.length := h.1.symm ▸ hf
    refine ⟨false, _, hacc, FullyAssociativeCache.fa_wf_of_step h rfl hf rfl rfl, hp, rfl, rfl,
      hnow.trans hlen1.symm, ?_⟩
    refine lru_stamped_set hst hflt (fun j hj hjk => ?_) rfl hnow ?_
    · exact lt_of_le_of_ne (Nat.lt_succ_iff.mp hj) hjk
    · intro j bj hj _ hbj hjt
      exact hnot ⟨j, bj, hj, hbj, hjt⟩
  · have hvl : v < s.cache.length := h.1.symm ▸ hvlt
    refine ⟨false, _, hacc, FullyAssociativeCache.fa_wf_of_step h rfl h.2.1 rfl rfl, hp, rfl, rfl,
      hnow.trans hlen1.symm, ?_⟩
    refine lru_stamped_set hst hvl (fun j hj _ => hj) rfl hnow ?_
    intro j bj hj _ hbj hjt
    exact hnot ⟨j, bj, hj, hbj, hjt⟩

theorem FullyAssociativeCache.fa_lru_run {s : FullyAssociativeCache} (h : s.WF)
    (hp : s.policy = ReplacementPolicy.LRU) {seen : List Nat} (hJ : s.LruInv seen)
    (l : List (Nat × Nat)) (hlen : seen.length + l.length < INT_LIMIT) :
    ∃ s1, s.run l = some s1 ∧ s1.WF ∧ s1.policy = ReplacementPolicy.LRU ∧
      s1.offset_bits = s.offset_bits ∧ s1.num_total_blocks = s.num_total_blocks ∧
      s1.LruInv (seen ++ l.map (fun x => s.tag x.1)) := by
  induction l generalizing s seen with
  | nil =>
    refine ⟨s, rfl, h, hp, rfl, rfl, ?_⟩
    simpa using hJ
  | cons x rest ih =>
    obtain ⟨a, r⟩ := x
    have hlen1 : seen.length + 1 < INT_LIMIT :=
      lt_of_le_of_lt (Nat.add_le_add_left (Nat.succ_le_succ (Nat.zero_le _)) _) hlen
    obtain ⟨hit, s2, hacc, hwf2, hp2, ho2, hn2, hJ2⟩ :=
      FullyAssociativeCache.fa_lru_step h hp hJ hlen1 a r
    have hlen2 : (seen ++ [s.tag a]).length + rest.length < INT_LIMIT := by
      rw [List.length_append, List.length_singleton, Nat.add_assoc, Nat.add_comm 1]
      exact hlen
    obtain ⟨s1, hr, hwf1, hp1, ho1, hn1, hJ1⟩ := ih hwf2 hp2 hJ2 hlen2
    refine ⟨s1, (FullyAssociativeCache.fa_run_cons hacc rest).trans hr, hwf1, hp1,
      ho1.trans ho2, hn1.trans hn2, ?_⟩
    have htag : (fun x : Nat × Nat => s2.tag x.1) = fun x => s.tag x.1 := by
      funext x
      exact FullyAssociativeCache.fa_tag_congr ho2 x.1
    rw [htag] at hJ1
    simpa using hJ1

theorem FullyAssociativeCache.fa_lru_oldest {s : FullyAssociativeCache} (h : s.WF)
    (hp : s.policy = ReplacementPolicy.LRU) {seen : List Nat}
    (hst : LruStamped s.cache s.filled_blocks seen)
    (hf : s.filled_blocks = s.num_total_blocks) (r : Nat) :
    ∃ v bv, s.find_victim r = some v ∧ v < s.num_total_blocks ∧ s.cache[v]? = some bv ∧
      ∀ (j : Nat) (bj : CacheBlock), j < s.num_total_blocks → j ≠ v →
        s.cache[j]? = some bj → last_ref bv.tag seen < last_ref bj.tag seen := by
  obtain ⟨v, bv, hv, hvlt, hbv, hmin, -⟩ :=
    FullyAssociativeCache.fa_find_victim_min h.1 h.2.2.1 r CacheBlock.lru_counter
      (fun b0 h0 => FullyAssociativeCache.fa_find_victim_lru r (Or.inl hp) h0)
  refine ⟨v, bv, hv, hvlt, hbv, fun j bj hj hjv hbj => ?_⟩
  have hle := hmin j bj hbj
  have hjf : j < s.filled_blocks := hf.symm ▸ hj
  have hvf : v < s.filled_blocks := hf.symm ▸ hvlt
  have hne := (lru_stamped_counters hst hvf hjf hbv hbj (Ne.symm hjv)).2.2
  rw [(hst.1 v bv hvf hbv).1, (hst.1 j bj hjf hbj).1] at hle
  exact lt_of_le_of_ne (Int.ofNat_le.mp hle) hne

theorem FullyAssociativeCache.fa_lru_eviction {s : FullyAssociativeCache} (h : s.WF)
    (hp : s.policy = ReplacementPolicy.LRU) {seen : List Nat} (hJ : s.LruInv seen)
    (hlen : seen.length + 1 < INT_LIMIT) (address r : Nat) :
    ∃ hit s1, s.access address r = some (hit, s1) ∧
      (hit = false → s.filled_blocks = s.num_total_blocks →
        ∃ v bv, s.find_victim r = some v ∧ v < s.num_total_blocks ∧ s.cache[v]? = some bv ∧
          Classified Outcome.capacity s.toCacheSimulator s1.toCacheSimulator ∧
          s1.cache = s.cache.set v
            { tag := s.tag address, valid := true,
              lru_counter := ((seen.length + 1 : Nat) : Int), lfu_counter := 1 } ∧
          ∀ (j : Nat) (bj : CacheBlock), j < s.num_total_blocks → j ≠ v →
            s.cache[j]? = some bj → last_ref bv.tag seen < last_ref bj.tag seen) := by
  have hnow : wrap_int (s.current_time + 1) = ((seen.length + 1 : Nat) : Int) := by
    rw [wrap_int_add_one hJ.1 hlen]
    push_cast
    rfl
  rcases FullyAssociativeCache.fa_access_cases h address r with
    ⟨k, b, -, -, -, -, hacc⟩ | ⟨-, hf, hacc⟩ | ⟨-, hf, v, hv, -, hacc⟩
  · exact ⟨true, _, hacc, fun hh => absurd hh (by simp)⟩
  · exact ⟨false, _, hacc, fun _ he => absurd he (Nat.ne_of_lt hf)⟩
  · obtain ⟨v1, bv, hv1, hvlt, hbv, hold⟩ :=
      FullyAssociativeCache.fa_lru_oldest h hp hJ.2 hf r
    have hvv : v = v1 := Option.some.inj (hv.symm.trans hv1)
    subst hvv
    refine ⟨false, _, hacc, fun _ _ => ⟨v, bv, hv, hvlt, hbv, rfl, ?_, hold⟩⟩
    show s.cache.set v _ = _
    rw [hnow]

/-- C19: LRU is true least-recently-used.  Under a valid configuration of the
fully-associative cache with policy LRU, let `l` be a sequence of accesses
short enough that the `int` clock stays in range for it and for one more
access (`l.length + 1 < 2 ^ 31`).  The run from the fresh cache returns a
state in which every filled block's `lru_counter` is the position (counted
from 1) of the most recent access of `l` to the tag the block holds, the
filled blocks hold pairwise distinct tags with pairwise distinct
`lru_counter` values, and the next access returns; if it is a miss on the
full cache, it is counted as a capacity miss and replaces the block
`find_victim()` returns, whose tag is the one resident tag whose most recent
reference is older than that of every other resident tag. -/
theorem C19_lru_is_least_recently_used (size_kb blk_size : Nat)
    (hv : ValidBlocks size_kb blk_size) (l : List (Nat × Nat))
    (hlen : l.length + 1 < INT_LIMIT) :
    ∃ s0 s, FullyAssociativeCache.new size_kb blk_size ReplacementPolicy.LRU = some s0 ∧
      s0.run l = some s ∧
      (∀ (j : Nat) (b : CacheBlock), j < s.filled_blocks → s.cache[j]? = some b →
        b.lru_counter = ((last_ref b.tag (l.map (fun x => s0.tag x.1)) : Nat) : Int) ∧
          0 < last_ref b.tag (l.map (fun x => s0.tag x.1))) ∧
      (∀ (i j : Nat) (bi bj : CacheBlock), i < s.filled_blocks → j < s.filled_blocks →
        s.cache[i]? = some bi → s.cache[j]? = some bj → i ≠ j →
          bi.tag ≠ bj.tag ∧ bi.lru_counter ≠ bj.lru_counter) ∧
      ∀ (address r : Nat), ∃ hit s1, s.access address r = some (hit, s1) ∧
        (hit = false → s.filled_blocks = s.num_total_blocks →
          ∃ v bv, s.find_victim r = some v ∧ v < s.num_total_blocks ∧
            s.cache[v]? = some bv ∧
            Classified Outcome.capacity s.toCacheSimulator s1.toCacheSimulator ∧
            s1.cache = s.cache.set v
              { tag := s.tag address, valid := true,
                lru_counter := ((l.length + 1 : Nat) : Int), lfu_counter := 1 } ∧
            ∀ (j : Nat) (bj : CacheBlock), j < s.num_total_blocks → j ≠ v →
              s.cache[j]? = some bj →
                last_ref bv.tag (l.map (fun x => s0.tag x.1)) <
                  last_ref bj.tag (l.map (fun x => s0.tag x.1))) := by
  obtain ⟨s0, hnew, hwf, -, -, -, -, hp, hf0, hc0, -, -, -⟩ :=
    FullyAssociativeCache.fa_fresh ReplacementPolicy.LRU hv
  have hJ0 : s0.LruInv [] := by
    refine ⟨hc0, ?_, ?_⟩
    · intro j b hj
      rw [hf0] at hj
      exact absurd hj (Nat.not_lt_zero j)
    · intro i j bi bj hi
      rw [hf0] at hi
      exact absurd hi (Nat.not_lt_zero i)
  have hlen0 : ([] : List Nat).length + l.length < INT_LIMIT := by
    rw [List.length_nil, Nat.zero_add]
    exact lt_trans (Nat.lt_succ_self _) hlen
  obtain ⟨s, hr, hwf1, hp1, -, -, hJ⟩ := FullyAssociativeCache.fa_lru_run hwf hp hJ0 l hlen0
  rw [List.nil_append] at hJ
  have hlen1 : (l.map (fun x => s0.tag x.1)).length + 1 < INT_LIMIT := by
    rw [List.length_map]
    exact hlen
  refine ⟨s0, s, hnew, hr, hJ.2.1, ?_, ?_⟩
  · intro i j bi bj hi hj hbi hbj hij
    have h3 := lru_stamped_counters hJ.2 hi hj hbi hbj hij
    exact ⟨h3.1, h3.2.1⟩
  · intro address r
    have h4 := FullyAssociativeCache.fa_lru_eviction hwf1 hp1 hJ hlen1 address r
    rw [List.length_map] at h4
    exact h4

/-- Witness of C19: two blocks of 512 bytes; after the accesses 0, 512, 0 the
blocks are stamped by their most recent references. -/
theorem C19_lru_is_least_recently_used_witness :
    ValidBlocks 1 512 ∧
    ∃ s0 s, FullyAssociativeCache.new 1 512 ReplacementPolicy.LRU = some s0 ∧
      s0.run [(0, 0), (512, 0), (0, 0)] = some s ∧
      (∀ (i j : Nat) (bi bj : CacheBlock), i < s.filled_blocks → j < s.filled_blocks →
        s.cache[i]? = some bi → s.cache[j]? = some bj → i ≠ j →
          bi.tag ≠ bj.tag ∧ bi.lru_counter ≠ bj.lru_counter) := by
  have hv : ValidBlocks 1 512 := ⟨by decide, ⟨9, by decide⟩, by decide⟩
  obtain ⟨s0, s, hnew, hr, -, hdis, -⟩ :=
    C19_lru_is_least_recently_used 1 512 hv [(0, 0), (512, 0), (0, 0)] (by decide)
  exact ⟨hv, s0, s, hnew, hr, hdis⟩

/-! ## Fully-associative cache: a working set that fits -/

theorem FullyAssociativeCache.fa_fit_step {s s1 : FullyAssociativeCache} (h : s.WF)
    {seen : List Nat} (hJ : s.SeenInv seen) {address r : Nat} {hit : Bool}
    (hfit : (seen ++ [s.tag address]).toFinset.card ≤ s.num_total_blocks)
    (hacc : s.access address r = some (hit, s1)) :
    s1.capacity_misses = s.capacity_misses := by
  rcases FullyAssociativeCache.fa_access_cases h address r with
    ⟨k, b, -, -, -, -, h1⟩ | ⟨-, -, h1⟩ | ⟨hnot, hf, v, -, -, -⟩
  · rw [hacc] at h1
    obtain ⟨-, rfl⟩ := Prod.mk.inj (Option.some.inj h1)
    rfl
  · rw [hacc] at h1
    obtain ⟨-, rfl⟩ := Prod.mk.inj (Option.some.inj h1)
    rfl
  · exfalso
    have hle : seen.toFinset.card ≤ s.num_total_blocks := (card_snoc_le seen _).trans hfit
    have hmem : s.tag address ∉ seen := fun hm => hnot ((hJ.2.2 hle _).mp hm)
    have hcard := card_snoc_not_mem hmem
    have hfilled := hJ.2.1
    rw [hf, Nat.min_eq_right hle] at hfilled
    omega

theorem FullyAssociativeCache.fa_fit_run {s : FullyAssociativeCache} (h : s.WF)
    {seen : List Nat} (hJ : s.SeenInv seen) (l : List (Nat × Nat))
    (hfit : (seen ++ l.map (fun x => s.tag x.1)).toFinset.card ≤ s.num_total_blocks) :
    ∃ s1, s.run l = some s1 ∧ s1.capacity_misses = s.capacity_misses := by
  induction l generalizing s seen with
  | nil => exact ⟨s, rfl, rfl⟩
  | cons x rest ih =>
    obtain ⟨a, r⟩ := x
    obtain ⟨hit, s2, o, hacc, -⟩ := FullyAssociativeCache.fa_access_step h a r
    obtain ⟨hJ2, hwf2, ho2, hn2, -⟩ := FullyAssociativeCache.fa_seen_step h hJ hacc
    have htag : (fun x : Nat × Nat => s2.tag x.1) = fun x => s.tag x.1 := by
      funext x
      exact FullyAssociativeCache.fa_tag_congr ho2 x.1
    have happ : seen ++ [s.tag a] ++ rest.map (fun x => s.tag x.1) =
        seen ++ ((a, r) :: rest).map (fun x => s.tag x.1) := by
      simp
    have hsub : (seen ++ [s.tag a]).toFinset ⊆
        (seen ++ ((a, r) :: rest).map (fun x => s.tag x.1)).toFinset := by
      rw [← happ]
      intro y hy
      rw [List.mem_toFinset] at hy ⊢
      exact List.mem_append_left _ hy
    have hfit1 : (seen ++ [s.tag a]).toFinset.card ≤ s.num_total_blocks :=
      (Finset.card_le_card hsub).trans hfit
    have hfit2 : (seen ++ [s.tag a] ++ rest.map (fun x => s2.tag x.1)).toFinset.card ≤
        s2.num_total_blocks := by
      rw [htag, happ, hn2]
      exact hfit
    obtain ⟨s1, hr, hc1⟩ := ih hwf2 hJ2 hfit2
    exact ⟨s1, (FullyAssociativeCache.fa_run_cons hacc rest).trans hr,
      hc1.trans (FullyAssociativeCache.fa_fit_step h hJ hfit1 hacc)⟩

/-- C20: a working set that fits.  In a fully-associative cache under a valid
configuration (`N = num_total_blocks ≥ 1`) with any replacement policy and
any values of `rand()`, every sequence of `n` accesses to a fresh cache whose
tags `address >> offset_bits` take `d ≤ N` distinct values runs to a state
with `compulsory_misses = d`, `capacity_misses = 0`, `conflict_misses = 0`
and `hits = n - d` (where `d ≤ n`). -/
theorem C20_working_set_fits (size_kb blk_size : Nat) (p : ReplacementPolicy)
    (hv : ValidBlocks size_kb blk_size) :
    ∃ s0, FullyAssociativeCache.new size_kb blk_size p = some s0 ∧
      0 < s0.num_total_blocks ∧
      ∀ (l : List (Nat × Nat)),
        (l.map (fun x => x.1 >>> s0.offset_bits)).dedup.length ≤ s0.num_total_blocks →
        ∃ s, s0.run l = some s ∧
          s.compulsory_misses = (l.map (fun x => x.1 >>> s0.offset_bits)).dedup.length ∧
          s.capacity_misses = 0 ∧ s.conflict_misses = 0 ∧
          (l.map (fun x => x.1 >>> s0.offset_bits)).dedup.length ≤ l.length ∧
          s.hits = l.length - (l.map (fun x => x.1 >>> s0.offset_bits)).dedup.length := by
  obtain ⟨s0, hnew, hwf, hh, hc, hcap, hconf, -, hf, -⟩ := FullyAssociativeCache.fa_fresh p hv
  refine ⟨s0, hnew, hwf.2.2.1, fun l hd => ?_⟩
  have hJ0 := FullyAssociativeCache.fa_seen_fresh hc hf
  have hd1 : ([] ++ l.map (fun x : Nat × Nat => s0.tag x.1)).toFinset.card ≤
      s0.num_total_blocks := by
    rw [List.nil_append, List.card_toFinset]
    exact hd
  obtain ⟨s, hrun, -, ⟨hJ1, -, -⟩, -, hn⟩ := FullyAssociativeCache.fa_seen_run hwf hJ0 l
  obtain ⟨s2, hrun2, hcap2⟩ := FullyAssociativeCache.fa_fit_run hwf hJ0 l hd1
  obtain ⟨s3, hrun3, -, htot, hconf3, -⟩ := FullyAssociativeCache.fa_run_total hwf l
  rw [hrun] at hrun2 hrun3
  obtain rfl := Option.some.inj hrun2
  obtain rfl := Option.some.inj hrun3
  rw [hn, List.nil_append, List.card_toFinset] at hJ1
  have hcomp : s.compulsory_misses =
      (l.map (fun x => x.1 >>> s0.offset_bits)).dedup.length :=
    hJ1.trans (Nat.min_eq_right hd)
  have hcap0 : s.capacity_misses = 0 := hcap2.trans hcap
  have hconf0 : s.conflict_misses = 0 := hconf3.trans hconf
  simp only [CacheSimulator.total_accesses] at htot
  rw [hh, hc, hcap, hconf, hcap0, hconf0, hcomp] at htot
  exact ⟨s, hrun, hcomp, hcap0, hconf0, by omega, by omega⟩

/-- Witness of C20: two blocks of 512 bytes, five accesses to the two blocks at
0 and 512: 2 compulsory misses and 3 hits. -/
theorem C20_working_set_fits_witness :
    ValidBlocks 1 512 ∧
    ∃ s0 s, FullyAssociativeCache.new 1 512 ReplacementPolicy.LFU = some s0 ∧
      s0.run [(0, 0), (512, 0), (0, 0), (600, 0), (1, 0)] = some s ∧
      s.compulsory_misses = 2 ∧ s.capacity_misses = 0 ∧ s.conflict_misses = 0 ∧
      s.hits = 3 := by
  have hv : ValidBlocks 1 512 := ⟨by decide, ⟨9, rfl⟩, by decide⟩
  obtain ⟨s0, hnew, -, h⟩ := C20_working_set_fits 1 512 ReplacementPolicy.LFU hv
  have e0 : FullyAssociativeCache.new 1 512 ReplacementPolicy.LFU = some
      { hits := 0, compulsory_misses := 0, capacity_misses := 0, conflict_misses := 0,
        cache_size_kb := 1, block_size := 512, offset_bits := 9, num_total_blocks := 2,
        cache := [⟨0, false, 0, 0⟩, ⟨0, false, 0, 0⟩],
        policy := ReplacementPolicy.LFU, current_time := 0, filled_blocks := 0 } := by decide
  rw [e0] at hnew
  obtain rfl := Option.some.inj hnew
  obtain ⟨s, hrun, h1, h2, h3, -, h5⟩ :=
    h [(0, 0), (512, 0), (0, 0), (600, 0), (1, 0)] (by decide)
  refine ⟨hv, _, s, e0, hrun, ?_, h2, h3, ?_⟩
  · rw [h1]
    decide
  · rw [h5]
    decide

/-! ## Construction without validation -/

theorem log2_floor_aux_lt : ∀ (fuel x : Nat), 0 < x → x < 2 ^ fuel →
    x < 2 ^ (log2_floor_aux fuel x + 1)
  | 0, x, h0, h1 => by
    simp only [pow_zero] at h1
    omega
  | fuel + 1, x, h0, h1 => by
    simp only [log2_floor_aux]
    split
    · have ih := log2_floor_aux_lt fuel (x / 2) (by omega) (by rw [pow_succ] at h1; omega)
      rw [pow_succ]
      omega
    · simp only [zero_add, pow_one]
      omega

theorem log2_floor_bounds {x : Nat} (h0 : 0 < x) (h1 : x < INT_LIMIT) :
    2 ^ log2_floor x ≤ x ∧ x < 2 ^ (log2_floor x + 1) := by
  refine ⟨log2_floor_aux_le 32 x h0, log2_floor_aux_lt 32 x h0 ?_⟩
  simp only [INT_LIMIT] at h1
  omega

/-- C11, amended: the constructors validate nothing and report no
configuration error.  For every block size of at least 1 and every capacity
`size_kb * 1024` within `int` that holds at least one block, whether or not
they are powers of two, the direct-mapped and the fully-associative
constructor yield an organisation, and so does the set-associative
constructor for every way count of at least 1 that leaves at least one set,
whether or not it is a power of two or divides the block count.  Rounded
values are substituted: `num_total_blocks` and `num_sets` are the
rounded-down quotients, `offset_bits` and `index_bits` the rounded-down
binary logarithms (`2 ^ bits ≤ x < 2 ^ (bits + 1)`). -/
theorem C11_construction_accepts_unvalidated (size_kb blk_size num_ways : Nat)
    (p : ReplacementPolicy) (hb : 0 < blk_size) (hcap : size_kb * 1024 < INT_LIMIT)
    (hn : 0 < size_kb * 1024 / blk_size) :
    (∃ s, DirectMappedCache.new size_kb blk_size = some s ∧
      s.num_total_blocks = size_kb * 1024 / blk_size ∧
      2 ^ s.offset_bits ≤ blk_size ∧ blk_size < 2 ^ (s.offset_bits + 1) ∧
      2 ^ s.index_bits ≤ s.num_total_blocks ∧ s.num_total_blocks < 2 ^ (s.index_bits + 1) ∧
      s.cache = List.replicate s.num_total_blocks { tag := 0, valid := false }) ∧
    (0 < num_ways → 0 < size_kb * 1024 / blk_size / num_ways →
      ∃ s, SetAssociativeCache.new size_kb blk_size num_ways = some s ∧
        s.num_total_blocks = size_kb * 1024 / blk_size ∧ s.ways = num_ways ∧
        s.num_sets = size_kb * 1024 / blk_size / num_ways ∧
        2 ^ s.offset_bits ≤ blk_size ∧ blk_size < 2 ^ (s.offset_bits + 1) ∧
        2 ^ s.index_bits ≤ s.num_sets ∧ s.num_sets < 2 ^ (s.index_bits + 1) ∧
        s.cache = List.replicate s.num_sets
          (List.replicate s.ways { tag := 0, valid := false })) ∧
    (∃ s, FullyAssociativeCache.new size_kb blk_size p = some s ∧
      s.num_total_blocks = size_kb * 1024 / blk_size ∧ s.policy = p ∧ s.filled_blocks = 0 ∧
      2 ^ s.offset_bits ≤ blk_size ∧ blk_size < 2 ^ (s.offset_bits + 1) ∧
      s.cache = List.replicate s.num_total_blocks
        { tag := 0, valid := false, lru_counter := 0, lfu_counter := 0 }) := by
  have hble : blk_size ≤ size_kb * 1024 := by
    by_contra hlt
    rw [Nat.div_eq_of_lt (Nat.lt_of_not_le hlt)] at hn
    exact Nat.lt_irrefl 0 hn
  have hblk : blk_size < INT_LIMIT := lt_of_le_of_lt hble hcap
  have hnlt : size_kb * 1024 / blk_size < INT_LIMIT :=
    lt_of_le_of_lt (Nat.div_le_self _ _) hcap
  have hg : ¬ (blk_size = 0 ∨ INT_LIMIT ≤ blk_size ∨ INT_LIMIT ≤ size_kb * 1024) := by
    omega
  obtain ⟨ho1, ho2⟩ := log2_floor_bounds hb hblk
  refine ⟨?_, ?_, ?_⟩
  · obtain ⟨hi1, hi2⟩ := log2_floor_bounds hn hnlt
    simp only [DirectMappedCache.new, CacheSimulator.new, if_neg hg]
    rw [if_neg (Nat.pos_iff_ne_zero.mp hn)]
    exact ⟨_, rfl, rfl, ho1, ho2, hi1, hi2, rfl⟩
  · intro hw hs
    have hsle : size_kb * 1024 / blk_size / num_ways ≤ size_kb * 1024 / blk_size :=
      Nat.div_le_self _ _
    have hwle : num_ways ≤ size_kb * 1024 / blk_size := by
      by_contra hlt
      rw [Nat.div_eq_of_lt (Nat.lt_of_not_le hlt)] at hs
      exact Nat.lt_irrefl 0 hs
    have hw2 : ¬ (num_ways = 0 ∨ INT_LIMIT ≤ num_ways) := by omega
    obtain ⟨hi1, hi2⟩ := log2_floor_bounds hs (lt_of_le_of_lt hsle hnlt)
    simp only [SetAssociativeCache.new, CacheSimulator.new, if_neg hg]
    rw [if_neg hw2, if_neg (Nat.pos_iff_ne_zero.mp hs)]
    exact ⟨_, rfl, rfl, rfl, rfl, ho1, ho2, hi1, hi2, rfl⟩
  · simp only [FullyAssociativeCache.new, CacheSimulator.new, if_neg hg]
    exact ⟨_, rfl, rfl, rfl, rfl, ho1, ho2, rfl⟩

/-- Witness of C11 (amended): 3 KB with 48-byte blocks (64 blocks) and 5 ways
(12 sets): no size is a power of two and 5 does not divide 64. -/
theorem C11_construction_accepts_unvalidated_witness :
    (0 < 48 ∧ 3 * 1024 < INT_LIMIT ∧ 0 < 3 * 1024 / 48 ∧ 0 < 5 ∧ 0 < 3 * 1024 / 48 / 5) ∧
    ∃ s, SetAssociativeCache.new 3 48 5 = some s ∧
      s.num_total_blocks = 3 * 1024 / 48 ∧ s.ways = 5 ∧
      s.num_sets = 3 * 1024 / 48 / 5 ∧
      2 ^ s.offset_bits ≤ 48 ∧ 48 < 2 ^ (s.offset_bits + 1) ∧
      2 ^ s.index_bits ≤ s.num_sets ∧ s.num_sets < 2 ^ (s.index_bits + 1) ∧
      s.cache = List.replicate s.num_sets
        (List.replicate s.ways { tag := 0, valid := false }) :=
  ⟨⟨by decide, by decide, by decide, by decide, by decide⟩,
    (C11_construction_accepts_unvalidated 3 48 5 ReplacementPolicy.LRU (by decide) (by decide)
      (by decide)).2.1 (by decide) (by decide)⟩

/-! ## Set-associative cache: what does not depend on `rand()` -/

theorem SetAssociativeCache.sa_effect_full {ways tag d : Nat} {set set1 : List CacheLine}
    (h : SetAssociativeCache.Effect ways tag set set1 d)
    (hf : ∀ line ∈ set, line.valid = true) :
    d = 0 ∧ ∀ line ∈ set1, line.valid = true := by
  rcases h with ⟨-, hd, hs⟩ | ⟨-, -, k, y, hk, hy, -⟩ | ⟨-, hd, -, -, hs⟩
  · exact ⟨hd, hs ▸ hf⟩
  · have := hf y (List.getElem?_mem hk)
    rw [hy] at this
    cases this
  · exact ⟨hd, hs⟩

theorem SetAssociativeCache.sa_effect_unique {ways tag d1 d2 : Nat}
    {set set1 set2 : List CacheLine}
    (h1 : SetAssociativeCache.Effect ways tag set set1 d1)
    (h2 : SetAssociativeCache.Effect ways tag set set2 d2) :
    d2 = d1 ∧ (set2 = set1 ∨
      ((∀ line ∈ set1, line.valid = true) ∧ ∀ line ∈ set2, line.valid = true)) := by
  rcases h1 with ⟨⟨k, line, hk, hv, ht⟩, hd1, hs1⟩ | ⟨hm1, hd1, k1, y1, -, -, hsc1, hs1⟩ |
    ⟨hm1, hd1, hsc1, -, hf1⟩
  · rcases h2 with ⟨-, hd2, hs2⟩ | ⟨hm2, -⟩ | ⟨hm2, -⟩
    · exact ⟨hd2.trans hd1.symm, Or.inl (hs2.trans hs1.symm)⟩
    · exact absurd ⟨hv, ht⟩ (hm2 line (List.getElem?_mem hk))
    · exact absurd ⟨hv, ht⟩ (hm2 line (List.getElem?_mem hk))
  · rcases h2 with ⟨⟨k, line, hk, hv, ht⟩, -⟩ | ⟨-, hd2, k2, y2, -, -, hsc2, hs2⟩ |
      ⟨-, -, hsc2, -⟩
    · exact absurd ⟨hv, ht⟩ (hm1 line (List.getElem?_mem hk))
    · have hkk : k2 = k1 := Option.some.inj (Option.some.inj (hsc2.symm.trans hsc1))
      refine ⟨hd2.trans hd1.symm, Or.inl ?_⟩
      rw [hs2, hs1, hkk]
    · rw [hsc1] at hsc2
      cases hsc2
  · rcases h2 with ⟨⟨k, line, hk, hv, ht⟩, -⟩ | ⟨-, -, k2, y2, -, -, hsc2, -⟩ |
      ⟨-, hd2, -, -, hf2⟩
    · exact absurd ⟨hv, ht⟩ (hm1 line (List.getElem?_mem hk))
    · rw [hsc1] at hsc2
      cases hsc2
    · exact ⟨hd2.trans hd1.symm, Or.inr ⟨hf1, hf2⟩⟩

theorem SetAssociativeCache.sa_access_effect {s : SetAssociativeCache} (h : s.WF)
    (address r : Nat) :
    ∃ set hit s1 set1 d, s.cache[s.index address]? = some set ∧
      s.access address r = some (hit, s1) ∧ s1.WF ∧
      s1.cache = s.cache.set (s.index address) set1 ∧
      s1.ways = s.ways ∧ s1.num_sets = s.num_sets ∧ s1.index_bits = s.index_bits ∧
      s1.offset_bits = s.offset_bits ∧ s1.capacity_misses = s.capacity_misses ∧
      s1.compulsory_misses = s.compulsory_misses + d ∧
      s1.hits + s1.conflict_misses + d = s.hits + s.conflict_misses + 1 ∧
      SetAssociativeCache.Effect s.ways (s.tag address) set set1 d := by
  obtain ⟨set, hl, hlen⟩ := SetAssociativeCache.sa_exists_set h address
  have hb := h.2.2.2.2
  have hw := h.2.2.2.1
  by_cases hh : ∃ (k : Nat) (line : CacheLine),
      set[k]? = some line ∧ line.valid = true ∧ line.tag = s.tag address
  · obtain ⟨k, line, hk, hv, ht⟩ := hh
    have e1 : s.hits + 1 + s.conflict_misses + 0 = s.hits + s.conflict_misses + 1 := by omega
    exact ⟨set, true, _, set, 0, hl, SetAssociativeCache.sa_access_hit r hb hl hlen hk hv ht, h,
      (set_eq_self_of_getElem? hl).symm, rfl, rfl, rfl, rfl, rfl, rfl, e1,
      Or.inl ⟨⟨k, line, hk, hv, ht⟩, rfl, rfl⟩⟩
  · have hmiss : ∀ line ∈ set, ¬ (line.valid = true ∧ line.tag = s.tag address) := by
      intro line hm hc
      obtain ⟨k, hk⟩ := List.mem_iff_getElem?.mp hm
      exact hh ⟨k, line, hk, hc⟩
    obtain ⟨k, y, hsc, -, hk2, hk3, hk4, hk5⟩ | ⟨hsc, h2⟩ :=
      scan_first_spec set (fun l => !l.valid) s.ways 0 (by omega)
    · have hyv : y.valid = false := by simpa using hk4
      have hfirst : ∀ j x, j < k → set[j]? = some x → x.valid = true := by
        intro j x hj hx
        simpa using hk5 j x (Nat.zero_le _) hj hx
      exact ⟨set, false, _, _, 1, hl,
        SetAssociativeCache.sa_access_compulsory r hb hl hlen hmiss hk3 hyv hfirst,
        SetAssociativeCache.sa_wf_of_step h rfl (by rw [List.length_set, hlen]) rfl rfl rfl rfl,
        rfl, rfl, rfl, rfl, rfl, rfl, rfl, rfl,
        Or.inr (Or.inl ⟨hmiss, rfl, k, y, hk3, hyv, hsc, rfl⟩)⟩
    · have hfull : ∀ line ∈ set, line.valid = true := by
        intro line hm
        obtain ⟨k, hk⟩ := List.mem_iff_getElem?.mp hm
        have hklt : k < set.length := (List.getElem?_eq_some.mp hk).1
        simpa using h2 k line (Nat.zero_le _) (by omega) hk
      have hfull1 : ∀ line ∈ set.set (r % s.ways) { tag := s.tag address, valid := true },
          line.valid = true := by
        intro line hm
        rcases List.mem_or_eq_of_mem_set hm with h3 | h3
        · exact hfull line h3
        · rw [h3]
      exact ⟨set, false, _, _, 0, hl,
        SetAssociativeCache.sa_access_conflict r hb hl hlen hw hmiss hfull,
        SetAssociativeCache.sa_wf_of_step h rfl (by rw [List.length_set, hlen]) rfl rfl rfl rfl,
        rfl, rfl, rfl, rfl, rfl, rfl, rfl, rfl,
        Or.inr (Or.inr ⟨hmiss, rfl, hsc, hfull, hfull1⟩)⟩

theorem SetAssociativeCache.sa_same_fill_refl (s : SetAssociativeCache) : s.SameFill s := by
  refine ⟨rfl, rfl, rfl, rfl, rfl, rfl, rfl, fun i set1 set2 h1 h2 => Or.inl ?_⟩
  exact Option.some.inj (h2.symm.trans h1)

theorem SetAssociativeCache.sa_same_fill_step {s t : SetAssociativeCache} (hs : s.WF)
    (ht : t.WF) (hrel : s.SameFill t) (address r1 r2 : Nat) :
    ∃ hit1 s1 hit2 t1, s.access address r1 = some (hit1, s1) ∧
      t.access address r2 = some (hit2, t1) ∧ s1.WF ∧ t1.WF ∧ s1.SameFill t1 := by
  obtain ⟨set, hit1, s1, set1, d1, hl, hacc, hwf1, hc1, hw1, hn1, hi1, ho1, hcap1, hcomp1,
    hsum1, he1⟩ := SetAssociativeCache.sa_access_effect hs address r1
  obtain ⟨set', hit2, t1, set2, d2, hl', hacc', hwf2, hc2, hw2, hn2, hi2, ho2, hcap2, hcomp2,
    hsum2, he2⟩ := SetAssociativeCache.sa_access_effect ht address r2
  obtain ⟨rw, rn, ri, ro, rcomp, rcap, rsum, rsets⟩ := hrel
  have hidx : t.index address = s.index address :=
    SetAssociativeCache.sa_index_congr ro rn address
  have htag : t.tag address = s.tag address := SetAssociativeCache.sa_tag_congr ro ri address
  rw [hidx] at hl' hc2
  rw [htag, rw] at he2
  have hpair : d2 = d1 ∧ (set2 = set1 ∨
      ((∀ line ∈ set1, line.valid = true) ∧ ∀ line ∈ set2, line.valid = true)) := by
    rcases rsets _ set set' hl hl' with heq | ⟨hf, hf'⟩
    · rw [heq] at he2
      exact SetAssociativeCache.sa_effect_unique he1 he2
    · obtain ⟨hd1, hf1⟩ := SetAssociativeCache.sa_effect_full he1 hf
      obtain ⟨hd2, hf2⟩ := SetAssociativeCache.sa_effect_full he2 hf'
      exact ⟨hd2.trans hd1.symm, Or.inr ⟨hf1, hf2⟩⟩
  have hlt : s.index address < s.cache.length := (List.getElem?_eq_some.mp hl).1
  have hlt' : s.index address < t.cache.length := (List.getElem?_eq_some.mp hl').1
  have hd := hpair.1
  refine ⟨hit1, s1, hit2, t1, hacc, hacc', hwf1, hwf2, hw2.trans (rw.trans hw1.symm),
    hn2.trans (rn.trans hn1.symm), hi2.trans (ri.trans hi1.symm),
    ho2.trans (ro.trans ho1.symm), by omega, hcap2.trans (rcap.trans hcap1.symm), by omega, ?_⟩
  intro i x y hx hy
  rw [hc1] at hx
  rw [hc2] at hy
  by_cases hi : s.index address = i
  · subst hi
    rw [List.getElem?_set_self hlt] at hx
    rw [List.getElem?_set_self hlt'] at hy
    obtain rfl := Option.some.inj hx
    obtain rfl := Option.some.inj hy
    exact hpair.2
  · rw [List.getElem?_set_ne hi] at hx hy
    exact rsets i x y hx hy

theorem SetAssociativeCache.sa_same_fill_run (l1 : List (Nat × Nat)) :
    ∀ (s t : SetAssociativeCache) (l2 : List (Nat × Nat)), s.WF → t.WF → s.SameFill t →
      l1.map Prod.fst = l2.map Prod.fst →
      ∃ s1 t1, s.run l1 = some s1 ∧ t.run l2 = some t1 ∧ s1.SameFill t1 := by
  induction l1 with
  | nil =>
    intro s t l2 _ _ hrel ha
    cases l2 with
    | nil => exact ⟨s, t, rfl, rfl, hrel⟩
    | cons y rest => simp at ha
  | cons x rest1 ih =>
    intro s t l2 hs ht hrel ha
    cases l2 with
    | nil => simp at ha
    | cons y rest2 =>
      obtain ⟨a, r1⟩ := x
      obtain ⟨a2, r2⟩ := y
      simp only [List.map_cons, List.cons.injEq] at ha
      obtain ⟨rfl, ha2⟩ := ha
      obtain ⟨hit1, s1, hit2, t1, hacc1, hacc2, hwf1, hwf2, hrel1⟩ :=
        SetAssociativeCache.sa_same_fill_step hs ht hrel a r1 r2
      obtain ⟨s2, t2, hr1, hr2, hrel2⟩ := ih s1 t1 rest2 hwf1 hwf2 hrel1 ha2
      exact ⟨s2, t2, (SetAssociativeCache.sa_run_cons hacc1 rest1).trans hr1,
        (SetAssociativeCache.sa_run_cons hacc2 rest2).trans hr2, hrel2⟩

theorem SetAssociativeCache.sa_draw_free {s0 : SetAssociativeCache} (h : s0.WF)
    (hc : s0.capacity_misses = 0) (l1 l2 : List (Nat × Nat))
    (ha : l1.map Prod.fst = l2.map Prod.fst) :
    ∃ s1 s2, s0.run l1 = some s1 ∧ s0.run l2 = some s2 ∧
      s1.compulsory_misses = s2.compulsory_misses ∧
      s1.capacity_misses = 0 ∧ s2.capacity_misses = 0 ∧
      s1.hits + s1.conflict_misses = s2.hits + s2.conflict_misses ∧
      (l1.map (fun x => x.2 % s0.ways) = l2.map (fun x => x.2 % s0.ways) → s1 = s2) := by
  obtain ⟨s1, s2, hr1, hr2, -, -, -, -, hcomp, hcap, hsum, -⟩ :=
    SetAssociativeCache.sa_same_fill_run l1 s0 s0 l2 h h
      (SetAssociativeCache.sa_same_fill_refl s0) ha
  obtain ⟨s3, hr3, -, -, hcap3, -⟩ := SetAssociativeCache.sa_run_total h l1
  have hc1 : s1.capacity_misses = 0 := by
    rw [hr1] at hr3
    obtain rfl := Option.some.inj hr3
    exact hcap3.trans hc
  refine ⟨s1, s2, hr1, hr2, hcomp.symm, hc1, hcap.trans hc1, hsum.symm, fun hr => ?_⟩
  obtain ⟨s4, h41, h42⟩ := SetAssociativeCache.sa_run_congr l1 s0 l2 h ha hr
  rw [hr1] at h41
  rw [hr2] at h42
  exact (Option.some.inj h41).trans (Option.some.inj h42).symm

theorem FullyAssociativeCache.fa_draw_free {s0 : FullyAssociativeCache} (h : s0.WF)
    (hh : s0.hits = 0) (hc : s0.compulsory_misses = 0) (hcap : s0.capacity_misses = 0)
    (hconf : s0.conflict_misses = 0) (hf : s0.filled_blocks = 0)
    (l1 l2 : List (Nat × Nat)) (ha : l1.map Prod.fst = l2.map Prod.fst) :
    ∃ s1 s2, s0.run l1 = some s1 ∧ s0.run l2 = some s2 ∧
      s1.compulsory_misses = s2.compulsory_misses ∧
      s1.conflict_misses = 0 ∧ s2.conflict_misses = 0 ∧
      s1.hits + s1.capacity_misses = s2.hits + s2.capacity_misses ∧
      (l1.map (fun x => x.2 % s0.num_total_blocks) =
        l2.map (fun x => x.2 % s0.num_total_blocks) → s1 = s2) := by
  have hJ0 := FullyAssociativeCache.fa_seen_fresh hc hf
  obtain ⟨s1, hr1, -, ⟨hJ1, -, -⟩, -, hn1⟩ := FullyAssociativeCache.fa_seen_run h hJ0 l1
  obtain ⟨s2, hr2, -, ⟨hJ2, -, -⟩, -, hn2⟩ := FullyAssociativeCache.fa_seen_run h hJ0 l2
  obtain ⟨s3, hr3, -, ht3, hc3, -⟩ := FullyAssociativeCache.fa_run_total h l1
  obtain ⟨s4, hr4, -, ht4, hc4, -⟩ := FullyAssociativeCache.fa_run_total h l2
  rw [hr1] at hr3
  rw [hr2] at hr4
  obtain rfl := Option.some.inj hr3
  obtain rfl := Option.some.inj hr4
  have htags : l1.map (fun x => s0.tag x.1) = l2.map (fun x => s0.tag x.1) := by
    have e : ∀ l : List (Nat × Nat), l.map (fun x => s0.tag x.1) = (l.map Prod.fst).map s0.tag := by
      intro l
      rw [List.map_map]
      rfl
    rw [e l1, e l2, ha]
  have hlen : l1.length = l2.length := by
    have := congrArg List.length ha
    simpa using this
  have hcomp : s1.compulsory_misses = s2.compulsory_misses := by
    rw [hJ1, hJ2, hn1, hn2, htags]
  have hc1 : s1.conflict_misses = 0 := hc3.trans hconf
  have hc2 : s2.conflict_misses = 0 := hc4.trans hconf
  simp only [CacheSimulator.total_accesses] at ht3 ht4
  refine ⟨s1, s2, hr1, hr2, hcomp, hc1, hc2, by omega, fun hr => ?_⟩
  obtain ⟨s5, h51, h52⟩ := FullyAssociativeCache.fa_run_congr l1 s0 l2 h ha (fun _ => hr)
  rw [hr1] at h51
  rw [hr2] at h52
  exact (Option.some.inj h51).trans (Option.some.inj h52).symm

/-- C9, amended: two runs of one address sequence on fresh caches of one valid
configuration.  (1) In a fully-associative cache with policy LRU, LFU or FIFO
both runs end in the same state, hence with the same four counters, whatever
the values of `rand()`.  (2) In a fully-associative cache with any policy, in
particular RANDOM, whatever the values of `rand()` the two runs end with the
same `compulsory_misses`, with `conflict_misses = 0` and with the same sum
`hits + capacity_misses`; they end in the same state when the values of
`rand()` agree modulo the block count.  (3) In a set-associative cache,
whatever the values of `rand()`, the two runs end with the same
`compulsory_misses`, with `capacity_misses = 0` and with the same sum
`hits + conflict_misses`; they end in the same state when the values of
`rand()` agree modulo the way count.  (4) A direct-mapped cache takes no
value of `rand()` at all and its run always returns. -/
theorem C9_statistics_reproducible_up_to_draws :
    (∀ size_kb blk_size p, ValidBlocks size_kb blk_size → p ≠ ReplacementPolicy.RANDOM →
      ∃ s0, FullyAssociativeCache.new size_kb blk_size p = some s0 ∧
        ∀ l1 l2 : List (Nat × Nat), l1.map Prod.fst = l2.map Prod.fst →
          ∃ s, s0.run l1 = some s ∧ s0.run l2 = some s) ∧
    (∀ size_kb blk_size p, ValidBlocks size_kb blk_size →
      ∃ s0, FullyAssociativeCache.new size_kb blk_size p = some s0 ∧
        ∀ l1 l2 : List (Nat × Nat), l1.map Prod.fst = l2.map Prod.fst →
          ∃ s1 s2, s0.run l1 = some s1 ∧ s0.run l2 = some s2 ∧
            s1.compulsory_misses = s2.compulsory_misses ∧
            s1.conflict_misses = 0 ∧ s2.conflict_misses = 0 ∧
            s1.hits + s1.capacity_misses = s2.hits + s2.capacity_misses ∧
            (l1.map (fun x => x.2 % (size_kb * 1024 / blk_size)) =
              l2.map (fun x => x.2 % (size_kb * 1024 / blk_size)) → s1 = s2)) ∧
    (∀ size_kb blk_size num_ways, ValidWays size_kb blk_size num_ways →
      ∃ s0, SetAssociativeCache.new size_kb blk_size num_ways = some s0 ∧
        ∀ l1 l2 : List (Nat × Nat), l1.map Prod.fst = l2.map Prod.fst →
          ∃ s1 s2, s0.run l1 = some s1 ∧ s0.run l2 = some s2 ∧
            s1.compulsory_misses = s2.compulsory_misses ∧
            s1.capacity_misses = 0 ∧ s2.capacity_misses = 0 ∧
            s1.hits + s1.conflict_misses = s2.hits + s2.conflict_misses ∧
            (l1.map (fun x => x.2 % num_ways) = l2.map (fun x => x.2 % num_ways) →
              s1 = s2)) ∧
    (∀ size_kb blk_size, ValidConfig size_kb blk_size →
      ∃ s0, DirectMappedCache.new size_kb blk_size = some s0 ∧
        ∀ addrs : List Nat, ∃ s, s0.run addrs = some s) := by
  refine ⟨?_, ?_, ?_, ?_⟩
  · intro size_kb blk_size p hv hp
    obtain ⟨s0, hnew, hwf, -, -, -, -, hpol, -⟩ := FullyAssociativeCache.fa_fresh p hv
    refine ⟨s0, hnew, fun l1 l2 ha => ?_⟩
    exact FullyAssociativeCache.fa_run_congr l1 s0 l2 hwf ha
      (fun hr => absurd (hpol.symm.trans hr) hp)
  · intro size_kb blk_size p hv
    obtain ⟨s0, hnew, hwf, hh, hc, hcap, hconf, -, hf, -, hn, -⟩ :=
      FullyAssociativeCache.fa_fresh p hv
    refine ⟨s0, hnew, fun l1 l2 ha => ?_⟩
    rw [← hn]
    exact FullyAssociativeCache.fa_draw_free hwf hh hc hcap hconf hf l1 l2 ha
  · intro size_kb blk_size num_ways hv
    obtain ⟨s0, hnew, hwf, -, -, hcap, -, hw, -⟩ := SetAssociativeCache.sa_fresh hv
    refine ⟨s0, hnew, fun l1 l2 ha => ?_⟩
    rw [← hw]
    exact SetAssociativeCache.sa_draw_free hwf hcap l1 l2 ha
  · intro size_kb blk_size hv
    obtain ⟨s0, hnew, hwf, -⟩ := DirectMappedCache.dm_fresh hv
    refine ⟨s0, hnew, fun addrs => ?_⟩
    obtain ⟨s, hrun, -⟩ := DirectMappedCache.dm_run_total hwf addrs
    exact ⟨s, hrun⟩

/-- Witness of C9 (amended): at 1 KB with 512-byte blocks, an LRU cache run
with different values of `rand()`; a RANDOM cache and a 2-way cache run on
0, 512, 1024, 0 with victim draws 0 and 1 at the third access; a
direct-mapped cache. -/
theorem C9_statistics_reproducible_up_to_draws_witness :
    (ValidBlocks 1 512 ∧ ∃ s0 s, FullyAssociativeCache.new 1 512 ReplacementPolicy.LRU = some s0 ∧
      s0.run [(0, 3), (512, 1), (1024, 4)] = some s ∧
      s0.run [(0, 1), (512, 5), (1024, 9)] = some s) ∧
    (∃ s0 s1 s2, FullyAssociativeCache.new 1 512 ReplacementPolicy.RANDOM = some s0 ∧
      s0.run [(0, 0), (512, 0), (1024, 0), (0, 0)] = some s1 ∧
      s0.run [(0, 0), (512, 0), (1024, 1), (0, 0)] = some s2 ∧
      s1.compulsory_misses = s2.compulsory_misses ∧
      s1.conflict_misses = 0 ∧ s2.conflict_misses = 0 ∧
      s1.hits + s1.capacity_misses = s2.hits + s2.capacity_misses) ∧
    (ValidWays 1 512 2 ∧ ∃ s0 s1 s2, SetAssociativeCache.new 1 512 2 = some s0 ∧
      s0.run [(0, 0), (512, 0), (1024, 0), (0, 0)] = some s1 ∧
      s0.run [(0, 0), (512, 0), (1024, 1), (0, 0)] = some s2 ∧
      s1.compulsory_misses = s2.compulsory_misses ∧
      s1.capacity_misses = 0 ∧ s2.capacity_misses = 0 ∧
      s1.hits + s1.conflict_misses = s2.hits + s2.conflict_misses) ∧
    (ValidConfig 1 512 ∧ ∃ s0 s, DirectMappedCache.new 1 512 = some s0 ∧
      s0.run [0, 512, 1024] = some s) := by
  have hv1 : ValidConfig 1 512 := ⟨by decide, ⟨9, rfl⟩, ⟨1, rfl⟩⟩
  have hv2 : ValidWays 1 512 2 := ⟨hv1, ⟨1, rfl⟩, by decide⟩
  have hv3 : ValidBlocks 1 512 := ⟨by decide, ⟨9, rfl⟩, by decide⟩
  obtain ⟨h1, h2, h3, h4⟩ := C9_statistics_reproducible_up_to_draws
  obtain ⟨a0, ha, hra⟩ := h1 1 512 ReplacementPolicy.LRU hv3 (by decide)
  obtain ⟨b0, hb, hrb⟩ := h2 1 512 ReplacementPolicy.RANDOM hv3
  obtain ⟨c0, hc, hrc⟩ := h3 1 512 2 hv2
  obtain ⟨d0, hd, hrd⟩ := h4 1 512 hv1
  obtain ⟨a, ha1, ha2⟩ := hra [(0, 3), (512, 1), (1024, 4)] [(0, 1), (512, 5), (1024, 9)]
    (by decide)
  obtain ⟨b1, b2, hb1, hb2, hb3, hb4, hb5, hb6, -⟩ :=
    hrb [(0, 0), (512, 0), (1024, 0), (0, 0)] [(0, 0), (512, 0), (1024, 1), (0, 0)] (by decide)
  obtain ⟨c1, c2, hc1, hc2, hc3, hc4, hc5, hc6, -⟩ :=
    hrc [(0, 0), (512, 0), (1024, 0), (0, 0)] [(0, 0), (512, 0), (1024, 1), (0, 0)] (by decide)
  obtain ⟨d, hd1⟩ := hrd [0, 512, 1024]
  exact ⟨⟨hv3, a0, a, ha, ha1, ha2⟩, ⟨b0, b1, b2, hb, hb1, hb2, hb3, hb4, hb5, hb6⟩,
    ⟨hv2, c0, c1, c2, hc, hc1, hc2, hc3, hc4, hc5, hc6⟩, ⟨hv1, d0, d, hd, hd1⟩⟩

end CacheSim
